import Mathlib

/-!
Verification development for the Gmail unsubscribe batch script
(`src/main.py`, class `GmailUnsubscriber`).

The Python code is shallowly embedded: every method that the claims touch
is translated into an executable Lean definition.  Remote services
(Gmail API, HTTP endpoints) are modelled as explicit oracle functions
packaged in a `World`; mutating remote calls are recorded as `Event`s;
Python exceptions that the code lets escape are modelled with `Except`.
Strings are modelled as Lean `String` (lists of characters); Python's
ASCII-relevant behaviour of `str.lower`, `str.strip` and the fixed
regular expressions is implemented directly on character lists.
-/

namespace Gmail

/-! ## Character and string primitives (Python `str` operations) -/

/-- Python `str.lower` restricted to ASCII letters (all strings handled by
the script are ASCII header values, addresses and URLs). -/
def lowerChar (c : Char) : Char :=
  if 'A' ≤ c ∧ c ≤ 'Z' then Char.ofNat (c.toNat + 32) else c

/-- Python `str.lower` on a character list. -/
def lowerL (l : List Char) : List Char := l.map lowerChar

/-- Python `str.strip()` whitespace set (ASCII part): space, tab, LF, CR,
vertical tab, form feed. -/
def isPyWs (c : Char) : Bool :=
  c = ' ' || c = '\t' || c = '\n' || c = '\x0d' || c = '\x0b' || c = '\x0c'

/-- Strip characters satisfying `p` from both ends (Python `str.strip`). -/
def pyStripWithL (p : Char → Bool) (l : List Char) : List Char :=
  ((l.dropWhile p).reverse.dropWhile p).reverse

/-- Python `str.strip()` on a character list. -/
def pyStripL (l : List Char) : List Char := pyStripWithL isPyWs l

/-- Python `str.strip()`. -/
def pyStrip (s : String) : String := ⟨pyStripL s.data⟩

/-- Python `str.lower()`. -/
def pyLower (s : String) : String := ⟨lowerL s.data⟩

/-- Canonical key `sender_email.lower().strip()` — the canonical sender key used by
`is_already_unsubscribed`, `add_to_unsubscribe_history`,
`group_emails_by_sender` and both batch strategies. -/
def senderKeyOf (e : String) : String := pyStrip (pyLower e)

/-- Python `"pat" in s` (substring test) on character lists. -/
def containsSubL (pat : List Char) : List Char → Bool
  | [] => pat.isEmpty
  | l@(_ :: rest) => pat.isPrefixOf l || containsSubL pat rest

/-- Cleanup `link.strip('<>')` — strip angle brackets from both ends. -/
def stripLtGt (s : String) : String :=
  ⟨pyStripWithL (fun c => c = '<' || c = '>') s.data⟩

/-- Cleanup `name.strip('"')` — strip double quotes from both ends. -/
def stripDq (s : String) : String :=
  ⟨pyStripWithL (fun c => c = '"') s.data⟩

/-- Python `list(set(xs))`: duplicates removed.  CPython's set iteration
order is implementation defined; the model keeps the first occurrence of
each element.  Every theorem below that depends on this list treats it as
a set (membership only), so the choice of order is immaterial. -/
def pySetList (l : List String) : List String :=
  go l []
where
  go : List String → List String → List String
    | [], _ => []
    | x :: rest, seen =>
      if seen.contains x then go rest seen else x :: go rest (x :: seen)

theorem pySetList_go_mem (l : List String) (seen : List String) (u : String) :
    u ∈ pySetList.go l seen ↔ u ∈ l ∧ ¬ u ∈ seen := by
  induction l generalizing seen with
  | nil => simp [pySetList.go]
  | cons x rest ih =>
    cases hx : seen.contains x with
    | true =>
      have hxs : x ∈ seen := by simpa using hx
      simp only [pySetList.go, hx, if_true, ih, List.mem_cons]
      constructor
      · rintro ⟨h1, h2⟩; exact ⟨Or.inr h1, h2⟩
      · rintro ⟨h1 | h1, h2⟩
        · subst h1; exact absurd hxs h2
        · exact ⟨h1, h2⟩
    | false =>
      have hxs : ¬ x ∈ seen := by
        intro hmem
        rw [show seen.contains x = true by simpa using hmem] at hx
        cases hx
      simp only [pySetList.go, hx, Bool.false_eq_true, if_false, List.mem_cons, ih]
      constructor
      · rintro (h | ⟨h1, h2⟩)
        · exact ⟨Or.inl h, h ▸ hxs⟩
        · refine ⟨Or.inr h1, fun hs => h2 (Or.inr hs)⟩
      · rintro ⟨h1 | h1, h2⟩
        · exact Or.inl h1
        · by_cases hux : u = x
          · exact Or.inl hux
          · refine Or.inr ⟨h1, fun hs => ?_⟩
            rcases hs with h | h
            · exact hux h
            · exact h2 h

theorem pySetList_mem (l : List String) (u : String) :
    u ∈ pySetList l ↔ u ∈ l := by
  unfold pySetList
  rw [pySetList_go_mem]
  simp

/-! ## Message data model

A Gmail API message as consumed by the script: an opaque `id`, the
`payload.headers` list, and the `payload` body-part tree.  A body part
(`Part`) carries a MIME type, an optional base64url `body.data` payload
and a list of nested parts (`'parts' in part`).  The nested list is
represented by the mutual type `PartList` so that structural recursion
and induction stay simple. -/

structure Header where
  name : String
  value : String
deriving DecidableEq

mutual
inductive Part where
  | mk (mimeType : String) (data : Option String) (parts : PartList)
inductive PartList where
  | nil
  | cons (p : Part) (ps : PartList)
end

def Part.mimeType : Part → String
  | .mk m _ _ => m

def Part.data : Part → Option String
  | .mk _ d _ => d

def Part.parts : Part → PartList
  | .mk _ _ ps => ps

structure Message where
  id : String
  headers : List Header
  payload : Part

/-- A message stub as returned by `users().messages().list` (only the id
is used by the script). -/
structure Stub where
  id : String
deriving DecidableEq

/-! ## base64url and UTF-8 decoding (`base64.urlsafe_b64decode` and
`bytes.decode('utf-8', errors='ignore')`)

`urlsafe_b64decode` discards characters outside the base64url alphabet,
then decodes; a leftover group of one character, or a 2/3 character
final group without enough `=` padding, raises `binascii.Error`
(modelled as `none`).  The UTF-8 decoder with `errors='ignore'` is
total: bytes that do not form a valid sequence are dropped. -/

def b64Char (c : Char) : Bool :=
  ('A' ≤ c ∧ c ≤ 'Z') || ('a' ≤ c ∧ c ≤ 'z') || ('0' ≤ c ∧ c ≤ '9') ||
    c = '-' || c = '_'

def b64Val (c : Char) : Nat :=
  if 'A' ≤ c ∧ c ≤ 'Z' then c.toNat - 65
  else if 'a' ≤ c ∧ c ≤ 'z' then c.toNat - 97 + 26
  else if '0' ≤ c ∧ c ≤ '9' then c.toNat - 48 + 52
  else if c = '-' then 62
  else 63

def decodeQuads : List Char → List Nat
  | c1 :: c2 :: c3 :: c4 :: rest =>
    let n := b64Val c1 * 262144 + b64Val c2 * 4096 + b64Val c3 * 64 + b64Val c4
    (n / 65536) :: (n / 256 % 256) :: (n % 256) :: decodeQuads rest
  | [c1, c2, c3] =>
    let n := b64Val c1 * 4096 + b64Val c2 * 64 + b64Val c3
    [n / 1024, n / 4 % 256]
  | [c1, c2] =>
    let n := b64Val c1 * 64 + b64Val c2
    [n / 16]
  | _ => []

/-- Model of `base64.urlsafe_b64decode` on the character list of the payload string;
`none` models a raised `binascii.Error` (incorrect padding). -/
def b64urlDecode (l : List Char) : Option (List Nat) :=
  let cs := l.filter (fun c => b64Char c || c = '=')
  let data := cs.takeWhile (· ≠ '=')
  let pads := ((cs.dropWhile (· ≠ '=')).takeWhile (· = '=')).length
  if data.length % 4 = 0 then some (decodeQuads data)
  else if data.length % 4 = 2 ∧ pads ≥ 2 then some (decodeQuads data)
  else if data.length % 4 = 3 ∧ pads ≥ 1 then some (decodeQuads data)
  else none

def isContB (b : Nat) : Bool := 128 ≤ b ∧ b ≤ 191

def cont2ok (b b1 : Nat) : Bool :=
  if b = 224 then 160 ≤ b1 ∧ b1 ≤ 191
  else if b = 237 then 128 ≤ b1 ∧ b1 ≤ 159
  else isContB b1

def cont3ok (b b1 : Nat) : Bool :=
  if b = 240 then 144 ≤ b1 ∧ b1 ≤ 191
  else if b = 244 then 128 ≤ b1 ∧ b1 ≤ 143
  else isContB b1

/-- Decode one UTF-8 sequence starting at byte `b` with remaining bytes
`rest`; returns the decoded character (`none` for an invalid byte, which
`errors='ignore'` drops) and the bytes still to decode. -/
def utf8Step (b : Nat) (rest : List Nat) : Option Char × List Nat :=
  if b < 128 then (some (Char.ofNat b), rest)
  else if 194 ≤ b ∧ b ≤ 223 then
    match rest with
    | b1 :: rest1 =>
      if isContB b1 then
        (some (Char.ofNat ((b - 192) * 64 + (b1 - 128))), rest1)
      else (none, rest)
    | [] => (none, [])
  else if 224 ≤ b ∧ b ≤ 239 then
    match rest with
    | b1 :: b2 :: rest2 =>
      if cont2ok b b1 && isContB b2 then
        (some (Char.ofNat ((b - 224) * 4096 + (b1 - 128) * 64 + (b2 - 128))),
          rest2)
      else (none, rest)
    | _ => (none, rest)
  else if 240 ≤ b ∧ b ≤ 244 then
    match rest with
    | b1 :: b2 :: b3 :: rest3 =>
      if cont3ok b b1 && isContB b2 && isContB b3 then
        (some (Char.ofNat ((b - 240) * 262144 + (b1 - 128) * 4096 +
            (b2 - 128) * 64 + (b3 - 128))), rest3)
      else (none, rest)
    | _ => (none, rest)
  else (none, rest)

theorem utf8Step_length (b : Nat) (rest : List Nat) :
    (utf8Step b rest).2.length ≤ rest.length := by
  unfold utf8Step
  repeat' split
  all_goals simp_all
  all_goals omega

/-- Fuelled UTF-8 decoding loop; each step consumes at least one byte,
so fuel equal to the byte count always suffices. -/
def utf8Go : Nat → List Nat → List Char
  | _, [] => []
  | 0, _ :: _ => []
  | fuel + 1, b :: rest =>
    match utf8Step b rest with
    | (some c, rem) => c :: utf8Go fuel rem
    | (none, rem) => utf8Go fuel rem

/-- Model of `bytes.decode('utf-8', errors='ignore')`: total decoding, invalid
bytes dropped. -/
def utf8DecodeIgnore (l : List Nat) : List Char := utf8Go l.length l

/-- Decode one body-part payload exactly as
`base64.urlsafe_b64decode(data).decode('utf-8', errors='ignore')` does:
`none` models the uncaught `binascii.Error` of the base64 step. -/
def decodePayload (d : String) : Option String :=
  (b64urlDecode d.data).map (fun bs => ⟨utf8DecodeIgnore bs⟩)

/-! ## `get_message_body` -/

/-- Is this part's text appended to the body?  (`mimeType` equal to
`text/plain` or `text/html` and a present `body.data`.) -/
def isTextMime (m : String) : Bool :=
  m = "text/plain" || m = "text/html"

/-- The text contributed by one part's own payload: the two `text/plain`
/ `text/html` branches of `extract_text_from_part`.  `Except.error`
models the `binascii.Error` that `base64.urlsafe_b64decode` raises on
invalid padding and that the Python code does not catch. -/
def partOwnText (mime : String) (dat : Option String) : Except Unit String :=
  if isTextMime mime then
    match dat with
    | some d =>
      match decodePayload d with
      | some s => Except.ok s
      | none => Except.error ()
    | none => Except.ok ""
  else Except.ok ""

/-- Does this part's own payload decode without raising? -/
def partOwnOk (mime : String) (dat : Option String) : Bool :=
  if isTextMime mime then
    match dat with
    | some d => (decodePayload d).isSome
    | none => true
  else true

/-- The part's own decoded text in the best-effort reading (failures
contribute nothing). -/
def partOwnStr (mime : String) (dat : Option String) : String :=
  if isTextMime mime then
    match dat with
    | some d => (decodePayload d).getD ""
    | none => ""
  else ""

theorem partOwnText_eq (mime : String) (dat : Option String) :
    partOwnText mime dat =
      if partOwnOk mime dat then Except.ok (partOwnStr mime dat)
      else Except.error () := by
  unfold partOwnText partOwnOk partOwnStr
  by_cases hm : isTextMime mime = true
  · simp only [hm, if_true]
    match dat with
    | some d =>
      match hdec : decodePayload d with
      | some s => simp [hdec]
      | none => simp [hdec]
    | none => simp
  · have hm' : isTextMime mime = false := by
      cases hb : isTextMime mime
      · rfl
      · exact absurd hb hm
    simp [hm']

mutual
/-- Function `extract_text_from_part` of `get_message_body`: the part's own payload
(decoded) followed by the recursive traversal of its sub-parts; a raised
decode error aborts the whole traversal. -/
def extractTextFromPart : Part → Except Unit String
  | .mk mime dat ps =>
    match partOwnText mime dat with
    | Except.error e => Except.error e
    | Except.ok s1 =>
      match extractTextFromParts ps with
      | Except.error e => Except.error e
      | Except.ok s2 => Except.ok (s1 ++ s2)

def extractTextFromParts : PartList → Except Unit String
  | .nil => Except.ok ""
  | .cons p ps =>
    match extractTextFromPart p with
    | Except.error e => Except.error e
    | Except.ok s1 =>
      match extractTextFromParts ps with
      | Except.error e => Except.error e
      | Except.ok s2 => Except.ok (s1 ++ s2)
end

/-- Python `get_message_body(message)`. -/
def get_message_body (m : Message) : Except Unit String :=
  extractTextFromPart m.payload

mutual
/-- Modelled from the spec ("Recursively flatten the message's body parts
(depth-first, including nested multipart containers) into plain decoded
text, concatenating text/plain and text/html leaf payloads in traversal
order; decode failures are ignored silently"): the total, best-effort
flattening the specification describes, used to compare against
`get_message_body`. -/
def dfsBodyText : Part → String
  | .mk mime dat ps => partOwnStr mime dat ++ dfsBodyTextList ps

/-- List version of `dfsBodyText`. -/
def dfsBodyTextList : PartList → String
  | .nil => ""
  | .cons p ps => dfsBodyText p ++ dfsBodyTextList ps
end

mutual
/-- Every text part's payload decodes without a base64 error. -/
def allPayloadsDecode : Part → Bool
  | .mk mime dat ps => partOwnOk mime dat && allPayloadsDecodeList ps

/-- List version of `allPayloadsDecode`. -/
def allPayloadsDecodeList : PartList → Bool
  | .nil => true
  | .cons p ps => allPayloadsDecode p && allPayloadsDecodeList ps
end

theorem extractTextFromPart_mk (mime : String) (dat : Option String)
    (ps : PartList) :
    extractTextFromPart (.mk mime dat ps) =
      (match partOwnText mime dat with
        | Except.error e => Except.error e
        | Except.ok s1 =>
          match extractTextFromParts ps with
          | Except.error e => Except.error e
          | Except.ok s2 => Except.ok (s1 ++ s2)) := rfl

theorem extractTextFromParts_cons (p : Part) (ps : PartList) :
    extractTextFromParts (.cons p ps) =
      (match extractTextFromPart p with
        | Except.error e => Except.error e
        | Except.ok s1 =>
          match extractTextFromParts ps with
          | Except.error e => Except.error e
          | Except.ok s2 => Except.ok (s1 ++ s2)) := rfl

theorem allPayloadsDecode_mk (mime : String) (dat : Option String)
    (ps : PartList) :
    allPayloadsDecode (.mk mime dat ps) =
      (partOwnOk mime dat && allPayloadsDecodeList ps) := rfl

theorem allPayloadsDecodeList_cons (p : Part) (ps : PartList) :
    allPayloadsDecodeList (.cons p ps) =
      (allPayloadsDecode p && allPayloadsDecodeList ps) := rfl

theorem dfsBodyText_mk (mime : String) (dat : Option String) (ps : PartList) :
    dfsBodyText (.mk mime dat ps) = partOwnStr mime dat ++ dfsBodyTextList ps :=
  rfl

theorem dfsBodyTextList_cons (p : Part) (ps : PartList) :
    dfsBodyTextList (.cons p ps) = dfsBodyText p ++ dfsBodyTextList ps := rfl

mutual
theorem extractTextFromPart_eq (p : Part) :
    extractTextFromPart p =
      (if allPayloadsDecode p then Except.ok (dfsBodyText p)
       else Except.error ()) :=
  match p with
  | .mk mime dat ps => by
    have ih := extractTextFromParts_eq ps
    rw [extractTextFromPart_mk, partOwnText_eq, allPayloadsDecode_mk,
      dfsBodyText_mk, ih]
    cases hOk : partOwnOk mime dat
    · simp
    · cases hL : allPayloadsDecodeList ps
      · simp
      · simp

theorem extractTextFromParts_eq (ps : PartList) :
    extractTextFromParts ps =
      (if allPayloadsDecodeList ps then Except.ok (dfsBodyTextList ps)
       else Except.error ()) :=
  match ps with
  | .nil => rfl
  | .cons p ps' => by
    have ihp := extractTextFromPart_eq p
    have ihl := extractTextFromParts_eq ps'
    rw [extractTextFromParts_cons, ihp, ihl, allPayloadsDecodeList_cons,
      dfsBodyTextList_cons]
    cases hp : allPayloadsDecode p
    · simp
    · cases hl : allPayloadsDecodeList ps'
      · simp
      · simp
end

/-- Main structural fact about the body flattening: it succeeds exactly
when every text payload decodes, and then returns the depth-first
concatenation. -/
theorem get_message_body_eq (m : Message) :
    get_message_body m =
      (if allPayloadsDecode m.payload then Except.ok (dfsBodyText m.payload)
       else Except.error ()) :=
  extractTextFromPart_eq m.payload

/-! ## Regular-expression machinery

The script uses a fixed set of `re.findall` patterns.  Each is
implemented directly: `re.findall` scans left to right, emits
non-overlapping matches (continuing after each match) and advances one
character after a failed position.  Greedy character-class repetition
followed by a literal keyword is characterised by the maximal class run
and a keyword occurrence inside it. -/

/-- Utility: length of `dropWhile` never exceeds the input length. -/
theorem length_dropWhile_le (p : Char → Bool) (l : List Char) :
    (l.dropWhile p).length ≤ l.length := by
  induction l with
  | nil => simp [List.dropWhile]
  | cons c rest ih =>
    by_cases hp : p c = true
    · simp only [List.dropWhile, hp]
      exact Nat.le_succ_of_le ih
    · have hp' : p c = false := by
        cases hb : p c
        · rfl
        · exact absurd hb hp
      simp [List.dropWhile, hp']

/-- Case-insensitive literal prefix: if the first characters of `l`
lower to `pat`, return them (original case) and the remainder. -/
def stripCiPrefix (pat : List Char) (l : List Char) : Option (List Char × List Char) :=
  if lowerL (l.take pat.length) = pat ∧ pat.length ≤ l.length then
    some (l.take pat.length, l.drop pat.length)
  else none

theorem stripCiPrefix_length (pat l m r : List Char)
    (h : stripCiPrefix pat l = some (m, r)) :
    r.length + pat.length = l.length := by
  unfold stripCiPrefix at h
  split at h
  · rename_i hc
    cases h
    simp [List.length_drop]
    omega
  · cases h

/-- Literal `https?://` match, case sensitive (the `List-Unsubscribe`
header pattern has no `IGNORECASE` flag).  The optional `s` with
backtracking is equivalent to trying the longer literal first. -/
def matchSchemeCS (l : List Char) : Option (List Char × List Char) :=
  if l.take 8 = "https://".data then some ("https://".data, l.drop 8)
  else if l.take 7 = "http://".data then some ("http://".data, l.drop 7)
  else none

/-- Case-insensitive `https?://` (body patterns use `re.IGNORECASE`);
returns the matched text in its original case. -/
def matchSchemeCI (l : List Char) : Option (List Char × List Char) :=
  if lowerL (l.take 8) = "https://".data ∧ 8 ≤ l.length then
    some (l.take 8, l.drop 8)
  else if lowerL (l.take 7) = "http://".data ∧ 7 ≤ l.length then
    some (l.take 7, l.drop 7)
  else none

theorem matchSchemeCS_length (l sch r : List Char)
    (h : matchSchemeCS l = some (sch, r)) : r.length + 7 ≤ l.length := by
  unfold matchSchemeCS at h
  split at h
  · rename_i hc
    cases h
    have : l.length ≥ 8 := by
      have := congrArg List.length hc
      simp [List.length_take] at this
      omega
    simp [List.length_drop]
    omega
  · split at h
    · rename_i hc
      cases h
      have : l.length ≥ 7 := by
        have := congrArg List.length hc
        simp [List.length_take] at this
        omega
      simp [List.length_drop]
      omega
    · cases h

theorem matchSchemeCI_length (l sch r : List Char)
    (h : matchSchemeCI l = some (sch, r)) : r.length + 7 ≤ l.length := by
  unfold matchSchemeCI at h
  split at h
  · rename_i hc
    cases h
    simp [List.length_drop]
    omega
  · split at h
    · rename_i hc
      cases h
      simp [List.length_drop]
      omega
    · cases h

/-- Generic `re.findall` scanner: at each position try a match; on
success emit the captured text and continue after the match, otherwise
advance one character.  Fuelled so that it computes by kernel reduction;
fuel equal to the input length suffices whenever the matcher consumes at
least one character. -/
def findAllGo (t : List Char → Option (List Char × List Char)) :
    Nat → List Char → List (List Char)
  | _, [] => []
  | 0, _ :: _ => []
  | fuel + 1, c :: rest =>
    match t (c :: rest) with
    | some mr => mr.1 :: findAllGo t fuel mr.2
    | none => findAllGo t fuel rest

/-- The scanner with its canonical fuel. -/
def findAllRe (t : List Char → Option (List Char × List Char))
    (l : List Char) : List (List Char) :=
  findAllGo t l.length l

theorem findAllGo_fuel (t : List Char → Option (List Char × List Char))
    (ht : ∀ l mr, t l = some mr → mr.2.length < l.length) :
    ∀ fuel fuel' l, l.length ≤ fuel → l.length ≤ fuel' →
      findAllGo t fuel l = findAllGo t fuel' l := by
  intro fuel
  induction fuel with
  | zero =>
    intro fuel' l h1 _
    have : l = [] := by
      cases l with
      | nil => rfl
      | cons a b => simp at h1
    subst this
    cases fuel' <;> rfl
  | succ fuel ih =>
    intro fuel' l h1 h2
    cases l with
    | nil => cases fuel' <;> rfl
    | cons c rest =>
      have hfe : ∃ f2, fuel' = f2 + 1 := by
        cases fuel' with
        | zero => simp at h2
        | succ f2 => exact ⟨f2, rfl⟩
      obtain ⟨f2, rfl⟩ := hfe
      simp only [findAllGo]
      cases hm : t (c :: rest) with
      | some mr =>
        have hlt := ht (c :: rest) mr hm
        simp only [List.length_cons] at hlt h1 h2
        show mr.1 :: findAllGo t fuel mr.2 = mr.1 :: findAllGo t f2 mr.2
        rw [ih f2 mr.2 (by omega) (by omega)]
      | none =>
        simp only [List.length_cons] at h1 h2
        show findAllGo t fuel rest = findAllGo t f2 rest
        rw [ih f2 rest (by omega) (by omega)]

theorem findAllRe_nil (t : List Char → Option (List Char × List Char)) :
    findAllRe t [] = [] := rfl

theorem findAllRe_cons (t : List Char → Option (List Char × List Char))
    (ht : ∀ l mr, t l = some mr → mr.2.length < l.length)
    (c : Char) (rest : List Char) :
    findAllRe t (c :: rest) =
      (match t (c :: rest) with
       | some mr => mr.1 :: findAllRe t mr.2
       | none => findAllRe t rest) := by
  show findAllGo t (rest.length + 1) (c :: rest) = _
  simp only [findAllGo]
  cases hm : t (c :: rest) with
  | some mr =>
    have hlt := ht (c :: rest) mr hm
    simp only [List.length_cons] at hlt
    show mr.1 :: findAllGo t rest.length mr.2 = mr.1 :: findAllRe t mr.2
    rw [findAllGo_fuel t ht rest.length mr.2.length mr.2 (by omega) (by omega)]
    rfl
  | none =>
    show findAllGo t rest.length rest = findAllRe t rest
    rfl

/-- One attempt of the header pattern at a position standing right after
a literal character, i.e. the regex fragment after the opening bracket
of the full pattern: scheme, then one or more non-bracket characters,
then the closing bracket.  Returns the captured group and the remainder
after the closing bracket. -/
def hdrTryToken (l : List Char) : Option (List Char × List Char) :=
  match matchSchemeCS l with
  | none => none
  | some (sch, r) =>
    let run := r.takeWhile (· ≠ '>')
    if run.isEmpty then none
    else
      match r.dropWhile (· ≠ '>') with
      | _ :: rem => some (sch ++ run, rem)
      | [] => none

theorem hdrTryToken_length (l t rem : List Char)
    (h : hdrTryToken l = some (t, rem)) : rem.length < l.length := by
  unfold hdrTryToken at h
  split at h
  · cases h
  · rename_i sch r hsch
    have hr := matchSchemeCS_length l sch r hsch
    simp only at h
    split at h
    · cases h
    · split at h
      · rename_i rest2 hd
        cases h
        have h2 : (r.dropWhile (· ≠ '>')).length ≤ r.length :=
          length_dropWhile_le _ r
        rw [hd] at h2
        simp at h2
        omega
      · cases h

/-- One attempt of the whole header pattern `<(https?://[^>]+)>` at the
current position: the first character must be the literal bracket. -/
def hdrTry1 : List Char → Option (List Char × List Char)
  | [] => none
  | c :: rest => if c = '<' then hdrTryToken rest else none

theorem hdrTry1_length (l : List Char) (mr : List Char × List Char)
    (h : hdrTry1 l = some mr) : mr.2.length < l.length := by
  match l with
  | [] => exact Option.noConfusion h
  | c :: rest =>
    simp only [hdrTry1] at h
    by_cases hc : c = '<'
    · rw [if_pos hc] at h
      have hlt := hdrTryToken_length rest mr.1 mr.2 h
      simp only [List.length_cons]
      omega
    · rw [if_neg hc] at h
      exact Option.noConfusion h

/-- Model of the header pattern scan over the full
`List-Unsubscribe` header value (re.findall semantics). -/
def findAngleHttp : List Char → List (List Char) :=
  findAllRe hdrTry1

/-- One step of the sequential token parse: at an opening bracket
take the content up to the next closing bracket (requiring one). -/
def specTry1 : List Char → Option (List Char × List Char)
  | [] => none
  | c :: rest =>
    if c = '<' then
      match rest.dropWhile (· ≠ '>') with
      | _ :: rem => some (rest.takeWhile (· ≠ '>'), rem)
      | [] => none
    else none

theorem specTry1_length (l : List Char) (mr : List Char × List Char)
    (h : specTry1 l = some mr) : mr.2.length < l.length := by
  match l with
  | [] => exact Option.noConfusion h
  | c :: rest =>
    simp only [specTry1] at h
    by_cases hc : c = '<'
    · rw [if_pos hc] at h
      split at h
      · rename_i d rem hdrop
        cases h
        have h2 : (rest.dropWhile (· ≠ '>')).length ≤ rest.length :=
          length_dropWhile_le _ rest
        rw [hdrop] at h2
        simp only [List.length_cons] at h2 ⊢
        omega
      · exact Option.noConfusion h
    · rw [if_neg hc] at h
      exact Option.noConfusion h

/-- Modelled from the spec ("parse every angle-bracket-delimited `<...>`
token as a candidate"): sequential parse of a header value into the
contents of its bracket-delimited tokens. -/
def specAngleTokens : List Char → List (List Char) :=
  findAllRe specTry1

/-- State-machine form of bracket well-formedness: outside any bracket
region (state `false`) an opening bracket enters a region; inside
(state `true`) a second opening bracket is malformed and a closing
bracket leaves the region. -/
def wfAngleSt : Bool → List Char → Bool
  | _, [] => true
  | false, c :: rest =>
    if c = '<' then wfAngleSt true rest else wfAngleSt false rest
  | true, c :: rest =>
    if c = '<' then false
    else if c = '>' then wfAngleSt false rest
    else wfAngleSt true rest

/-- Well-formedness of a header value: no token region contains a second
opening bracket (so the sequential token parse and the regex scan agree). -/
def wfAngle (l : List Char) : Bool := wfAngleSt false l

/-- Does a token consist of a scheme plus a nonempty remainder, i.e.
does the fragment `https?://[^>]+` (case sensitive) match it entirely
from the start?  (Tokens produced by the parse never contain a closing
bracket, so only nonemptiness matters.) -/
def isSchemeToken (t : List Char) : Bool :=
  ("https://".data.isPrefixOf t ∧ 8 < t.length) ||
    ("http://".data.isPrefixOf t ∧ 7 < t.length)

/-! ## Body URL patterns -/

/-- Character class `[^\s<>"]` of the bare-URL body patterns. -/
def urlClass (c : Char) : Bool :=
  !(isPyWs c || c = '<' || c = '>' || c = '"')

/-- Does `kw` match a prefix of some suffix of `l` (an occurrence at any
offset)? -/
def anySuffix (kw : List Char → Bool) : List Char → Bool
  | [] => kw []
  | l@(_ :: rest) => kw l || anySuffix kw rest

/-- Does `kw` match at some offset at least 1 (the regexes require one or
more class characters before the keyword)? -/
def kwAtOffsetGe1 (kw : List Char → Bool) : List Char → Bool
  | [] => false
  | _ :: rest => anySuffix kw rest

/-- Keyword `unsubscribe`, case insensitive. -/
def kwUnsub (l : List Char) : Bool :=
  "unsubscribe".data.isPrefixOf (lowerL l)

/-- Keyword `opt[_-]?out`, case insensitive. -/
def kwOptOut (l : List Char) : Bool :=
  "optout".data.isPrefixOf (lowerL l) ||
    "opt-out".data.isPrefixOf (lowerL l) ||
    "opt_out".data.isPrefixOf (lowerL l)

/-- Keyword `remove`, case insensitive. -/
def kwRemove (l : List Char) : Bool :=
  "remove".data.isPrefixOf (lowerL l)

/-- One attempt of a bare-URL body pattern
(`https?://[^\s<>"]+KW[^\s<>"]*`, `re.IGNORECASE`) at the current
position.  The greedy class runs mean: the match succeeds iff the
keyword occurs inside the maximal class run after the scheme at offset
at least one, and then the whole match extends to the end of that run. -/
def tryBodyUrl (kw : List Char → Bool) (l : List Char) :
    Option (List Char × List Char) :=
  match matchSchemeCI l with
  | none => none
  | some (sch, r) =>
    let run := r.takeWhile urlClass
    if kwAtOffsetGe1 kw run then some (sch ++ run, r.drop run.length)
    else none

theorem tryBodyUrl_length (kw : List Char → Bool) (l : List Char)
    (mr : List Char × List Char) (h : tryBodyUrl kw l = some mr) :
    mr.2.length < l.length := by
  unfold tryBodyUrl at h
  split at h
  · cases h
  · rename_i sch r hsch
    have hr := matchSchemeCI_length l sch r hsch
    simp only at h
    split at h
    · cases h
      simp only [List.length_drop]
      omega
    · cases h

/-- Scan of one bare-URL body pattern over the whole body
(re.findall semantics). -/
def findAllBodyUrl (kw : List Char → Bool) : List Char → List (List Char) :=
  findAllRe (tryBodyUrl kw)

/-- One attempt of an `href` pattern
(`href=["\x27]([^"\x27]*KW[^"\x27]*)["\x27]`, `re.IGNORECASE`):
after `href=` and an opening quote, the greedy runs make the captured
group the maximal quote-free run, provided it contains the keyword and
is followed by a quote.  Returns the captured group and the remainder
after the closing quote. -/
def tryHref (kw : List Char → Bool) (l : List Char) :
    Option (List Char × List Char) :=
  match stripCiPrefix "href=".data l with
  | none => none
  | some (_, r1) =>
    match r1 with
    | q :: r2 =>
      if q = '"' || q = '\'' then
        let run := r2.takeWhile (fun c => !(c = '"' || c = '\''))
        match r2.drop run.length with
        | _ :: rem => if anySuffix kw run then some (run, rem) else none
        | [] => none
      else none
    | [] => none

theorem tryHref_length (kw : List Char → Bool) (l : List Char)
    (mr : List Char × List Char) (h : tryHref kw l = some mr) :
    mr.2.length < l.length := by
  unfold tryHref at h
  split at h
  · cases h
  · rename_i pre r1 hstrip
    have h5 := stripCiPrefix_length "href=".data l pre r1 hstrip
    match hr1 : r1 with
    | [] => exact Option.noConfusion h
    | q :: r2 =>
      simp only at h
      split at h
      · rename_i hq
        split at h
        · rename_i rest2 rem hdrop
          have hd : (r2.drop (r2.takeWhile
              (fun c => !(c = '"' || c = '\''))).length).length ≤ r2.length := by
            simp [List.length_drop]
          rw [hdrop] at hd
          simp only [List.length_cons] at hd
          split at h
          · cases h
            simp only [List.length_cons] at h5
            simp only
            omega
          · cases h
        · cases h
      · cases h

/-- Scan of one `href` body pattern over the whole body. -/
def findAllHref (kw : List Char → Bool) : List Char → List (List Char) :=
  findAllRe (tryHref kw)

/-- All five body patterns of `extract_unsubscribe_links`, applied in
source order, results concatenated. -/
def findAllPatterns (body : List Char) : List (List Char) :=
  findAllBodyUrl kwUnsub body ++ findAllBodyUrl kwOptOut body ++
    findAllBodyUrl kwRemove body ++ findAllHref kwUnsub body ++
    findAllHref kwOptOut body

/-- The header half of `extract_unsubscribe_links`: for every header
whose lowered name is `list-unsubscribe`, the matches of
`<(https?://[^>]+)>` over its value, in header order. -/
def headerLinks (hs : List Header) : List String :=
  hs.flatMap (fun h =>
    if pyLower h.name = "list-unsubscribe" then
      (findAngleHttp h.value.data).map (fun t => (⟨t⟩ : String))
    else [])

/-- The body half of `extract_unsubscribe_links`: the decoded body text
(propagating the decode exception) run through the five patterns; an
empty body is falsy in Python, so the patterns are skipped. -/
def bodyLinks (m : Message) : Except Unit (List String) :=
  match get_message_body m with
  | Except.error e => Except.error e
  | Except.ok body =>
    Except.ok (if body = "" then []
      else (findAllPatterns body.data).map (fun t => (⟨t⟩ : String)))

/-- Model of `str.startswith('http')`. -/
def startsWithHttp (s : String) : Bool :=
  "http".data.isPrefixOf s.data

/-- Python `extract_unsubscribe_links(message)`: header matches, then
body matches, then `list(set(...))` deduplication, then per-link cleanup
`strip('<>')` and the `startswith('http')` filter.  The error case
models the uncaught `binascii.Error` from the body decoding. -/
def extract_unsubscribe_links (m : Message) : Except Unit (List String) :=
  match bodyLinks m with
  | Except.error e => Except.error e
  | Except.ok bls =>
    let unique := pySetList (headerLinks m.headers ++ bls)
    Except.ok ((unique.map stripLtGt).filter startsWithHttp)

/-! ## `get_sender_info` -/

/-- Model of `re.match(r'(.*?)<([^>]+)>', from_field)`: the lazy prefix
group stops at the first position where a bracketed nonempty address
follows; `.` does not match a newline, while `[^>]` does.  Returns the
two captured groups. -/
def reMatchNameEmail (l : List Char) : Option (List Char × List Char) :=
  go [] l
where
  go (acc : List Char) : List Char → Option (List Char × List Char)
    | [] => none
    | c :: rest =>
      if c = '\n' then none
      else if c = '<' then
        match rest.dropWhile (· ≠ '>') with
        | _ :: _ =>
          if (rest.takeWhile (· ≠ '>')).isEmpty then go (acc ++ [c]) rest
          else some (acc, rest.takeWhile (· ≠ '>'))
        | [] => go (acc ++ [c]) rest
      else go (acc ++ [c]) rest

/-- Does the value contain a bracket-delimited nonempty address anywhere
(a position where the fragment `<([^>]+)>` could match)? -/
def hasAngleAddr : List Char → Bool
  | [] => false
  | c :: rest =>
    (if c = '<' then
      (match rest.dropWhile (· ≠ '>') with
        | _ :: _ => !(rest.takeWhile (· ≠ '>')).isEmpty
        | [] => false)
    else false) || hasAngleAddr rest

/-- Python `get_sender_info(message)`: scan for the first `From` header
(case-insensitively); parse `Name <email>`; on no match keep the default
name and strip the raw field; with no `From` header return the defaults. -/
def get_sender_info (m : Message) : String × String :=
  go m.headers
where
  go : List Header → String × String
    | [] => ("Unknown", "unknown@example.com")
    | h :: rest =>
      if pyLower h.name = "from" then
        match reMatchNameEmail h.value.data with
        | some ne => (stripDq (pyStrip ⟨ne.1⟩), pyStrip ⟨ne.2⟩)
        | none => ("Unknown", pyStrip h.value)
      else go rest

/-! ## `attempt_unsubscribe` -/

/-- Outcome of one HTTP GET in `attempt_unsubscribe`: a status code, or
a raised and caught transport exception. -/
inductive AttemptOutcome where
  | status (code : Nat)
  | exc
deriving DecidableEq

/-- Prepend this iteration's sleeps to the recursive result. -/
def prependSleeps (s0 : List Nat) (r : Bool × Nat × List Nat) :
    Bool × Nat × List Nat :=
  (r.1, r.2.1, s0 ++ r.2.2)

/-- The retry loop of `attempt_unsubscribe`, from attempt index `i` with
the given remaining loop iterations.  Returns (success, attempts made,
sleep durations in seconds, in order).  A sleep of `1 * attempt` happens
at the top of every retry iteration; HTTP 200 returns `True`
immediately; a non-200 status falls through to the next iteration; an
exception returns `False` only on the last attempt. -/
def attemptFrom (o : Nat → AttemptOutcome) (maxR : Nat) :
    Nat → Nat → Bool × Nat × List Nat
  | i, 0 => (false, i, [])
  | i, fuel + 1 =>
    let sleeps0 : List Nat := if 0 < i then [1 * i] else []
    match o i with
    | AttemptOutcome.status c =>
      if c = 200 then (true, i + 1, sleeps0)
      else prependSleeps sleeps0 (attemptFrom o maxR (i + 1) fuel)
    | AttemptOutcome.exc =>
      if i = maxR then (false, i + 1, sleeps0)
      else prependSleeps sleeps0 (attemptFrom o maxR (i + 1) fuel)

/-- Python `attempt_unsubscribe(url, sender_info, max_retries)`; the
oracle `o` gives the outcome of the HTTP GET on each attempt index (the
URL and sender are fixed for one call; the sender info is only printed).
The Python loop runs `max_retries + 1` iterations. -/
def attempt_unsubscribe (o : Nat → AttemptOutcome) (maxR : Nat) :
    Bool × Nat × List Nat :=
  attemptFrom o maxR 0 (maxR + 1)

/-! ## History store -/

/-- One record of `unsubscribe_history` (see
`add_to_unsubscribe_history`). -/
structure HistRecord where
  sender_name : String
  sender_email : String
  unsubscribe_attempted : Bool
  success : Bool
  timestamp : String
  unsubscribe_url : Option String
deriving DecidableEq

/-- The in-memory `unsubscribe_history` dict: an insertion-ordered map
from canonical sender key to record. -/
abbrev History := List (String × HistRecord)

/-- Key membership (`sender_key in self.unsubscribe_history`). -/
def histMem (h : History) (k : String) : Bool :=
  h.any (fun p => p.1 = k)

/-- Lookup (`self.unsubscribe_history.get(sender_key)`). -/
def histGet (h : History) (k : String) : Option HistRecord :=
  (h.find? (fun p => p.1 = k)).map Prod.snd

/-- Dict assignment `self.unsubscribe_history[sender_key] = record`:
replace in place if present, else append. -/
def histUpsert (h : History) (k : String) (v : HistRecord) : History :=
  if histMem h k then h.map (fun p => if p.1 = k then (k, v) else p)
  else h ++ [(k, v)]

/-- Python `is_already_unsubscribed(sender_email)`. -/
def is_already_unsubscribed (h : History) (sender_email : String) : Bool :=
  histMem h (senderKeyOf sender_email)

/-- Python `get_unsubscribe_record(sender_email)`. -/
def get_unsubscribe_record (h : History) (sender_email : String) :
    Option HistRecord :=
  histGet h (senderKeyOf sender_email)

/-- Python `add_to_unsubscribe_history(sender_email, sender_name,
success, unsubscribe_url)`; `now` models `datetime.now().isoformat()`.
(The method also saves the file; the save is recorded as an event by the
callers below.) -/
def add_to_unsubscribe_history (h : History) (sender_email sender_name : String)
    (success : Bool) (url : Option String) (now : String) : History :=
  histUpsert h (senderKeyOf sender_email)
    ⟨sender_name, sender_email, true, success, now, url⟩

/-! ## Worlds, groups -/

/-- A sender group (`sender_groups[sender_key]`): display name and email
of the first message seen from the sender, plus the ordered messages. -/
structure SenderGroup where
  name : String
  email : String
  messages : List Message

/-- The external services: `users().messages().list` (per query and
`maxResults`, possibly raising), `get_message_details` (returns `none`
when the per-message try/except catches an error), the HTTP oracle for
`attempt_unsubscribe` (outcome per attempt index of the one URL being
retried), per-message success of the delete/trash calls, and the clock. -/
structure World where
  listMessages : String → Nat → Except Unit (List Stub)
  fetch : String → Option Message
  http : String → Nat → AttemptOutcome
  deleteOk : String → Bool
  trashOk : String → Bool
  now : String

/-- The canonical key of a message's sender
(`get_sender_info` then `lower().strip()`). -/
def msgKey (m : Message) : String :=
  senderKeyOf (get_sender_info m).2

/-- One step of the grouping loop body after a successful fetch:
create the group on first sight, then append the message. -/
def addToGroups (gs : List (String × SenderGroup)) (k : String)
    (name email : String) (msg : Message) : List (String × SenderGroup) :=
  if gs.any (fun p => p.1 = k) then
    gs.map (fun p =>
      if p.1 = k then (p.1, ⟨p.2.name, p.2.email, p.2.messages ++ [msg]⟩)
      else p)
  else gs ++ [(k, ⟨name, email, [msg]⟩)]

/-- One iteration of the grouping loop: fetch the message (a failed
fetch is skipped) and add it to its sender's group. -/
def groupStep (w : World) (gs : List (String × SenderGroup)) (stub : Stub) :
    List (String × SenderGroup) :=
  match w.fetch stub.id with
  | none => gs
  | some msg =>
    addToGroups gs (senderKeyOf (get_sender_info msg).2)
      (get_sender_info msg).1 (get_sender_info msg).2 msg

/-- The `sender_groups` dict after the grouping loop, in insertion
(first-seen) order. -/
def groupPhase (w : World) (stubs : List Stub) : List (String × SenderGroup) :=
  stubs.foldl (groupStep w) []

/-- Python `sorted(..., key=lambda x: len(x[1]['messages']),
reverse=True)` is a stable sort; insertion keeps an element before later
elements with the same count. -/
def insertByCount (x : String × SenderGroup) :
    List (String × SenderGroup) → List (String × SenderGroup)
  | [] => [x]
  | y :: ys =>
    if y.2.messages.length ≤ x.2.messages.length then x :: y :: ys
    else y :: insertByCount x ys

/-- Stable insertion sort by descending message count. -/
def sortByCountDesc : List (String × SenderGroup) → List (String × SenderGroup)
  | [] => []
  | x :: xs => insertByCount x (sortByCountDesc xs)

/-- Python `group_emails_by_sender(messages)`: group by canonical sender
key, then order groups by descending message count (stable). -/
def group_emails_by_sender (w : World) (stubs : List Stub) :
    List (String × SenderGroup) :=
  sortByCountDesc (groupPhase w stubs)

/-! ## `search_emails` -/

/-- The inbox category list of `search_emails`. -/
def inbox_locations : List String :=
  ["in:inbox", "in:primary", "in:social", "in:promotions", "in:updates"]

/-- The concatenation of the per-category search results
(`all_messages`), a failing category contributing nothing
(inner try/except). -/
def searchConcat (w : World) (query : String) (max_results : Nat) : List Stub :=
  inbox_locations.foldl (fun acc loc =>
    match w.listMessages (loc ++ " " ++ query) (max_results / 5 + 10) with
    | Except.ok ms => acc ++ ms
    | Except.error _ => acc) []

/-- The `seen_ids` deduplication loop of `search_emails`. -/
def dedupStubs (l : List Stub) : List Stub :=
  go l []
where
  go : List Stub → List String → List Stub
    | [], _ => []
    | m :: rest, seen =>
      if seen.contains m.id then go rest seen
      else m :: go rest (m.id :: seen)

/-- Python `search_emails(query, max_results, inbox_only)`. -/
def search_emails (w : World) (query : String) (max_results : Nat)
    (inbox_only : Bool) : List Stub :=
  if inbox_only && !(containsSubL "in:".data (lowerL query.data)) then
    (dedupStubs (searchConcat w query max_results)).take max_results
  else
    match w.listMessages query max_results with
    | Except.ok ms => ms
    | Except.error _ => []

/-- Modelled from the spec's reading of the deduplication ("keeping the
first occurrence of each id"): the clean first-occurrence recursion, to
be compared with the `seen_ids` loop. -/
def uniqueFirst : List Stub → List Stub
  | [] => []
  | m :: rest => m :: uniqueFirst (rest.filter (fun x => x.id ≠ m.id))
termination_by l => l.length
decreasing_by
  have := List.length_filter_le (fun x => x.id ≠ m.id) rest
  simp only [List.length_cons]
  omega

/-! ## Batch processors

Mutating remote calls and the history-file writes are recorded as
events; `extractEv` records a (read-only) call of
`extract_unsubscribe_links`.  The `Bool` flowing out of the loops models
an uncaught exception (`binascii.Error` from the body decoding of the
representative message, or the `IndexError` of indexing an empty group),
which aborts the whole run before its summary is printed. -/

structure Config where
  dry_run : Bool
  delete_after_unsubscribe : Bool
  permanent_delete : Bool
  delete_without_unsubscribe : Bool

inductive Event where
  | invoke (senderEmail url : String)
  | histWrite (key : String)
  | labelMsg (msgId : String)
  | trash (msgId : String)
  | delete (msgId : String)
  | extractEv (msgId : String)
deriving DecidableEq

/-- Events that mutate remote or durable state (everything except the
read-only extraction marker). -/
def Event.isMutating : Event → Bool
  | .invoke _ _ => true
  | .histWrite _ => true
  | .labelMsg _ => true
  | .trash _ => true
  | .delete _ => true
  | .extractEv _ => false

/-- Python `delete_messages(message_ids, sender_name)`: one delete call
per id (failures caught per call); returns the success count and the
issued calls. -/
def delete_messages (w : World) (ids : List String) : Nat × List Event :=
  ((ids.filter w.deleteOk).length, ids.map Event.delete)

/-- Python `move_to_trash(message_ids, sender_name)`. -/
def move_to_trash (w : World) (ids : List String) : Nat × List Event :=
  ((ids.filter w.trashOk).length, ids.map Event.trash)

/-- Python `label_message(message_id)`: the label list/create calls are
reads plus an idempotent label creation; the modify call on the message
is the mutating event. -/
def label_message (msgId : String) : List Event :=
  [Event.labelMsg msgId]

/-- Trash or permanently delete, per `permanent_delete`. -/
def cleanupCall (w : World) (cfg : Config) (ids : List String) : Nat × List Event :=
  if cfg.permanent_delete then delete_messages w ids else move_to_trash w ids

/-! ### Per-sender strategy (`process_unsubscribes_by_sender`) -/

structure SenderLoopSt where
  history : History
  events : List Event
  success_count : Nat
  total_deleted : Nat
  processed_count : Nat
  total_affected : Nat

/-- One iteration of the per-sender loop over `sender_groups.items()`. -/
def stepSender (w : World) (cfg : Config) (st : SenderLoopSt)
    (kg : String × SenderGroup) : Bool × SenderLoopSt :=
  let g := kg.2
  let st1 := { st with processed_count := st.processed_count + 1,
                       total_affected := st.total_affected + g.messages.length }
  if is_already_unsubscribed st1.history g.email then
    if cfg.delete_after_unsubscribe && !cfg.dry_run then
      let dc := cleanupCall w cfg (g.messages.map Message.id)
      (false, { st1 with events := st1.events ++ dc.2,
                         total_deleted := st1.total_deleted + dc.1 })
    else (false, st1)
  else
    match g.messages with
    | [] => (true, st1)
    | latest :: _ =>
      let st2 := { st1 with events := st1.events ++ [Event.extractEv latest.id] }
      match extract_unsubscribe_links latest with
      | Except.error _ => (true, st2)
      | Except.ok links =>
        match links with
        | [] =>
          if cfg.delete_without_unsubscribe && cfg.delete_after_unsubscribe
              && !cfg.dry_run then
            let dc := cleanupCall w cfg (g.messages.map Message.id)
            (false, { st2 with events := st2.events ++ dc.2,
                               total_deleted := st2.total_deleted + dc.1 })
          else (false, st2)
        | url :: _ =>
          if cfg.dry_run then (false, st2)
          else
            let succ := (attempt_unsubscribe (w.http url) 2).1
            let st3 := { st2 with
              events := st2.events ++
                [Event.invoke g.email url, Event.histWrite (senderKeyOf g.email)],
              history := add_to_unsubscribe_history st2.history g.email g.name
                succ (some url) w.now }
            let st4 := if succ
              then { st3 with success_count := st3.success_count + 1 }
              else st3
            if cfg.delete_after_unsubscribe then
              let dc := cleanupCall w cfg (g.messages.map Message.id)
              (false, { st4 with events := st4.events ++ dc.2,
                                 total_deleted := st4.total_deleted + dc.1 })
            else
              if succ then
                (false, { st4 with events := st4.events ++
                  g.messages.flatMap (fun mm => label_message mm.id) })
              else (false, st4)

/-- The per-sender loop; an uncaught exception stops it. -/
def foldSenders (w : World) (cfg : Config) :
    List (String × SenderGroup) → SenderLoopSt → Bool × SenderLoopSt
  | [], st => (false, st)
  | kg :: rest, st =>
    let r := stepSender w cfg st kg
    if r.1 then (true, r.2) else foldSenders w cfg rest r.2

structure SenderSummary where
  scanned : Nat
  uniqueSenders : Nat
  processed : Nat
  affected : Nat
  deleted : Nat
  succeeded : Nat
deriving DecidableEq

structure SenderRunResult where
  history : History
  events : List Event
  summary : Option SenderSummary
  raised : Bool

/-- Python `process_unsubscribes_by_sender(search_query, max_emails,
dry_run, delete_after_unsubscribe, permanent_delete, inbox_only,
delete_without_unsubscribe)` starting from the loaded history
`history0`. -/
def process_unsubscribes_by_sender (w : World) (search_query : String)
    (max_emails : Nat) (cfg : Config) (inbox_only : Bool)
    (history0 : History) : SenderRunResult :=
  let stubs := search_emails w search_query max_emails inbox_only
  if stubs.isEmpty then ⟨history0, [], none, false⟩
  else
    let groups := group_emails_by_sender w stubs
    let r := foldSenders w cfg groups ⟨history0, [], 0, 0, 0, 0⟩
    ⟨r.2.history, r.2.events,
      if r.1 then none
      else some ⟨stubs.length, groups.length, r.2.processed_count,
        r.2.total_affected, r.2.total_deleted, r.2.success_count⟩,
      r.1⟩

/-! ### Per-message strategy (`process_unsubscribes`) -/

structure MsgLoopSt where
  events : List Event
  processed_senders : List String
  processed_count : Nat
  success_count : Nat
  skipped_count : Nat

/-- One iteration of the per-message loop. -/
def stepMsg (w : World) (cfg : Config) (st : MsgLoopSt) (stub : Stub) :
    Bool × MsgLoopSt :=
  match w.fetch stub.id with
  | none => (false, st)
  | some message =>
    let key := senderKeyOf (get_sender_info message).2
    if st.processed_senders.contains key then
      let st1 :=
        if cfg.delete_after_unsubscribe && !cfg.dry_run then
          { st with events := st.events ++ (cleanupCall w cfg [stub.id]).2 }
        else st
      (false, { st1 with skipped_count := st1.skipped_count + 1 })
    else
      let st2 := { st with events := st.events ++ [Event.extractEv message.id] }
      match extract_unsubscribe_links message with
      | Except.error _ => (true, st2)
      | Except.ok links =>
        match links with
        | [] =>
          if cfg.delete_without_unsubscribe && cfg.delete_after_unsubscribe
              && !cfg.dry_run then
            (false, { st2 with events := st2.events ++ (cleanupCall w cfg [stub.id]).2 })
          else (false, st2)
        | url :: _ =>
          let st3 := { st2 with processed_senders := key :: st2.processed_senders }
          if cfg.dry_run then
            (false, { st3 with processed_count := st3.processed_count + 1 })
          else
            let succ := (attempt_unsubscribe (w.http url) 2).1
            let st4 := { st3 with events := st3.events ++
              [Event.invoke (get_sender_info message).2 url] }
            let st5 := if succ
              then { st4 with success_count := st4.success_count + 1 }
              else st4
            let st6 :=
              if cfg.delete_after_unsubscribe then
                { st5 with events := st5.events ++ (cleanupCall w cfg [stub.id]).2 }
              else if succ then
                { st5 with events := st5.events ++ label_message stub.id }
              else st5
            (false, { st6 with processed_count := st6.processed_count + 1 })

/-- The per-message loop. -/
def foldMsgs (w : World) (cfg : Config) :
    List Stub → MsgLoopSt → Bool × MsgLoopSt
  | [], st => (false, st)
  | stub :: rest, st =>
    let r := stepMsg w cfg st stub
    if r.1 then (true, r.2) else foldMsgs w cfg rest r.2

structure MsgSummary where
  scanned : Nat
  processed : Nat
  skipped : Nat
  succeeded : Nat
deriving DecidableEq

structure MsgRunResult where
  history : History
  events : List Event
  summary : Option MsgSummary
  raised : Bool
  processed_senders : List String

/-- Python `process_unsubscribes(...)` (per-message strategy) starting
from the loaded history `history0`; the method never touches
`self.unsubscribe_history`, so the final history is the input one. -/
def process_unsubscribes (w : World) (search_query : String)
    (max_emails : Nat) (cfg : Config) (inbox_only : Bool)
    (history0 : History) : MsgRunResult :=
  let stubs := search_emails w search_query max_emails inbox_only
  if stubs.isEmpty then ⟨history0, [], none, false, []⟩
  else
    let r := foldMsgs w cfg stubs ⟨[], [], 0, 0, 0⟩
    ⟨history0, r.2.events,
      if r.1 then none
      else some ⟨stubs.length, r.2.processed_count, r.2.skipped_count,
        r.2.success_count⟩,
      r.1, r.2.processed_senders⟩

/-! ## C4: retry behaviour of `attempt_unsubscribe` -/

theorem attemptFrom_zero (o : Nat → AttemptOutcome) (maxR i : Nat) :
    attemptFrom o maxR i 0 = (false, i, []) := rfl

theorem attemptFrom_status (o : Nat → AttemptOutcome) (maxR i fuel c : Nat)
    (ho : o i = AttemptOutcome.status c) :
    attemptFrom o maxR i (fuel + 1) =
      (if c = 200 then (true, i + 1, if 0 < i then [1 * i] else [])
       else prependSleeps (if 0 < i then [1 * i] else [])
         (attemptFrom o maxR (i + 1) fuel)) := by
  simp only [attemptFrom]
  rw [ho]

theorem attemptFrom_exc (o : Nat → AttemptOutcome) (maxR i fuel : Nat)
    (ho : o i = AttemptOutcome.exc) :
    attemptFrom o maxR i (fuel + 1) =
      (if i = maxR then (false, i + 1, if 0 < i then [1 * i] else [])
       else prependSleeps (if 0 < i then [1 * i] else [])
         (attemptFrom o maxR (i + 1) fuel)) := by
  simp only [attemptFrom]
  rw [ho]

theorem attemptFrom_spec (o : Nat → AttemptOutcome) (maxR : Nat) :
    ∀ fuel i, i + fuel = maxR + 1 →
      ((attemptFrom o maxR i fuel).1 = true ↔
        ∃ j, i ≤ j ∧ j ≤ maxR ∧ o j = AttemptOutcome.status 200) ∧
      ((attemptFrom o maxR i fuel).1 = false →
        (attemptFrom o maxR i fuel).2.1 = maxR + 1) ∧
      i ≤ (attemptFrom o maxR i fuel).2.1 ∧
      (attemptFrom o maxR i fuel).2.2 =
        (List.range' (i.max 1) ((attemptFrom o maxR i fuel).2.1 - i.max 1)).map
          (fun j => 1 * j) := by
  intro fuel
  induction fuel with
  | zero =>
    intro i hi
    have hi1 : i = maxR + 1 := by omega
    have hmax : i.max 1 = i := Nat.max_eq_left (by omega)
    rw [attemptFrom_zero]
    refine ⟨?_, ?_, ?_, ?_⟩
    · constructor
      · intro h; exact absurd h (by simp)
      · rintro ⟨j, h1, h2, _⟩; omega
    · intro _
      show i = maxR + 1
      omega
    · exact le_refl i
    · show ([] : List Nat) = _
      rw [hmax]
      simp
  | succ fuel ih =>
    intro i hi
    have hiR : i ≤ maxR := by omega
    have hrec := ih (i + 1) (by omega)
    have hrecn : i + 1 ≤ (attemptFrom o maxR (i + 1) fuel).2.1 := hrec.2.2.1
    cases ho : o i with
    | status c =>
      rw [attemptFrom_status o maxR i fuel c ho]
      by_cases hc : c = 200
      · subst hc
        rw [if_pos rfl]
        refine ⟨?_, ?_, ?_, ?_⟩
        · constructor
          · intro _; exact ⟨i, le_refl i, hiR, ho⟩
          · intro _; rfl
        · intro h; exact absurd h (by simp)
        · exact Nat.le_succ i
        · by_cases hi0 : 0 < i
          · have hmax : i.max 1 = i := Nat.max_eq_left (by omega)
            have hsub : i + 1 - i.max 1 = 1 := by rw [hmax]; omega
            show (if 0 < i then [1 * i] else []) = _
            rw [hmax, if_pos hi0]
            show [1 * i] = (List.range' i (i + 1 - i)).map (fun j => 1 * j)
            have : i + 1 - i = 1 := by omega
            rw [this]
            simp [List.range']
          · have hz : i = 0 := by omega
            subst hz
            rfl
      · rw [if_neg hc]
        simp only [prependSleeps]
        refine ⟨?_, ?_, ?_, ?_⟩
        · constructor
          · intro h
            rcases hrec.1.mp h with ⟨j, h1, h2, h3⟩
            exact ⟨j, by omega, h2, h3⟩
          · rintro ⟨j, h1, h2, h3⟩
            refine hrec.1.mpr ⟨j, ?_, h2, h3⟩
            rcases Nat.eq_or_lt_of_le h1 with he | hl
            · exfalso; rw [← he, ho] at h3
              cases h3; exact hc rfl
            · omega
        · intro hfalse
          exact hrec.2.1 hfalse
        · exact Nat.le_trans (Nat.le_succ i) hrecn
        · show (if 0 < i then [1 * i] else []) ++
              (attemptFrom o maxR (i + 1) fuel).2.2 =
            List.map (fun j => 1 * j) (List.range' (i.max 1)
              ((attemptFrom o maxR (i + 1) fuel).2.1 - i.max 1))
          rw [hrec.2.2.2]
          by_cases hi0 : 0 < i
          · have hmax : i.max 1 = i := Nat.max_eq_left (by omega)
            have hmax1 : (i + 1).max 1 = i + 1 := Nat.max_eq_left (by omega)
            have hsplit : (attemptFrom o maxR (i + 1) fuel).2.1 - i.max 1 =
                ((attemptFrom o maxR (i + 1) fuel).2.1 - (i + 1).max 1) + 1 := by
              rw [hmax, hmax1]; omega
            rw [hsplit, hmax, List.range'_succ]
            simp [hi0, hmax1, hmax]
          · have hz : i = 0 := by omega
            subst hz
            have h01 : Nat.max 0 1 = 1 := rfl
            have h11 : Nat.max 1 1 = 1 := rfl
            rw [h01, h11]
            simp
    | exc =>
      rw [attemptFrom_exc o maxR i fuel ho]
      by_cases hm : i = maxR
      · rw [if_pos hm]
        refine ⟨?_, ?_, ?_, ?_⟩
        · constructor
          · intro h; exact absurd h (by simp)
          · rintro ⟨j, h1, h2, h3⟩
            have hj : j = maxR := by omega
            rw [hj, ← hm, ho] at h3
            cases h3
        · intro _
          show i + 1 = maxR + 1
          omega
        · exact Nat.le_succ i
        · by_cases hi0 : 0 < i
          · have hmax : i.max 1 = i := Nat.max_eq_left (by omega)
            show (if 0 < i then [1 * i] else []) = _
            rw [hmax, if_pos hi0]
            show [1 * i] = (List.range' i (i + 1 - i)).map (fun j => 1 * j)
            have : i + 1 - i = 1 := by omega
            rw [this]
            simp [List.range']
          · have hz : i = 0 := by omega
            subst hz
            rfl
      · rw [if_neg hm]
        simp only [prependSleeps]
        refine ⟨?_, ?_, ?_, ?_⟩
        · constructor
          · intro h
            rcases hrec.1.mp h with ⟨j, h1, h2, h3⟩
            exact ⟨j, by omega, h2, h3⟩
          · rintro ⟨j, h1, h2, h3⟩
            refine hrec.1.mpr ⟨j, ?_, h2, h3⟩
            rcases Nat.eq_or_lt_of_le h1 with he | hl
            · exfalso; rw [← he, ho] at h3; cases h3
            · omega
        · intro hfalse
          exact hrec.2.1 hfalse
        · exact Nat.le_trans (Nat.le_succ i) hrecn
        · show (if 0 < i then [1 * i] else []) ++
              (attemptFrom o maxR (i + 1) fuel).2.2 =
            List.map (fun j => 1 * j) (List.range' (i.max 1)
              ((attemptFrom o maxR (i + 1) fuel).2.1 - i.max 1))
          rw [hrec.2.2.2]
          by_cases hi0 : 0 < i
          · have hmax : i.max 1 = i := Nat.max_eq_left (by omega)
            have hmax1 : (i + 1).max 1 = i + 1 := Nat.max_eq_left (by omega)
            have hsplit : (attemptFrom o maxR (i + 1) fuel).2.1 - i.max 1 =
                ((attemptFrom o maxR (i + 1) fuel).2.1 - (i + 1).max 1) + 1 := by
              rw [hmax, hmax1]; omega
            rw [hsplit, hmax, List.range'_succ]
            simp [hi0, hmax1, hmax]
          · have hz : i = 0 := by omega
            subst hz
            have h01 : Nat.max 0 1 = 1 := rfl
            have h11 : Nat.max 1 1 = 1 := rfl
            rw [h01, h11]
            simp

/-- **C4**: `attempt_unsubscribe` returns true iff some attempt gets
HTTP 200; other statuses and transport exceptions lead to a retry after
a linear backoff of attempt-index seconds; after `max_retries + 1` total
attempts without a 200 it returns false (the function is total, i.e.
never raises); with `max_retries = 2` and HTTP 503 on every attempt the
result is failure after exactly 3 attempts with backoffs of 1 s and 2 s. -/
theorem c4_attempt_unsubscribe_retry (o : Nat → AttemptOutcome) (maxR : Nat) :
    ((attempt_unsubscribe o maxR).1 = true ↔
      ∃ i, i ≤ maxR ∧ o i = AttemptOutcome.status 200) ∧
    ((attempt_unsubscribe o maxR).1 = false →
      (attempt_unsubscribe o maxR).2.1 = maxR + 1) ∧
    (attempt_unsubscribe o maxR).2.2 =
      (List.range' 1 ((attempt_unsubscribe o maxR).2.1 - 1)).map
        (fun i => 1 * i) ∧
    attempt_unsubscribe (fun _ => AttemptOutcome.status 503) 2 =
      (false, 3, [1, 2]) := by
  have h := attemptFrom_spec o maxR (maxR + 1) 0 (by omega)
  refine ⟨?_, h.2.1, ?_, rfl⟩
  · rw [show attempt_unsubscribe o maxR = attemptFrom o maxR 0 (maxR + 1)
      from rfl]
    rw [h.1]
    constructor
    · rintro ⟨j, _, h2, h3⟩; exact ⟨j, h2, h3⟩
    · rintro ⟨j, h2, h3⟩; exact ⟨j, Nat.zero_le j, h2, h3⟩
  · exact h.2.2.2

theorem c4_attempt_unsubscribe_retry_witness :
    (attempt_unsubscribe (fun _ => AttemptOutcome.status 503) 2).1 = false ∧
    (attempt_unsubscribe (fun _ => AttemptOutcome.status 503) 2).2.1 = 2 + 1 := by
  have h := c4_attempt_unsubscribe_retry (fun _ => AttemptOutcome.status 503) 2
  have hs := h.2.2.2
  refine ⟨?_, ?_⟩
  · rw [hs]
  · exact h.2.1 (by rw [hs])

/-! ## C7: totality of `get_message_body` -/

/-- A message whose single text part carries a payload that is not valid
base64 (`"abc"`: three alphabet characters, no padding). -/
def c7BadMsg : Message :=
  ⟨"m1", [], Part.mk "text/plain" (some "abc") PartList.nil⟩

/-- A world that returns `c7BadMsg` for every search hit. -/
def c7World : World :=
  ⟨fun _ _ => Except.ok [⟨"m1"⟩], fun _ => some c7BadMsg,
   fun _ _ => AttemptOutcome.exc, fun _ => true, fun _ => true, "t0"⟩

/-- **C7** (counterexample): `get_message_body` is not total — on a body
part whose payload is not valid base64 the decode raises
(`binascii.Error` is not caught), the exception propagates out of
`extract_unsubscribe_links`, and a per-sender run aborts with it, so it
does escape the batch processor. -/
theorem c7_counterexample :
    get_message_body c7BadMsg = Except.error () ∧
    extract_unsubscribe_links c7BadMsg = Except.error () ∧
    (process_unsubscribes_by_sender c7World "unsubscribe" 50
        ⟨false, false, false, false⟩ true []).raised = true ∧
    (process_unsubscribes_by_sender c7World "unsubscribe" 50
        ⟨false, false, false, false⟩ true []).summary = none := by
  refine ⟨rfl, rfl, rfl, rfl⟩

/-- **C7** (amended): `get_message_body` returns the depth-first
concatenation of the decodable `text/plain` and `text/html` payloads
whenever every text payload is valid base64 (invalid UTF-8 inside a
payload never raises — those bytes are dropped); when some text payload
is not valid base64, it raises the decode error instead of skipping it. -/
theorem c7_get_message_body_amended (m : Message) :
    (allPayloadsDecode m.payload = true →
      get_message_body m = Except.ok (dfsBodyText m.payload)) ∧
    (allPayloadsDecode m.payload = false →
      get_message_body m = Except.error ()) := by
  have h := get_message_body_eq m
  constructor
  · intro hd
    rw [h, if_pos hd]
  · intro hd
    rw [h]
    simp [hd]

/-- A message mixing a decodable text part (`"aGk="` is `"hi"`), a
data-less html part and a nested container. -/
def c7GoodMsg : Message :=
  ⟨"m2", [],
    Part.mk "multipart/alternative" none
      (PartList.cons (Part.mk "text/plain" (some "aGk=") PartList.nil)
        (PartList.cons (Part.mk "text/html" none PartList.nil)
          PartList.nil))⟩

theorem c7_get_message_body_amended_witness :
    get_message_body c7GoodMsg = Except.ok "hi" := by
  have h := (c7_get_message_body_amended c7GoodMsg).1 rfl
  rw [h]
  rfl

/-! ## C1: header extraction -/

/-- A message whose `List-Unsubscribe` header has the single token
`httpx` — the token starts with `http` but not with a full
`https?://` scheme — and whose body is empty. -/
def c1Msg : Message :=
  ⟨"c1", [⟨"List-Unsubscribe", "<httpx>"⟩],
    Part.mk "text/plain" none PartList.nil⟩

/-- **C1** (counterexample): the claim predicts that the extractor
returns every angle-bracket token that starts with `"http"`; on
`c1Msg` the single token `httpx` starts with `http` (and the body
yields no matches), yet the extractor returns nothing, because the
header regular expression only captures tokens that start with a full
`https?://` scheme. -/
theorem c1_counterexample :
    extract_unsubscribe_links c1Msg = Except.ok [] ∧
    bodyLinks c1Msg = Except.ok [] ∧
    specAngleTokens "<httpx>".data = ["httpx".data] ∧
    startsWithHttp "httpx" = true := by
  refine ⟨rfl, rfl, by decide, rfl⟩

/-! ## C1 support: the header regex agrees with the token parse on
well-formed header values -/

theorem findAllRe_cons_some (t : List Char → Option (List Char × List Char))
    (ht : ∀ l mr, t l = some mr → mr.2.length < l.length)
    (c : Char) (rest : List Char) (mr : List Char × List Char)
    (hm : t (c :: rest) = some mr) :
    findAllRe t (c :: rest) = mr.1 :: findAllRe t mr.2 := by
  have h := findAllRe_cons t ht c rest
  rw [hm] at h
  exact h.trans rfl

theorem findAllRe_cons_none (t : List Char → Option (List Char × List Char))
    (ht : ∀ l mr, t l = some mr → mr.2.length < l.length)
    (c : Char) (rest : List Char) (hm : t (c :: rest) = none) :
    findAllRe t (c :: rest) = findAllRe t rest := by
  have h := findAllRe_cons t ht c rest
  rw [hm] at h
  exact h.trans rfl

theorem hdrTry1_lt (rest : List Char) :
    hdrTry1 ('<' :: rest) = hdrTryToken rest := by
  simp [hdrTry1]

theorem hdrTry1_not_lt (c : Char) (rest : List Char) (hc : c ≠ '<') :
    hdrTry1 (c :: rest) = none := by
  simp [hdrTry1, hc]

theorem specTry1_not_lt (c : Char) (rest : List Char) (hc : c ≠ '<') :
    specTry1 (c :: rest) = none := by
  simp [specTry1, hc]

theorem takeWhile_append_all (p : Char → Bool) (a b : List Char)
    (h : ∀ x ∈ a, p x = true) :
    (a ++ b).takeWhile p = a ++ b.takeWhile p := by
  induction a with
  | nil => simp
  | cons x xs ih =>
    have hx := h x (List.mem_cons_self x xs)
    simp only [List.cons_append, List.takeWhile_cons, hx, if_true]
    rw [ih (fun y hy => h y (List.mem_cons_of_mem x hy))]

theorem dropWhile_append_all (p : Char → Bool) (a b : List Char)
    (h : ∀ x ∈ a, p x = true) :
    (a ++ b).dropWhile p = b.dropWhile p := by
  induction a with
  | nil => simp
  | cons x xs ih =>
    have hx := h x (List.mem_cons_self x xs)
    simp only [List.cons_append, List.dropWhile_cons, hx, if_true]
    exact ih (fun y hy => h y (List.mem_cons_of_mem x hy))

theorem dropWhile_head_false (p : Char → Bool) (l : List Char) (d : Char)
    (rem : List Char) (h : l.dropWhile p = d :: rem) : p d = false := by
  induction l with
  | nil => exact absurd h (by simp)
  | cons x xs ih =>
    rw [List.dropWhile_cons] at h
    by_cases hx : p x = true
    · rw [if_pos hx] at h
      exact ih h
    · rw [if_neg hx] at h
      injection h with h1 h2
      rw [← h1]
      cases hb : p x
      · rfl
      · exact absurd hb hx

theorem dropWhile_eq_nil_all (p : Char → Bool) (l : List Char)
    (h : l.dropWhile p = []) : ∀ x ∈ l, p x = true := by
  induction l with
  | nil => intro x hx; cases hx
  | cons c cs ih =>
    intro x hx
    rw [List.dropWhile_cons] at h
    by_cases hc : p c = true
    · rw [if_pos hc] at h
      rcases List.mem_cons.mp hx with rfl | hx2
      · exact hc
      · exact ih h x hx2
    · rw [if_neg hc] at h
      cases h

/-- Unfolding of the well-formedness state machine: outside. -/
theorem wfSt_false_cons (c : Char) (rest : List Char) :
    wfAngleSt false (c :: rest) =
      (if c = '<' then wfAngleSt true rest else wfAngleSt false rest) := rfl

/-- Unfolding of the well-formedness state machine: inside. -/
theorem wfSt_true_cons (c : Char) (rest : List Char) :
    wfAngleSt true (c :: rest) =
      (if c = '<' then false
       else if c = '>' then wfAngleSt false rest else wfAngleSt true rest) := rfl

theorem wfAngleSt_true_split (a rem : List Char) (hgt : ∀ x ∈ a, x ≠ '>') :
    (wfAngleSt true (a ++ '>' :: rem) = true ↔
      (∀ x ∈ a, x ≠ '<') ∧ wfAngleSt false rem = true) := by
  induction a with
  | nil =>
    rw [List.nil_append, wfSt_true_cons,
      if_neg (by decide : ¬ ('>' : Char) = '<'), if_pos rfl]
    constructor
    · intro h
      exact ⟨fun x hx => absurd hx (List.not_mem_nil x), h⟩
    · rintro ⟨_, h⟩
      exact h
  | cons c cs ih =>
    have hc := hgt c (List.mem_cons_self c cs)
    rw [List.cons_append, wfSt_true_cons]
    by_cases hlt : c = '<'
    · simp only [hlt, if_pos rfl]
      constructor
      · intro h; cases h
      · rintro ⟨h, _⟩
        exact absurd rfl (h '<' (List.mem_cons_self _ _))
    · rw [if_neg hlt, if_neg hc]
      rw [ih (fun y hy => hgt y (List.mem_cons_of_mem c hy))]
      constructor
      · rintro ⟨h1, h2⟩
        refine ⟨?_, h2⟩
        intro x hx
        rcases List.mem_cons.mp hx with rfl | hx2
        · exact hlt
        · exact h1 x hx2
      · rintro ⟨h1, h2⟩
        exact ⟨fun x hx => h1 x (List.mem_cons_of_mem c hx), h2⟩

theorem wfAngleSt_false_of_no_lt (l : List Char) (h : ∀ x ∈ l, x ≠ '<') :
    wfAngleSt false l = true := by
  induction l with
  | nil => rfl
  | cons c cs ih =>
    rw [wfSt_false_cons, if_neg (h c (List.mem_cons_self c cs))]
    exact ih (fun y hy => h y (List.mem_cons_of_mem c hy))

theorem wfAngleSt_true_no_gt (l : List Char) (hgt : ∀ x ∈ l, x ≠ '>')
    (h : wfAngleSt true l = true) : ∀ x ∈ l, x ≠ '<' := by
  induction l with
  | nil => intro x hx; cases hx
  | cons c cs ih =>
    intro x hx
    rw [wfSt_true_cons] at h
    by_cases hlt : c = '<'
    · rw [if_pos hlt] at h; cases h
    · rw [if_neg hlt, if_neg (hgt c (List.mem_cons_self c cs))] at h
      rcases List.mem_cons.mp hx with rfl | hx2
      · exact hlt
      · exact ih (fun y hy => hgt y (List.mem_cons_of_mem c hy)) h x hx2

theorem matchSchemeCS_https (x : List Char) :
    matchSchemeCS ("https://".data ++ x) = some ("https://".data, x) := by
  unfold matchSchemeCS
  have ht : ("https://".data ++ x).take 8 = "https://".data := by
    rw [show (8 : Nat) = ("https://".data).length from rfl, List.take_left]
  have hd : ("https://".data ++ x).drop 8 = x := by
    rw [show (8 : Nat) = ("https://".data).length from rfl, List.drop_left]
  rw [if_pos ht, hd]

theorem matchSchemeCS_http (x : List Char) :
    matchSchemeCS ("http://".data ++ x) = some ("http://".data, x) := by
  unfold matchSchemeCS
  have hne : ("http://".data ++ x).take 8 ≠ "https://".data := by
    cases x with
    | nil => decide
    | cons y ys =>
      have hred : ("http://".data ++ (y :: ys)).take 8 =
          'h' :: 't' :: 't' :: 'p' :: ':' :: '/' :: '/' :: [y] := rfl
      rw [hred]
      intro heq
      have h4 : (':' : Char) = 's' := by
        have := congrArg (fun l => l.get? 4) heq
        simpa using this
      exact absurd h4 (by decide)
  have ht : ("http://".data ++ x).take 7 = "http://".data := by
    rw [show (7 : Nat) = ("http://".data).length from rfl, List.take_left]
  have hd : ("http://".data ++ x).drop 7 = x := by
    rw [show (7 : Nat) = ("http://".data).length from rfl, List.drop_left]
  rw [if_neg hne, if_pos ht, hd]

theorem isSchemeToken_cases (tok : List Char) (h : isSchemeToken tok = true) :
    ("https://".data <+: tok ∧ 8 < tok.length) ∨
      ("http://".data <+: tok ∧ 7 < tok.length) := by
  unfold isSchemeToken at h
  rcases Bool.or_eq_true_iff.mp h with h1 | h1
  · have h2 := of_decide_eq_true h1
    exact Or.inl ⟨List.isPrefixOf_iff_prefix.mp h2.1, h2.2⟩
  · have h2 := of_decide_eq_true h1
    exact Or.inr ⟨List.isPrefixOf_iff_prefix.mp h2.1, h2.2⟩

theorem hdrTryToken_token (tok rem : List Char)
    (hgt : ∀ x ∈ tok, x ≠ '>') (hscheme : isSchemeToken tok = true) :
    hdrTryToken (tok ++ '>' :: rem) = some (tok, rem) := by
  rcases isSchemeToken_cases tok hscheme with ⟨hpre, hlen⟩ | ⟨hpre, hlen⟩
  · have hsplit : tok = "https://".data ++ tok.drop 8 := by
      have ht : "https://".data = tok.take 8 := List.prefix_iff_eq_take.mp hpre
      conv_lhs => rw [← List.take_append_drop 8 tok]
      rw [← ht]
    have hrest : ∀ x ∈ tok.drop 8, (x ≠ '>') = True := by
      intro x hx
      simp [hgt x (List.mem_of_mem_drop hx)]
    have hdne : tok.drop 8 ≠ [] := by
      intro hnil
      have := congrArg List.length hnil
      simp [List.length_drop] at this
      omega
    unfold hdrTryToken
    conv_lhs => rw [hsplit, List.append_assoc]
    rw [matchSchemeCS_https]
    have hrun : ((tok.drop 8 ++ '>' :: rem).takeWhile (· ≠ '>')) = tok.drop 8 := by
      rw [takeWhile_append_all _ _ _ (fun x hx => by simpa using hrest x hx)]
      simp
    have hdrop : ((tok.drop 8 ++ '>' :: rem).dropWhile (· ≠ '>')) = '>' :: rem := by
      rw [dropWhile_append_all _ _ _ (fun x hx => by simpa using hrest x hx)]
      simp
    simp only [hrun, hdrop]
    rw [if_neg (by simpa [List.isEmpty_iff] using hdne)]
    show some ("https://".data ++ tok.drop 8, rem) = some (tok, rem)
    rw [← hsplit]
  · have hsplit : tok = "http://".data ++ tok.drop 7 := by
      have ht : "http://".data = tok.take 7 := List.prefix_iff_eq_take.mp hpre
      conv_lhs => rw [← List.take_append_drop 7 tok]
      rw [← ht]
    have hrest : ∀ x ∈ tok.drop 7, (x ≠ '>') = True := by
      intro x hx
      simp [hgt x (List.mem_of_mem_drop hx)]
    have hdne : tok.drop 7 ≠ [] := by
      intro hnil
      have := congrArg List.length hnil
      simp [List.length_drop] at this
      omega
    unfold hdrTryToken
    conv_lhs => rw [hsplit, List.append_assoc]
    rw [matchSchemeCS_http]
    have hrun : ((tok.drop 7 ++ '>' :: rem).takeWhile (· ≠ '>')) = tok.drop 7 := by
      rw [takeWhile_append_all _ _ _ (fun x hx => by simpa using hrest x hx)]
      simp
    have hdrop : ((tok.drop 7 ++ '>' :: rem).dropWhile (· ≠ '>')) = '>' :: rem := by
      rw [dropWhile_append_all _ _ _ (fun x hx => by simpa using hrest x hx)]
      simp
    simp only [hrun, hdrop]
    rw [if_neg (by simpa [List.isEmpty_iff] using hdne)]
    show some ("http://".data ++ tok.drop 7, rem) = some (tok, rem)
    rw [← hsplit]

theorem hdrTryToken_not_scheme (tok rem : List Char)
    (hgt : ∀ x ∈ tok, x ≠ '>') (hscheme : isSchemeToken tok = false) :
    hdrTryToken (tok ++ '>' :: rem) = none := by
  unfold hdrTryToken
  cases hms : matchSchemeCS (tok ++ '>' :: rem) with
  | none => rfl
  | some sr =>
    unfold matchSchemeCS at hms
    by_cases h8 : (tok ++ '>' :: rem).take 8 = "https://".data
    · rw [if_pos h8] at hms
      have hlen8 : 8 ≤ tok.length := by
        by_contra hlt
        push_neg at hlt
        have htk : (tok ++ '>' :: rem).take 8 =
            tok ++ ('>' :: rem).take (8 - tok.length) := by
          rw [List.take_append_eq_append_take,
            List.take_of_length_le (Nat.le_of_lt hlt)]
        have hgtmem : '>' ∈ (tok ++ '>' :: rem).take 8 := by
          rw [htk]
          apply List.mem_append_right
          have hn : 8 - tok.length = (8 - tok.length - 1) + 1 := by omega
          rw [hn, List.take_succ_cons]
          exact List.mem_cons_self _ _
        rw [h8] at hgtmem
        exact absurd hgtmem (by decide)
      have htk8 : tok.take 8 = "https://".data := by
        rw [List.take_append_eq_append_take,
          show 8 - tok.length = 0 from by omega, List.take_zero,
          List.append_nil] at h8
        exact h8
      have hpre : "https://".data <+: tok := by
        rw [List.prefix_iff_eq_take]
        exact htk8.symm
      have hdropeq : tok.drop 8 = [] := by
        by_contra hne
        have h0 : 0 < (tok.drop 8).length := List.length_pos.mpr hne
        rw [List.length_drop] at h0
        have hlen' : 8 < tok.length := by omega
        have hT : isSchemeToken tok = true := by
          unfold isSchemeToken
          apply Bool.or_eq_true_iff.mpr
          left
          exact decide_eq_true ⟨List.isPrefixOf_iff_prefix.mpr hpre, hlen'⟩
        rw [hT] at hscheme
        cases hscheme
      have hlen_eq : tok.length = 8 := by
        have h0 := List.length_drop 8 tok
        rw [hdropeq] at h0
        simp at h0
        omega
      have hsr : some ("https://".data, (tok ++ '>' :: rem).drop 8) = some sr :=
        hms
      have hr : (tok ++ '>' :: rem).drop 8 = '>' :: rem := by
        rw [List.drop_append_eq_append_drop, hdropeq,
          show 8 - tok.length = 0 from by omega, List.drop_zero,
          List.nil_append]
      rw [hr] at hsr
      injection hsr with hsr1
      rw [← hsr1]
      rfl
    · rw [if_neg h8] at hms
      by_cases h7 : (tok ++ '>' :: rem).take 7 = "http://".data
      · rw [if_pos h7] at hms
        have hlen7 : 7 ≤ tok.length := by
          by_contra hlt
          push_neg at hlt
          have htk : (tok ++ '>' :: rem).take 7 =
              tok ++ ('>' :: rem).take (7 - tok.length) := by
            rw [List.take_append_eq_append_take,
              List.take_of_length_le (Nat.le_of_lt hlt)]
          have hgtmem : '>' ∈ (tok ++ '>' :: rem).take 7 := by
            rw [htk]
            apply List.mem_append_right
            have hn : 7 - tok.length = (7 - tok.length - 1) + 1 := by omega
            rw [hn, List.take_succ_cons]
            exact List.mem_cons_self _ _
          rw [h7] at hgtmem
          exact absurd hgtmem (by decide)
        have htk7 : tok.take 7 = "http://".data := by
          rw [List.take_append_eq_append_take,
            show 7 - tok.length = 0 from by omega, List.take_zero,
            List.append_nil] at h7
          exact h7
        have hpre : "http://".data <+: tok := by
          rw [List.prefix_iff_eq_take]
          exact htk7.symm
        have hdropeq : tok.drop 7 = [] := by
          by_contra hne
          have h0 : 0 < (tok.drop 7).length := List.length_pos.mpr hne
          rw [List.length_drop] at h0
          have hlen' : 7 < tok.length := by omega
          have hT : isSchemeToken tok = true := by
            unfold isSchemeToken
            apply Bool.or_eq_true_iff.mpr
            right
            exact decide_eq_true ⟨List.isPrefixOf_iff_prefix.mpr hpre, hlen'⟩
          rw [hT] at hscheme
          cases hscheme
        have hlen_eq : tok.length = 7 := by
          have h0 := List.length_drop 7 tok
          rw [hdropeq] at h0
          simp at h0
          omega
        have hsr : some ("http://".data, (tok ++ '>' :: rem).drop 7) = some sr :=
          hms
        have hr : (tok ++ '>' :: rem).drop 7 = '>' :: rem := by
          rw [List.drop_append_eq_append_drop, hdropeq,
            show 7 - tok.length = 0 from by omega, List.drop_zero,
            List.nil_append]
        rw [hr] at hsr
        injection hsr with hsr1
        rw [← hsr1]
        rfl
      · rw [if_neg h7] at hms
        exact Option.noConfusion hms

theorem dropWhile_all_nil (p : Char → Bool) (l : List Char)
    (h : ∀ x ∈ l, p x = true) : l.dropWhile p = [] := by
  induction l with
  | nil => rfl
  | cons c cs ih =>
    rw [List.dropWhile_cons, if_pos (h c (List.mem_cons_self c cs))]
    exact ih (fun y hy => h y (List.mem_cons_of_mem c hy))

theorem findAngleHttp_cons_some (c : Char) (rest : List Char)
    (mr : List Char × List Char) (hm : hdrTry1 (c :: rest) = some mr) :
    findAngleHttp (c :: rest) = mr.1 :: findAngleHttp mr.2 :=
  findAllRe_cons_some hdrTry1 hdrTry1_length c rest mr hm

theorem findAngleHttp_cons_none (c : Char) (rest : List Char)
    (hm : hdrTry1 (c :: rest) = none) :
    findAngleHttp (c :: rest) = findAngleHttp rest :=
  findAllRe_cons_none hdrTry1 hdrTry1_length c rest hm

theorem specAngleTokens_cons_some (c : Char) (rest : List Char)
    (mr : List Char × List Char) (hm : specTry1 (c :: rest) = some mr) :
    specAngleTokens (c :: rest) = mr.1 :: specAngleTokens mr.2 :=
  findAllRe_cons_some specTry1 specTry1_length c rest mr hm

theorem specAngleTokens_cons_none (c : Char) (rest : List Char)
    (hm : specTry1 (c :: rest) = none) :
    specAngleTokens (c :: rest) = specAngleTokens rest :=
  findAllRe_cons_none specTry1 specTry1_length c rest hm

theorem findAngleHttp_skip (seg l2 : List Char) (h : ∀ c ∈ seg, c ≠ '<') :
    findAngleHttp (seg ++ l2) = findAngleHttp l2 := by
  induction seg with
  | nil => rfl
  | cons c cs ih =>
    rw [List.cons_append,
      findAngleHttp_cons_none c (cs ++ l2)
        (hdrTry1_not_lt c (cs ++ l2) (h c (List.mem_cons_self c cs)))]
    exact ih (fun y hy => h y (List.mem_cons_of_mem c hy))

theorem findAngleHttp_eq_filter_aux (n : Nat) :
    ∀ l : List Char, l.length ≤ n → wfAngle l = true →
      findAngleHttp l = (specAngleTokens l).filter isSchemeToken := by
  induction n with
  | zero =>
    intro l hl _
    match l with
    | [] => rfl
    | c :: rest => simp at hl
  | succ n ih =>
    intro l hl hwf
    match l with
    | [] => rfl
    | c :: rest =>
      simp only [List.length_cons] at hl
      by_cases hc : c = '<'
      · subst hc
        have hwfT : wfAngleSt true rest = true := by
          have h0 : wfAngle ('<' :: rest) = wfAngleSt true rest := by
            show wfAngleSt false ('<' :: rest) = _
            rw [wfSt_false_cons, if_pos rfl]
          rw [h0] at hwf
          exact hwf
        cases hdrop : rest.dropWhile (· ≠ '>') with
        | nil =>
          have hnogt : ∀ x ∈ rest, x ≠ '>' := by
            intro x hx
            have := dropWhile_eq_nil_all _ rest hdrop x hx
            simpa using this
          have hnolt := wfAngleSt_true_no_gt rest hnogt hwfT
          have hTok : hdrTryToken rest = none := by
            unfold hdrTryToken
            cases hms : matchSchemeCS rest with
            | none => rfl
            | some sr =>
              obtain ⟨sch, r⟩ := sr
              have hrsub : ∀ x ∈ r, x ≠ '>' := by
                intro x hx
                apply hnogt
                unfold matchSchemeCS at hms
                by_cases h8 : rest.take 8 = "https://".data
                · rw [if_pos h8] at hms
                  injection hms with h
                  have h2 : r = rest.drop 8 := by
                    have := congrArg Prod.snd h
                    simpa using this.symm
                  rw [h2] at hx
                  exact List.mem_of_mem_drop hx
                · rw [if_neg h8] at hms
                  by_cases h7 : rest.take 7 = "http://".data
                  · rw [if_pos h7] at hms
                    injection hms with h
                    have h2 : r = rest.drop 7 := by
                      have := congrArg Prod.snd h
                      simpa using this.symm
                    rw [h2] at hx
                    exact List.mem_of_mem_drop hx
                  · rw [if_neg h7] at hms
                    exact Option.noConfusion hms
              have hdw : r.dropWhile (· ≠ '>') = [] :=
                dropWhile_all_nil _ r (fun x hx => by simp [hrsub x hx])
              show (if (r.takeWhile (· ≠ '>')).isEmpty then none
                else match r.dropWhile (· ≠ '>') with
                  | _ :: rem2 => some (sch ++ r.takeWhile (· ≠ '>'), rem2)
                  | [] => none) = none
              by_cases hie : (r.takeWhile (· ≠ '>')).isEmpty = true
              · rw [if_pos hie]
              · rw [if_neg hie, hdw]
          rw [findAngleHttp_cons_none '<' rest (by rw [hdrTry1_lt]; exact hTok),
            specAngleTokens_cons_none '<' rest (by
              show (if ('<' : Char) = '<' then
                  match rest.dropWhile (· ≠ '>') with
                  | _ :: rem2 => some (rest.takeWhile (· ≠ '>'), rem2)
                  | [] => none
                else none) = none
              rw [if_pos rfl, hdrop])]
          exact ih rest (by omega)
            (wfAngleSt_false_of_no_lt rest hnolt)
        | cons d rem =>
          have hd : d = '>' := by
            have := dropWhile_head_false _ rest d rem hdrop
            simpa using this
          subst hd
          have hsplitr : rest = rest.takeWhile (· ≠ '>') ++ '>' :: rem := by
            have hap : rest.takeWhile (· ≠ '>') ++ rest.dropWhile (· ≠ '>') =
                rest := List.takeWhile_append_dropWhile _ _
            rw [hdrop] at hap
            exact hap.symm
          have hgt : ∀ x ∈ rest.takeWhile (· ≠ '>'), x ≠ '>' := by
            intro x hx
            have := List.mem_takeWhile_imp hx
            simpa using this
          have hwf2 : (∀ x ∈ rest.takeWhile (· ≠ '>'), x ≠ '<') ∧
              wfAngleSt false rem = true := by
            rw [hsplitr] at hwfT
            exact (wfAngleSt_true_split _ rem hgt).mp hwfT
          have hspec : specAngleTokens ('<' :: rest) =
              rest.takeWhile (· ≠ '>') :: specAngleTokens rem :=
            specAngleTokens_cons_some '<' rest (rest.takeWhile (· ≠ '>'), rem)
              (by
                show (if ('<' : Char) = '<' then
                    match rest.dropWhile (· ≠ '>') with
                    | _ :: rem2 => some (rest.takeWhile (· ≠ '>'), rem2)
                    | [] => none
                  else none) = some (rest.takeWhile (· ≠ '>'), rem)
                rw [if_pos rfl, hdrop])
          have hremlen : rem.length ≤ n := by
            have hsum : rest.length =
                (rest.takeWhile (· ≠ '>')).length + (rem.length + 1) := by
              conv_lhs => rw [hsplitr]
              simp [List.length_append]
            omega
          by_cases hS : isSchemeToken (rest.takeWhile (· ≠ '>')) = true
          · have hfind : findAngleHttp ('<' :: rest) =
                rest.takeWhile (· ≠ '>') :: findAngleHttp rem := by
              apply findAngleHttp_cons_some '<' rest
                (rest.takeWhile (· ≠ '>'), rem)
              rw [hdrTry1_lt]
              conv_lhs => rw [hsplitr]
              exact hdrTryToken_token _ rem hgt hS
            rw [hfind, hspec, List.filter_cons_of_pos hS]
            congr 1
            exact ih rem hremlen hwf2.2
          · have hSf : isSchemeToken (rest.takeWhile (· ≠ '>')) = false := by
              cases hb : isSchemeToken (rest.takeWhile (· ≠ '>'))
              · rfl
              · exact absurd hb hS
            have hfind : findAngleHttp ('<' :: rest) = findAngleHttp rest := by
              apply findAngleHttp_cons_none '<' rest
              rw [hdrTry1_lt]
              conv_lhs => rw [hsplitr]
              exact hdrTryToken_not_scheme _ rem hgt hSf
            have hrest2 : findAngleHttp rest = findAngleHttp rem := by
              conv_lhs => rw [hsplitr]
              rw [findAngleHttp_skip _ _ hwf2.1]
              exact findAngleHttp_cons_none '>' rem
                (hdrTry1_not_lt '>' rem (by decide))
            rw [hfind, hrest2, hspec, List.filter_cons_of_neg hS]
            exact ih rem hremlen hwf2.2
      · have hwfF : wfAngleSt false rest = true := by
          have h0 : wfAngle (c :: rest) = wfAngleSt false rest := by
            show wfAngleSt false (c :: rest) = _
            rw [wfSt_false_cons, if_neg hc]
          rw [h0] at hwf
          exact hwf
        rw [findAngleHttp_cons_none c rest (hdrTry1_not_lt c rest hc),
          specAngleTokens_cons_none c rest (specTry1_not_lt c rest hc)]
        exact ih rest (by omega) hwfF

/-- On a well-formed header value the regex scan returns exactly the
scheme-bearing angle tokens. -/
theorem findAngleHttp_eq_filter (l : List Char) (h : wfAngle l = true) :
    findAngleHttp l = (specAngleTokens l).filter isSchemeToken :=
  findAngleHttp_eq_filter_aux l.length l (le_refl _) h

theorem specTokens_no_brackets_aux (n : Nat) :
    ∀ l : List Char, l.length ≤ n → wfAngle l = true →
      ∀ t ∈ specAngleTokens l, ∀ x ∈ t, x ≠ '>' ∧ x ≠ '<' := by
  induction n with
  | zero =>
    intro l hl _
    match l with
    | [] => intro t ht; cases ht
    | c :: rest => simp at hl
  | succ n ih =>
    intro l hl hwf
    match l with
    | [] => intro t ht; cases ht
    | c :: rest =>
      simp only [List.length_cons] at hl
      by_cases hc : c = '<'
      · subst hc
        have hwfT : wfAngleSt true rest = true := by
          have h0 : wfAngle ('<' :: rest) = wfAngleSt true rest := by
            show wfAngleSt false ('<' :: rest) = _
            rw [wfSt_false_cons, if_pos rfl]
          rw [h0] at hwf
          exact hwf
        cases hdrop : rest.dropWhile (· ≠ '>') with
        | nil =>
          have hnogt : ∀ x ∈ rest, x ≠ '>' := by
            intro x hx
            have := dropWhile_eq_nil_all _ rest hdrop x hx
            simpa using this
          have hnolt := wfAngleSt_true_no_gt rest hnogt hwfT
          rw [specAngleTokens_cons_none '<' rest (by
            show (if ('<' : Char) = '<' then
                match rest.dropWhile (· ≠ '>') with
                | _ :: rem2 => some (rest.takeWhile (· ≠ '>'), rem2)
                | [] => none
              else none) = none
            rw [if_pos rfl, hdrop])]
          exact ih rest (by omega) (wfAngleSt_false_of_no_lt rest hnolt)
        | cons d rem =>
          have hd : d = '>' := by
            have := dropWhile_head_false _ rest d rem hdrop
            simpa using this
          subst hd
          have hsplitr : rest = rest.takeWhile (· ≠ '>') ++ '>' :: rem := by
            have hap : rest.takeWhile (· ≠ '>') ++ rest.dropWhile (· ≠ '>') =
                rest := List.takeWhile_append_dropWhile _ _
            rw [hdrop] at hap
            exact hap.symm
          have hgt : ∀ x ∈ rest.takeWhile (· ≠ '>'), x ≠ '>' := by
            intro x hx
            have := List.mem_takeWhile_imp hx
            simpa using this
          have hwf2 : (∀ x ∈ rest.takeWhile (· ≠ '>'), x ≠ '<') ∧
              wfAngleSt false rem = true := by
            rw [hsplitr] at hwfT
            exact (wfAngleSt_true_split _ rem hgt).mp hwfT
          have hremlen : rem.length ≤ n := by
            have hsum : rest.length =
                (rest.takeWhile (· ≠ '>')).length + (rem.length + 1) := by
              conv_lhs => rw [hsplitr]
              simp [List.length_append]
            omega
          rw [specAngleTokens_cons_some '<' rest (rest.takeWhile (· ≠ '>'), rem)
            (by
              show (if ('<' : Char) = '<' then
                  match rest.dropWhile (· ≠ '>') with
                  | _ :: rem2 => some (rest.takeWhile (· ≠ '>'), rem2)
                  | [] => none
                else none) = some (rest.takeWhile (· ≠ '>'), rem)
              rw [if_pos rfl, hdrop])]
          intro t ht
          rcases List.mem_cons.mp ht with rfl | ht2
          · intro x hx
            exact ⟨hgt x hx, hwf2.1 x hx⟩
          · exact ih rem hremlen hwf2.2 t ht2
      · have hwfF : wfAngleSt false rest = true := by
          have h0 : wfAngle (c :: rest) = wfAngleSt false rest := by
            show wfAngleSt false (c :: rest) = _
            rw [wfSt_false_cons, if_neg hc]
          rw [h0] at hwf
          exact hwf
        rw [specAngleTokens_cons_none c rest (specTry1_not_lt c rest hc)]
        exact ih rest (by omega) hwfF

theorem specTokens_no_brackets (l : List Char) (hwf : wfAngle l = true) :
    ∀ t ∈ specAngleTokens l, ∀ x ∈ t, x ≠ '>' ∧ x ≠ '<' :=
  specTokens_no_brackets_aux l.length l (le_refl _) hwf

theorem pyStripWithL_id (p : Char → Bool) (t : List Char)
    (h : ∀ x ∈ t, p x = false) : pyStripWithL p t = t := by
  unfold pyStripWithL
  have hd1 : t.dropWhile p = t := by
    cases t with
    | nil => rfl
    | cons c cs =>
      rw [List.dropWhile_cons,
        if_neg (by simp [h c (List.mem_cons_self c cs)])]
  rw [hd1]
  have hd2 : t.reverse.dropWhile p = t.reverse := by
    cases hr : t.reverse with
    | nil => rfl
    | cons c cs =>
      have hcmem : c ∈ t := by
        rw [← List.mem_reverse, hr]
        exact List.mem_cons_self c cs
      rw [List.dropWhile_cons, if_neg (by simp [h c hcmem])]
  rw [hd2, List.reverse_reverse]

theorem stripLtGt_id (t : List Char) (h : ∀ x ∈ t, x ≠ '>' ∧ x ≠ '<') :
    stripLtGt ⟨t⟩ = (⟨t⟩ : String) := by
  show (⟨pyStripWithL (fun c => c = '<' || c = '>') t⟩ : String) = ⟨t⟩
  rw [pyStripWithL_id _ t (fun x hx => by
    rcases h x hx with ⟨h1, h2⟩
    simp [h1, h2])]

theorem isSchemeToken_http_prefix (t : List Char)
    (h : isSchemeToken t = true) : startsWithHttp ⟨t⟩ = true := by
  rcases isSchemeToken_cases t h with ⟨hpre, _⟩ | ⟨hpre, _⟩
  · apply List.isPrefixOf_iff_prefix.mpr
    show "http".data <+: t
    exact List.IsPrefix.trans (by decide) hpre
  · apply List.isPrefixOf_iff_prefix.mpr
    show "http".data <+: t
    exact List.IsPrefix.trans (by decide) hpre

theorem mem_headerLinks (hs : List Header) (u : String) :
    u ∈ headerLinks hs ↔
      ∃ hd ∈ hs, pyLower hd.name = "list-unsubscribe" ∧
        u.data ∈ findAngleHttp hd.value.data := by
  unfold headerLinks
  rw [List.mem_flatMap]
  constructor
  · rintro ⟨hd, hhd, hu⟩
    by_cases hn : pyLower hd.name = "list-unsubscribe"
    · rw [if_pos hn] at hu
      rw [List.mem_map] at hu
      obtain ⟨t, ht, htu⟩ := hu
      refine ⟨hd, hhd, hn, ?_⟩
      rw [← htu]
      exact ht
    · rw [if_neg hn] at hu
      cases hu
  · rintro ⟨hd, hhd, hn, hu⟩
    refine ⟨hd, hhd, ?_⟩
    rw [if_pos hn, List.mem_map]
    exact ⟨u.data, hu, rfl⟩

/-- **C1** (amended): for every message whose `List-Unsubscribe` header
values are well-formed bracket sequences (no second `<` inside a token)
and whose body yields no pattern matches, the extractor returns exactly
the set of angle-bracket tokens that start with `http://` or `https://`
followed by at least one character; `mailto:` and all other tokens
(including ones merely starting with the four letters `http`) are
excluded. -/
theorem c1_extract_unsubscribe_links_amended (m : Message)
    (hwf : ∀ hd ∈ m.headers, pyLower hd.name = "list-unsubscribe" →
      wfAngle hd.value.data = true)
    (hbody : bodyLinks m = Except.ok []) :
    ∃ ls, extract_unsubscribe_links m = Except.ok ls ∧
      ∀ u : String, u ∈ ls ↔
        ∃ hd ∈ m.headers, pyLower hd.name = "list-unsubscribe" ∧
          u.data ∈ (specAngleTokens hd.value.data).filter isSchemeToken := by
  refine ⟨((pySetList (headerLinks m.headers ++ [])).map stripLtGt).filter
      startsWithHttp, ?_, ?_⟩
  · unfold extract_unsubscribe_links
    rw [hbody]
  · intro u
    constructor
    · intro hu
      rw [List.mem_filter] at hu
      obtain ⟨humap, hhttp⟩ := hu
      rw [List.mem_map] at humap
      obtain ⟨v, hv, hvu⟩ := humap
      rw [pySetList_mem, List.append_nil] at hv
      rw [mem_headerLinks] at hv
      obtain ⟨hd, hhd, hname, hvdata⟩ := hv
      rw [findAngleHttp_eq_filter _ (hwf hd hhd hname)] at hvdata
      have hnb : ∀ x ∈ v.data, x ≠ '>' ∧ x ≠ '<' :=
        specTokens_no_brackets _ (hwf hd hhd hname) v.data
          (List.mem_filter.mp hvdata).1
      have hvv : stripLtGt v = v := by
        have h1 := stripLtGt_id v.data hnb
        exact h1
      rw [hvv] at hvu
      subst hvu
      exact ⟨hd, hhd, hname, hvdata⟩
    · rintro ⟨hd, hhd, hname, hu⟩
      have hfa : u.data ∈ findAngleHttp hd.value.data := by
        rw [findAngleHttp_eq_filter _ (hwf hd hhd hname)]
        exact hu
      have hnb : ∀ x ∈ u.data, x ≠ '>' ∧ x ≠ '<' :=
        specTokens_no_brackets _ (hwf hd hhd hname) u.data
          (List.mem_filter.mp hu).1
      have hS : isSchemeToken u.data = true := (List.mem_filter.mp hu).2
      rw [List.mem_filter]
      constructor
      · rw [List.mem_map]
        refine ⟨u, ?_, ?_⟩
        · rw [pySetList_mem, List.append_nil, mem_headerLinks]
          exact ⟨hd, hhd, hname, hfa⟩
        · exact stripLtGt_id u.data hnb
      · exact isSchemeToken_http_prefix u.data hS

/-- A message with a well-formed `List-Unsubscribe` header holding a
`mailto:` and an `https` token, and no body. -/
def c1WitMsg : Message :=
  ⟨"c1w", [⟨"List-Unsubscribe", "<mailto:u@x.com>, <https://x.com/u>"⟩],
    Part.mk "text/plain" none PartList.nil⟩

theorem c1_extract_unsubscribe_links_amended_witness :
    ∃ ls, extract_unsubscribe_links c1WitMsg = Except.ok ls ∧
      ("https://x.com/u" ∈ ls ∧ ¬ "mailto:u@x.com" ∈ ls) := by
  obtain ⟨ls, h1, h2⟩ := c1_extract_unsubscribe_links_amended c1WitMsg
    (by
      intro hd hhd _
      rcases List.mem_cons.mp hhd with rfl | h0
      · decide
      · cases h0)
    rfl
  refine ⟨ls, h1, ?_, ?_⟩
  · exact (h2 "https://x.com/u").mpr
      ⟨⟨"List-Unsubscribe", "<mailto:u@x.com>, <https://x.com/u>"⟩,
        List.mem_cons_self _ _, by decide, by decide⟩
  · intro hmem
    obtain ⟨hd, hhd, _, hfil⟩ := (h2 "mailto:u@x.com").mp hmem
    rcases List.mem_cons.mp hhd with rfl | h0
    · revert hfil
      decide
    · cases h0

/-! ## C10: `get_sender_info` defaults -/

/-- The first header whose lowered name is `from` (the loop in
`get_sender_info` breaks at the first hit). -/
def firstFrom (hs : List Header) : Option Header :=
  hs.find? (fun x => pyLower x.name = "from")

theorem reMatch_go_none (l : List Char) (h : hasAngleAddr l = false) :
    ∀ acc, reMatchNameEmail.go acc l = none := by
  induction l with
  | nil => intro acc; rfl
  | cons c rest ih =>
    intro acc
    have h2 : (if c = '<' then
        (match rest.dropWhile (· ≠ '>') with
          | _ :: _ => !(rest.takeWhile (· ≠ '>')).isEmpty
          | [] => false)
      else false) = false ∧ hasAngleAddr rest = false := by
      have h0 : hasAngleAddr (c :: rest) =
          ((if c = '<' then
            (match rest.dropWhile (· ≠ '>') with
              | _ :: _ => !(rest.takeWhile (· ≠ '>')).isEmpty
              | [] => false)
          else false) || hasAngleAddr rest) := rfl
      rw [h0] at h
      exact Bool.or_eq_false_iff.mp h
    simp only [reMatchNameEmail.go]
    by_cases hn : c = '\n'
    · rw [if_pos hn]
    · rw [if_neg hn]
      by_cases hc : c = '<'
      · rw [if_pos hc]
        rw [if_pos hc] at h2
        cases hdrop : rest.dropWhile (· ≠ '>') with
        | nil =>
          show reMatchNameEmail.go (acc ++ [c]) rest = none
          exact ih h2.2 (acc ++ [c])
        | cons d rem =>
          rw [hdrop] at h2
          have hie : (rest.takeWhile (· ≠ '>')).isEmpty = true := by
            have := h2.1
            simp only [Bool.not_eq_false'] at this
            exact this
          show (if (rest.takeWhile (· ≠ '>')).isEmpty then
              reMatchNameEmail.go (acc ++ [c]) rest
            else some (acc, rest.takeWhile (· ≠ '>'))) = none
          rw [if_pos hie]
          exact ih h2.2 (acc ++ [c])
      · rw [if_neg hc]
        exact ih h2.2 (acc ++ [c])

theorem reMatchNameEmail_none (l : List Char) (h : hasAngleAddr l = false) :
    reMatchNameEmail l = none :=
  reMatch_go_none l h []

theorem get_sender_info_go_no_from (hs : List Header)
    (h : ∀ hd ∈ hs, ¬ pyLower hd.name = "from") :
    get_sender_info.go hs = ("Unknown", "unknown@example.com") := by
  induction hs with
  | nil => rfl
  | cons hd hs2 ih =>
    simp only [get_sender_info.go]
    rw [if_neg (h hd (List.mem_cons_self hd hs2))]
    exact ih (fun x hx => h x (List.mem_cons_of_mem hd hx))

theorem get_sender_info_go_first (hs : List Header) (hd : Header)
    (hf : firstFrom hs = some hd) :
    get_sender_info.go hs =
      (match reMatchNameEmail hd.value.data with
        | some ne => (stripDq (pyStrip ⟨ne.1⟩), pyStrip ⟨ne.2⟩)
        | none => ("Unknown", pyStrip hd.value)) := by
  induction hs with
  | nil => exact Option.noConfusion hf
  | cons h0 hs2 ih =>
    by_cases hp : pyLower h0.name = "from"
    · have hfd : hd = h0 := by
        unfold firstFrom at hf
        rw [List.find?_cons_of_pos _ (by simp [hp])] at hf
        injection hf with h1
        exact h1.symm
      subst hfd
      simp only [get_sender_info.go]
      rw [if_pos hp]
    · have hf2 : firstFrom hs2 = some hd := by
        unfold firstFrom at hf ⊢
        rw [List.find?_cons_of_neg _ (by simp [hp])] at hf
        exact hf
      simp only [get_sender_info.go]
      rw [if_neg hp]
      exact ih hf2

/-- **C10**: `get_sender_info` is total with the documented defaults —
no `From` header gives `("Unknown", "unknown@example.com")`; a `From`
header with no angle-bracket address gives the default name and the
trimmed raw field; all messages lacking a `From` header share the
canonical key `unknown@example.com` and therefore one sender group /
history key. -/
theorem c10_get_sender_info_defaults :
    (∀ m : Message, (∀ hd ∈ m.headers, ¬ pyLower hd.name = "from") →
      get_sender_info m = ("Unknown", "unknown@example.com")) ∧
    (∀ m : Message, ∀ hd : Header, firstFrom m.headers = some hd →
      hasAngleAddr hd.value.data = false →
      get_sender_info m = ("Unknown", pyStrip hd.value)) ∧
    senderKeyOf "unknown@example.com" = "unknown@example.com" ∧
    (∀ m1 m2 : Message, (∀ hd ∈ m1.headers, ¬ pyLower hd.name = "from") →
      (∀ hd ∈ m2.headers, ¬ pyLower hd.name = "from") →
      msgKey m1 = msgKey m2) := by
  have hnf : ∀ m : Message, (∀ hd ∈ m.headers, ¬ pyLower hd.name = "from") →
      get_sender_info m = ("Unknown", "unknown@example.com") := by
    intro m h
    exact get_sender_info_go_no_from m.headers h
  refine ⟨hnf, ?_, rfl, ?_⟩
  · intro m hd hf hna
    have h1 := get_sender_info_go_first m.headers hd hf
    rw [reMatchNameEmail_none hd.value.data hna] at h1
    exact h1
  · intro m1 m2 h1 h2
    unfold msgKey
    rw [hnf m1 h1, hnf m2 h2]

theorem c10_get_sender_info_defaults_witness :
    get_sender_info ⟨"w1", [⟨"Subject", "hello"⟩],
        Part.mk "text/plain" none PartList.nil⟩ =
      ("Unknown", "unknown@example.com") ∧
    get_sender_info ⟨"w2", [⟨"From", " alice at example dot com "⟩],
        Part.mk "text/plain" none PartList.nil⟩ =
      ("Unknown", "alice at example dot com") := by
  constructor
  · exact c10_get_sender_info_defaults.1 _ (by
      intro hd hhd
      rcases List.mem_cons.mp hhd with rfl | h0
      · decide
      · cases h0)
  · have h := c10_get_sender_info_defaults.2.1
      ⟨"w2", [⟨"From", " alice at example dot com "⟩],
        Part.mk "text/plain" none PartList.nil⟩
      ⟨"From", " alice at example dot com "⟩ (by decide) (by decide)
    rw [h]
    rfl

/-! ## C9: `search_emails` deduplication -/

theorem uniqueFirst_nil : uniqueFirst [] = [] := by
  rw [uniqueFirst]

theorem uniqueFirst_cons (m : Stub) (rest : List Stub) :
    uniqueFirst (m :: rest) =
      m :: uniqueFirst (rest.filter (fun x => x.id ≠ m.id)) := by
  rw [uniqueFirst]

theorem dedupStubs_go_eq (l : List Stub) :
    ∀ seen, dedupStubs.go l seen =
      uniqueFirst (l.filter (fun x => !(seen.contains x.id))) := by
  induction l with
  | nil =>
    intro seen
    rw [List.filter_nil, uniqueFirst_nil]
    rfl
  | cons m rest ih =>
    intro seen
    simp only [dedupStubs.go]
    cases hc : seen.contains m.id with
    | true =>
      have hm : m.id ∈ seen := by simpa using hc
      rw [if_pos rfl]
      rw [List.filter_cons_of_neg (by simp [hm])]
      exact ih seen
    | false =>
      have hm : ¬ m.id ∈ seen := by
        intro hmem
        rw [show seen.contains m.id = true by simpa using hmem] at hc
        cases hc
      rw [if_neg (by simp)]
      rw [List.filter_cons_of_pos (by simp [hm])]
      rw [uniqueFirst_cons, ih (m.id :: seen)]
      congr 1
      refine congrArg uniqueFirst ?_
      rw [List.filter_filter]
      apply List.filter_congr
      intro x _
      by_cases hx : x.id = m.id
      · simp [hx, hm]
      · by_cases hs : x.id ∈ seen
        · simp [hx, hs]
        · simp [hx, hs]

theorem dedupStubs_eq_uniqueFirst (l : List Stub) :
    dedupStubs l = uniqueFirst l := by
  unfold dedupStubs
  rw [dedupStubs_go_eq]
  congr 1
  apply List.filter_eq_self.mpr
  intro x _
  rfl

theorem mem_uniqueFirst_aux (n : Nat) :
    ∀ l : List Stub, l.length ≤ n → ∀ x ∈ uniqueFirst l, x ∈ l := by
  induction n with
  | zero =>
    intro l hl x hx
    match l with
    | [] =>
      rw [uniqueFirst_nil] at hx
      cases hx
    | _ :: _ => simp at hl
  | succ n ih =>
    intro l hl x hx
    match l with
    | [] =>
      rw [uniqueFirst_nil] at hx
      cases hx
    | m :: rest =>
      simp only [List.length_cons] at hl
      rw [uniqueFirst_cons] at hx
      rcases List.mem_cons.mp hx with rfl | hx2
      · exact List.mem_cons_self _ _
      · have hlen := List.length_filter_le (fun x => x.id ≠ m.id) rest
        have := ih (rest.filter (fun x => x.id ≠ m.id)) (by omega) x hx2
        exact List.mem_cons_of_mem m (List.mem_of_mem_filter this)

theorem uniqueFirst_nodup_aux (n : Nat) :
    ∀ l : List Stub, l.length ≤ n → ((uniqueFirst l).map Stub.id).Nodup := by
  induction n with
  | zero =>
    intro l hl
    match l with
    | [] => rw [uniqueFirst_nil]; simp
    | _ :: _ => simp at hl
  | succ n ih =>
    intro l hl
    match l with
    | [] => rw [uniqueFirst_nil]; simp
    | m :: rest =>
      simp only [List.length_cons] at hl
      rw [uniqueFirst_cons]
      have hlen := List.length_filter_le (fun x => x.id ≠ m.id) rest
      rw [List.map_cons, List.nodup_cons]
      constructor
      · intro hmem
        rw [List.mem_map] at hmem
        obtain ⟨x, hx, hxid⟩ := hmem
        have hx2 := mem_uniqueFirst_aux (rest.filter (fun x => x.id ≠ m.id)).length
          _ (le_refl _) x hx
        have := List.of_mem_filter hx2
        rw [hxid] at this
        simp at this
      · exact ih (rest.filter (fun x => x.id ≠ m.id)) (by omega)

theorem uniqueFirst_nodup (l : List Stub) :
    ((uniqueFirst l).map Stub.id).Nodup :=
  uniqueFirst_nodup_aux l.length l (le_refl _)

theorem search_emails_inbox (w : World) (query : String) (max_results : Nat)
    (h : containsSubL "in:".data (lowerL query.data) = false) :
    search_emails w query max_results true =
      (dedupStubs (searchConcat w query max_results)).take max_results := by
  unfold search_emails
  rw [h]
  rfl

/-- **C9**: with `inbox_only` and no `in:` token in the query,
`search_emails` returns the first-occurrence deduplication (in
category-traversal order) of the concatenated per-category results,
truncated to `max_results`; the returned ids are pairwise distinct and
the list has at most `max_results` elements. -/
theorem c9_search_emails_dedup (w : World) (query : String)
    (max_results : Nat)
    (h : containsSubL "in:".data (lowerL query.data) = false) :
    search_emails w query max_results true =
      (uniqueFirst (searchConcat w query max_results)).take max_results ∧
    ((search_emails w query max_results true).map Stub.id).Nodup ∧
    (search_emails w query max_results true).length ≤ max_results := by
  have he := search_emails_inbox w query max_results h
  rw [dedupStubs_eq_uniqueFirst] at he
  refine ⟨he, ?_, ?_⟩
  · rw [he, List.map_take]
    exact List.Nodup.sublist (List.take_sublist _ _) (uniqueFirst_nodup _)
  · rw [he]
    exact List.length_take_le _ _

/-- A world whose categories return overlapping stub ids. -/
def c9World : World :=
  ⟨fun _ _ => Except.ok [⟨"a"⟩, ⟨"b"⟩, ⟨"a"⟩], fun _ => none,
   fun _ _ => AttemptOutcome.exc, fun _ => true, fun _ => true, "t"⟩

theorem c9_search_emails_dedup_witness :
    ((search_emails c9World "unsubscribe" 3 true).map Stub.id).Nodup ∧
    (search_emails c9World "unsubscribe" 3 true).length ≤ 3 ∧
    search_emails c9World "unsubscribe" 3 true = [⟨"a"⟩, ⟨"b"⟩] := by
  have h := c9_search_emails_dedup c9World "unsubscribe" 3 (by decide)
  exact ⟨h.2.1, h.2.2, by decide⟩

/-! ## C2: grouping by canonical sender key -/

theorem lowerChar_ws (c : Char) (h : isPyWs c = true) : lowerChar c = c := by
  have hc : ((((c = ' ' ∨ c = '\t') ∨ c = '\n') ∨ c = '\x0d') ∨ c = '\x0b') ∨
      c = '\x0c' := by simpa [isPyWs] using h
  rcases hc with ⟨⟨⟨⟨rfl | rfl⟩ | rfl⟩ | rfl⟩ | rfl⟩ | rfl <;> decide

theorem lowerL_ws_id (l : List Char) (h : ∀ x ∈ l, isPyWs x = true) :
    lowerL l = l := by
  induction l with
  | nil => rfl
  | cons c t ih =>
    simp only [lowerL, List.map_cons]
    rw [lowerChar_ws c (h c (List.mem_cons_self c t))]
    have ht : lowerL t = t := ih (fun x hx => h x (List.mem_cons_of_mem c hx))
    simp only [lowerL] at ht
    rw [ht]

theorem dropWhile_append_pos (p : Char → Bool) (a b : List Char)
    (h : a.dropWhile p ≠ []) :
    (a ++ b).dropWhile p = a.dropWhile p ++ b := by
  induction a with
  | nil => exact absurd rfl h
  | cons c t ih =>
    rw [List.cons_append, List.dropWhile_cons, List.dropWhile_cons]
    by_cases hc : p c = true
    · rw [if_pos hc, if_pos hc]
      apply ih
      rw [List.dropWhile_cons, if_pos hc] at h
      exact h
    · rw [if_neg hc, if_neg hc, List.cons_append]

theorem pyStripL_pad (wl x wr : List Char)
    (h1 : ∀ c ∈ wl, isPyWs c = true) (h2 : ∀ c ∈ wr, isPyWs c = true) :
    pyStripL (wl ++ x ++ wr) = pyStripL x := by
  unfold pyStripL pyStripWithL
  rw [List.append_assoc, dropWhile_append_all _ _ _ h1]
  by_cases hx : x.dropWhile isPyWs = []
  · rw [dropWhile_append_all _ _ _ (dropWhile_eq_nil_all _ _ hx),
      dropWhile_all_nil _ _ h2, hx]
  · rw [dropWhile_append_pos _ _ _ hx, List.reverse_append,
      dropWhile_append_all _ _ _ (fun c hc => h2 c (List.mem_reverse.mp hc))]

theorem senderKeyOf_case_ws (w1 c1 w2 w3 c2 w4 : List Char)
    (hw1 : ∀ c ∈ w1, isPyWs c = true) (hw2 : ∀ c ∈ w2, isPyWs c = true)
    (hw3 : ∀ c ∈ w3, isPyWs c = true) (hw4 : ∀ c ∈ w4, isPyWs c = true)
    (hcore : lowerL c1 = lowerL c2) :
    senderKeyOf ⟨w1 ++ c1 ++ w2⟩ = senderKeyOf ⟨w3 ++ c2 ++ w4⟩ := by
  show (⟨pyStripL (lowerL (w1 ++ c1 ++ w2))⟩ : String) =
    ⟨pyStripL (lowerL (w3 ++ c2 ++ w4))⟩
  have e1 : lowerL (w1 ++ c1 ++ w2) = w1 ++ lowerL c1 ++ w2 := by
    simp only [lowerL, List.map_append]
    rw [show List.map lowerChar w1 = w1 from lowerL_ws_id w1 hw1,
        show List.map lowerChar w2 = w2 from lowerL_ws_id w2 hw2]
  have e2 : lowerL (w3 ++ c2 ++ w4) = w3 ++ lowerL c2 ++ w4 := by
    simp only [lowerL, List.map_append]
    rw [show List.map lowerChar w3 = w3 from lowerL_ws_id w3 hw3,
        show List.map lowerChar w4 = w4 from lowerL_ws_id w4 hw4]
  rw [e1, e2, pyStripL_pad w1 (lowerL c1) w2 hw1 hw2,
      pyStripL_pad w3 (lowerL c2) w4 hw3 hw4, hcore]

theorem insertByCount_perm (x : String × SenderGroup)
    (l : List (String × SenderGroup)) :
    (insertByCount x l).Perm (x :: l) := by
  induction l with
  | nil => exact List.Perm.refl _
  | cons y ys ih =>
    simp only [insertByCount]
    by_cases hc : y.2.messages.length ≤ x.2.messages.length
    · rw [if_pos hc]
    · rw [if_neg hc]
      exact (List.Perm.cons y ih).trans (List.Perm.swap x y ys)

theorem sortByCountDesc_perm (l : List (String × SenderGroup)) :
    (sortByCountDesc l).Perm l := by
  induction l with
  | nil => exact List.Perm.refl _
  | cons x xs ih =>
    exact (insertByCount_perm x (sortByCountDesc xs)).trans (List.Perm.cons x ih)

theorem insertByCount_pairwise (x : String × SenderGroup)
    (l : List (String × SenderGroup))
    (h : l.Pairwise (fun a b => b.2.messages.length ≤ a.2.messages.length)) :
    (insertByCount x l).Pairwise
      (fun a b => b.2.messages.length ≤ a.2.messages.length) := by
  induction l with
  | nil => simp [insertByCount]
  | cons y ys ih =>
    simp only [insertByCount]
    obtain ⟨hy, hys⟩ := List.pairwise_cons.mp h
    by_cases hc : y.2.messages.length ≤ x.2.messages.length
    · rw [if_pos hc]
      refine List.pairwise_cons.mpr ⟨?_, h⟩
      intro z hz
      rcases List.mem_cons.mp hz with rfl | hz2
      · exact hc
      · exact (hy z hz2).trans hc
    · rw [if_neg hc]
      refine List.pairwise_cons.mpr ⟨?_, ih hys⟩
      intro z hz
      have hz' : z ∈ x :: ys := (insertByCount_perm x ys).mem_iff.mp hz
      rcases List.mem_cons.mp hz' with rfl | hz2
      · exact Nat.le_of_lt (Nat.lt_of_not_le hc)
      · exact hy z hz2

theorem sortByCountDesc_pairwise (l : List (String × SenderGroup)) :
    (sortByCountDesc l).Pairwise
      (fun a b => b.2.messages.length ≤ a.2.messages.length) := by
  induction l with
  | nil => simp [sortByCountDesc]
  | cons x xs ih => exact insertByCount_pairwise x _ ih

theorem insertByCount_filter_count (x : String × SenderGroup)
    (l : List (String × SenderGroup)) (c : Nat) :
    (insertByCount x l).filter (fun kg => kg.2.messages.length = c) =
      if x.2.messages.length = c then
        x :: l.filter (fun kg => kg.2.messages.length = c)
      else l.filter (fun kg => kg.2.messages.length = c) := by
  induction l with
  | nil => by_cases hx : x.2.messages.length = c <;> simp [insertByCount, hx]
  | cons y ys ih =>
    simp only [insertByCount]
    by_cases hc : y.2.messages.length ≤ x.2.messages.length
    · rw [if_pos hc]
      by_cases hx : x.2.messages.length = c
      · rw [if_pos hx, List.filter_cons_of_pos (by simpa using hx)]
      · rw [if_neg hx, List.filter_cons_of_neg (by simpa using hx)]
    · rw [if_neg hc]
      by_cases hy : y.2.messages.length = c
      · rw [List.filter_cons_of_pos (by simpa using hy), ih]
        have hx : ¬ x.2.messages.length = c := by
          intro hx
          exact hc (by omega)
        rw [if_neg hx, if_neg hx, List.filter_cons_of_pos (by simpa using hy)]
      · rw [List.filter_cons_of_neg (by simpa using hy), ih,
          List.filter_cons_of_neg (by simpa using hy)]

theorem sortByCountDesc_filter_count (l : List (String × SenderGroup))
    (c : Nat) :
    (sortByCountDesc l).filter (fun kg => kg.2.messages.length = c) =
      l.filter (fun kg => kg.2.messages.length = c) := by
  induction l with
  | nil => rfl
  | cons x xs ih =>
    simp only [sortByCountDesc]
    rw [insertByCount_filter_count, ih]
    by_cases hx : x.2.messages.length = c
    · rw [if_pos hx, List.filter_cons_of_pos (by simpa using hx)]
    · rw [if_neg hx, List.filter_cons_of_neg (by simpa using hx)]

/-- The per-entry update applied by `addToGroups` when the key already
exists: append the message to the matching group, leave others alone. -/
def bumpGroup (k : String) (msg : Message) (p : String × SenderGroup) :
    String × SenderGroup :=
  if p.1 = k then (p.1, ⟨p.2.name, p.2.email, p.2.messages ++ [msg]⟩) else p

theorem addToGroups_present (gs : List (String × SenderGroup))
    (k name email : String) (msg : Message)
    (h : gs.any (fun p => p.1 = k) = true) :
    addToGroups gs k name email msg = gs.map (bumpGroup k msg) := by
  rw [addToGroups, if_pos h]
  rfl

theorem addToGroups_absent (gs : List (String × SenderGroup))
    (k name email : String) (msg : Message)
    (h : gs.any (fun p => p.1 = k) = false) :
    addToGroups gs k name email msg = gs ++ [(k, ⟨name, email, [msg]⟩)] := by
  rw [addToGroups, if_neg (by simp [h])]

theorem bumpGroup_fst (k : String) (msg : Message) (p : String × SenderGroup) :
    (bumpGroup k msg p).1 = p.1 := by
  unfold bumpGroup
  by_cases hp : p.1 = k
  · rw [if_pos hp]
  · rw [if_neg hp]

theorem bumpGroup_of_ne (k : String) (msg : Message) (p : String × SenderGroup)
    (h : ¬ p.1 = k) : bumpGroup k msg p = p := by
  unfold bumpGroup
  rw [if_neg h]

theorem map_bumpGroup_fst (k : String) (msg : Message)
    (gs : List (String × SenderGroup)) :
    (gs.map (bumpGroup k msg)).map Prod.fst = gs.map Prod.fst := by
  rw [List.map_map]
  exact List.map_congr_left (fun p _ => bumpGroup_fst k msg p)

/-- Invariant of the grouping loop: the accumulated dict has pairwise
distinct keys, every key is the canonical form of its group's email
field, every group holds (in order) exactly the processed messages whose
sender key matches, and every processed message has a group. -/
def GroupInv (done : List Message) (gs : List (String × SenderGroup)) : Prop :=
  (gs.map Prod.fst).Nodup ∧
  (∀ kg ∈ gs, senderKeyOf kg.2.email = kg.1) ∧
  (∀ kg ∈ gs, kg.2.messages = done.filter (fun m => msgKey m = kg.1)) ∧
  (∀ m ∈ done, msgKey m ∈ gs.map Prod.fst)

theorem addToGroups_inv (done : List Message)
    (gs : List (String × SenderGroup)) (name email : String) (msg : Message)
    (hkey : senderKeyOf email = msgKey msg)
    (hinv : GroupInv done gs) :
    GroupInv (done ++ [msg])
      (addToGroups gs (msgKey msg) name email msg) := by
  obtain ⟨hnd, hem, hmsg, hcov⟩ := hinv
  cases hany : gs.any (fun p => p.1 = msgKey msg) with
  | true =>
    rw [addToGroups_present gs _ name email msg hany]
    refine ⟨?_, ?_, ?_, ?_⟩
    · rw [map_bumpGroup_fst]
      exact hnd
    · intro kg hkg
      obtain ⟨p, hp, hpe⟩ := List.mem_map.mp hkg
      by_cases hpk : p.1 = msgKey msg
      · rw [← hpe]
        unfold bumpGroup
        rw [if_pos hpk]
        show senderKeyOf p.2.email = p.1
        exact hem p hp
      · rw [← hpe, bumpGroup_of_ne _ _ _ hpk]
        exact hem p hp
    · intro kg hkg
      obtain ⟨p, hp, hpe⟩ := List.mem_map.mp hkg
      have hk1 : kg.1 = p.1 := by rw [← hpe, bumpGroup_fst]
      rw [List.filter_append, hk1]
      by_cases hpk : p.1 = msgKey msg
      · have hk2 : kg.2.messages = p.2.messages ++ [msg] := by
          rw [← hpe]
          unfold bumpGroup
          rw [if_pos hpk]
        rw [hk2, hmsg p hp,
          List.filter_cons_of_pos (by simpa using hpk.symm), List.filter_nil]
      · have hk2 : kg.2.messages = p.2.messages := by
          rw [← hpe, bumpGroup_of_ne _ _ _ hpk]
        rw [hk2, hmsg p hp,
          List.filter_cons_of_neg (by simpa using fun he => hpk he.symm),
          List.filter_nil, List.append_nil]
    · intro m hm
      rw [map_bumpGroup_fst]
      rcases List.mem_append.mp hm with hml | hmr
      · exact hcov m hml
      · obtain ⟨p, hp, hpk⟩ := List.any_eq_true.mp hany
        rcases List.mem_cons.mp hmr with rfl | hfalse
        · have : p.1 = msgKey m := by simpa using hpk
          rw [← this]
          exact List.mem_map_of_mem Prod.fst hp
        · cases hfalse
  | false =>
    have hnok : ∀ p ∈ gs, ¬ p.1 = msgKey msg := by
      intro p hp hpk
      have : gs.any (fun p => p.1 = msgKey msg) = true :=
        List.any_eq_true.mpr ⟨p, hp, by simpa using hpk⟩
      rw [hany] at this
      cases this
    rw [addToGroups_absent gs _ name email msg hany]
    refine ⟨?_, ?_, ?_, ?_⟩
    · rw [List.map_append]
      rw [List.nodup_append]
      refine ⟨hnd, by simp, ?_⟩
      intro a ha hb
      have hak : a = msgKey msg := by simpa using hb
      obtain ⟨p, hp, hpf⟩ := List.mem_map.mp ha
      exact hnok p hp (by rw [hpf, hak])
    · intro kg hkg
      rcases List.mem_append.mp hkg with hl | hr
      · exact hem kg hl
      · rcases List.mem_cons.mp hr with rfl | hfalse
        · exact hkey
        · cases hfalse
    · intro kg hkg
      rw [List.filter_append]
      rcases List.mem_append.mp hkg with hl | hr
      · rw [List.filter_cons_of_neg
          (by simpa using fun he => hnok kg hl he.symm)]
        rw [List.filter_nil, List.append_nil]
        exact hmsg kg hl
      · rcases List.mem_cons.mp hr with rfl | hfalse
        · show [msg] = _ ++ List.filter _ [msg]
          rw [List.filter_cons_of_pos (by simp)]
          rw [List.filter_nil]
          have hdone : done.filter (fun m => msgKey m = msgKey msg) = [] := by
            rw [List.filter_eq_nil_iff]
            intro m hm hmk
            have hmk2 : msgKey m = msgKey msg := by simpa using hmk
            obtain ⟨p, hp, hpf⟩ := List.mem_map.mp (hcov m hm)
            exact hnok p hp (by rw [hpf, hmk2])
          rw [hdone]
          rfl
        · cases hfalse
    · intro m hm
      rw [List.map_append]
      rcases List.mem_append.mp hm with hml | hmr
      · exact List.mem_append_left _ (hcov m hml)
      · rcases List.mem_cons.mp hmr with rfl | hfalse
        · exact List.mem_append_right _ (by simp)
        · cases hfalse

theorem groupPhase_inv_aux (w : World) (stubs : List Stub) :
    ∀ gs done, GroupInv done gs →
      GroupInv (done ++ stubs.filterMap (fun s => w.fetch s.id))
        (List.foldl (groupStep w) gs stubs) := by
  induction stubs with
  | nil =>
    intro gs done h
    simpa using h
  | cons s rest ih =>
    intro gs done h
    rw [List.foldl_cons]
    cases hf : w.fetch s.id with
    | none =>
      have hstep : groupStep w gs s = gs := by
        unfold groupStep
        rw [hf]
      have hfm : List.filterMap (fun t : Stub => w.fetch t.id) (s :: rest)
          = List.filterMap (fun t : Stub => w.fetch t.id) rest := by
        simp [List.filterMap_cons, hf]
      rw [hstep, hfm]
      exact ih gs done h
    | some msg =>
      have hstep : groupStep w gs s =
          addToGroups gs (senderKeyOf (get_sender_info msg).2)
            (get_sender_info msg).1 (get_sender_info msg).2 msg := by
        unfold groupStep
        rw [hf]
      have hfm : List.filterMap (fun t : Stub => w.fetch t.id) (s :: rest)
          = msg :: List.filterMap (fun t : Stub => w.fetch t.id) rest := by
        simp [List.filterMap_cons, hf]
      rw [hstep, hfm,
        show done ++ msg :: rest.filterMap (fun s => w.fetch s.id) =
          (done ++ [msg]) ++ rest.filterMap (fun s => w.fetch s.id) by simp]
      exact ih _ (done ++ [msg])
        (addToGroups_inv done gs (get_sender_info msg).1
          (get_sender_info msg).2 msg rfl h)

theorem groupPhase_inv (w : World) (stubs : List Stub) :
    GroupInv (stubs.filterMap (fun s => w.fetch s.id))
      (groupPhase w stubs) := by
  have hbase : GroupInv [] [] :=
    ⟨by simp, fun kg hkg => absurd hkg (List.not_mem_nil kg),
     fun kg hkg => absurd hkg (List.not_mem_nil kg),
     fun m hm => absurd hm (List.not_mem_nil m)⟩
  have h := groupPhase_inv_aux w stubs [] [] hbase
  simpa [groupPhase] using h

theorem mapBump_join (k : String) (msg : Message)
    (gs : List (String × SenderGroup))
    (hnd : (gs.map Prod.fst).Nodup)
    (hany : gs.any (fun p => p.1 = k) = true) :
    ((gs.map (bumpGroup k msg)).map (fun kg => kg.2.messages)).flatten.Perm
      ((gs.map (fun kg => kg.2.messages)).flatten ++ [msg]) := by
  induction gs with
  | nil => cases hany
  | cons p rest ih =>
    have hnd2 : (rest.map Prod.fst).Nodup := by
      rw [List.map_cons] at hnd
      exact (List.nodup_cons.mp hnd).2
    by_cases hp : p.1 = k
    · have hp1 : p.1 ∉ rest.map Prod.fst := by
        rw [List.map_cons] at hnd
        exact (List.nodup_cons.mp hnd).1
      have hrest : ∀ q ∈ rest, ¬ q.1 = k := by
        intro q hq hqk
        apply hp1
        rw [hp, ← hqk]
        exact List.mem_map_of_mem Prod.fst hq
      have hmap : rest.map (bumpGroup k msg) = rest := by
        have h1 : rest.map (bumpGroup k msg) = rest.map id :=
          List.map_congr_left (fun q hq => bumpGroup_of_ne k msg q (hrest q hq))
        rw [h1, List.map_id]
      have hbp : (bumpGroup k msg p).2.messages = p.2.messages ++ [msg] := by
        unfold bumpGroup
        rw [if_pos hp]
      rw [List.map_cons, hmap, List.map_cons, List.map_cons,
        List.flatten_cons, List.flatten_cons, hbp, List.append_assoc,
        List.append_assoc]
      exact List.Perm.append_left p.2.messages List.perm_append_comm
    · have hany2 : rest.any (fun q => q.1 = k) = true := by
        rcases List.any_eq_true.mp hany with ⟨q, hq, hqk⟩
        rcases List.mem_cons.mp hq with rfl | hq2
        · exact absurd (by simpa using hqk) hp
        · exact List.any_eq_true.mpr ⟨q, hq2, hqk⟩
      rw [List.map_cons, List.map_cons, bumpGroup_of_ne k msg p hp,
        List.map_cons, List.flatten_cons, List.flatten_cons,
        List.append_assoc]
      exact List.Perm.append_left p.2.messages (ih hnd2 hany2)

theorem addToGroups_join (gs : List (String × SenderGroup))
    (k name email : String) (msg : Message)
    (hnd : (gs.map Prod.fst).Nodup) :
    ((addToGroups gs k name email msg).map
      (fun kg => kg.2.messages)).flatten.Perm
      ((gs.map (fun kg => kg.2.messages)).flatten ++ [msg]) := by
  cases hany : gs.any (fun p => p.1 = k) with
  | true =>
    rw [addToGroups_present gs k name email msg hany]
    exact mapBump_join k msg gs hnd hany
  | false =>
    rw [addToGroups_absent gs k name email msg hany]
    simp only [List.map_append, List.map_cons, List.map_nil]
    rw [List.flatten_append _ _]
    exact List.Perm.append_left _ (List.Perm.refl [msg])

/-- On an empty processed list the grouping invariant holds of the
empty dict. -/
theorem groupInv_nil : GroupInv [] [] :=
  ⟨by simp, fun kg hkg => absurd hkg (List.not_mem_nil kg),
   fun kg hkg => absurd hkg (List.not_mem_nil kg),
   fun m hm => absurd hm (List.not_mem_nil m)⟩

theorem groupPhase_join_aux (w : World) (stubs : List Stub) :
    ∀ gs done, GroupInv done gs →
      ((List.foldl (groupStep w) gs stubs).map
        (fun kg => kg.2.messages)).flatten.Perm
        ((gs.map (fun kg => kg.2.messages)).flatten ++
          stubs.filterMap (fun s => w.fetch s.id)) := by
  induction stubs with
  | nil =>
    intro gs done h
    simp
  | cons s rest ih =>
    intro gs done h
    rw [List.foldl_cons]
    cases hf : w.fetch s.id with
    | none =>
      have hstep : groupStep w gs s = gs := by
        unfold groupStep
        rw [hf]
      have hfm : List.filterMap (fun t : Stub => w.fetch t.id) (s :: rest)
          = List.filterMap (fun t : Stub => w.fetch t.id) rest := by
        simp [List.filterMap_cons, hf]
      rw [hstep, hfm]
      exact ih gs done h
    | some msg =>
      have hstep : groupStep w gs s =
          addToGroups gs (senderKeyOf (get_sender_info msg).2)
            (get_sender_info msg).1 (get_sender_info msg).2 msg := by
        unfold groupStep
        rw [hf]
      have hfm : List.filterMap (fun t : Stub => w.fetch t.id) (s :: rest)
          = msg :: List.filterMap (fun t : Stub => w.fetch t.id) rest := by
        simp [List.filterMap_cons, hf]
      rw [hstep, hfm]
      have hinv2 : GroupInv (done ++ [msg])
          (addToGroups gs (senderKeyOf (get_sender_info msg).2)
            (get_sender_info msg).1 (get_sender_info msg).2 msg) :=
        addToGroups_inv done gs (get_sender_info msg).1
          (get_sender_info msg).2 msg rfl h
      have h1 := ih _ (done ++ [msg]) hinv2
      have h2 := addToGroups_join gs (senderKeyOf (get_sender_info msg).2)
        (get_sender_info msg).1 (get_sender_info msg).2 msg h.1
      refine h1.trans ?_
      refine (List.Perm.append_right _ h2).trans ?_
      rw [List.append_assoc]
      exact List.Perm.append_left _ (List.Perm.refl _)

theorem groupPhase_join (w : World) (stubs : List Stub) :
    ((groupPhase w stubs).map (fun kg => kg.2.messages)).flatten.Perm
      (stubs.filterMap (fun s => w.fetch s.id)) := by
  have h := groupPhase_join_aux w stubs [] [] groupInv_nil
  simpa [groupPhase] using h

theorem length_filterMap_fetch (w : World) (stubs : List Stub)
    (h : ∀ s ∈ stubs, (w.fetch s.id).isSome = true) :
    (stubs.filterMap (fun s => w.fetch s.id)).length = stubs.length := by
  induction stubs with
  | nil => rfl
  | cons s rest ih =>
    cases hf : w.fetch s.id with
    | none =>
      have hs := h s (List.mem_cons_self s rest)
      rw [hf] at hs
      cases hs
    | some msg =>
      have hfm : List.filterMap (fun t : Stub => w.fetch t.id) (s :: rest)
          = msg :: List.filterMap (fun t : Stub => w.fetch t.id) rest := by
        simp [List.filterMap_cons, hf]
      rw [hfm, List.length_cons, List.length_cons,
        ih (fun t ht => h t (List.mem_cons_of_mem s ht))]

/-- C2: for every input stub sequence all of whose message fetches
succeed, group_emails_by_sender partitions the fetched messages: the
concatenation of the groups' message lists is a permutation of the
fetched message list (each message in exactly one group), and that list
has one entry per input stub; group keys are pairwise distinct; each
group's key is the lower-cased stripped form of its email and its
messages are exactly the input messages with that sender key in input
order; sender emails differing only in ASCII letter case or surrounding
whitespace get the same canonical key; and the output is ordered by
descending message count, ties keeping first-seen (dict insertion)
order, stated as stable-filter agreement with the insertion-ordered
grouping phase. -/
theorem c2_group_emails_by_sender (w : World) (stubs : List Stub)
    (hfetch : ∀ s ∈ stubs, (w.fetch s.id).isSome = true) :
    (((group_emails_by_sender w stubs).map
        (fun kg => kg.2.messages)).flatten).Perm
      (stubs.filterMap (fun s => w.fetch s.id)) ∧
    (stubs.filterMap (fun s => w.fetch s.id)).length = stubs.length ∧
    ((group_emails_by_sender w stubs).map Prod.fst).Nodup ∧
    (∀ kg ∈ group_emails_by_sender w stubs,
      senderKeyOf kg.2.email = kg.1 ∧
      kg.2.messages =
        (stubs.filterMap (fun s => w.fetch s.id)).filter
          (fun m => msgKey m = kg.1)) ∧
    (∀ w1 c1 w2 w3 c2 w4 : List Char,
      (∀ c ∈ w1, isPyWs c = true) → (∀ c ∈ w2, isPyWs c = true) →
      (∀ c ∈ w3, isPyWs c = true) → (∀ c ∈ w4, isPyWs c = true) →
      lowerL c1 = lowerL c2 →
      senderKeyOf ⟨w1 ++ c1 ++ w2⟩ = senderKeyOf ⟨w3 ++ c2 ++ w4⟩) ∧
    (group_emails_by_sender w stubs).Pairwise
      (fun a b => b.2.messages.length ≤ a.2.messages.length) ∧
    (∀ c : Nat, (group_emails_by_sender w stubs).filter
        (fun kg => kg.2.messages.length = c) =
      (groupPhase w stubs).filter (fun kg => kg.2.messages.length = c)) := by
  obtain ⟨hnd, hem, hmsg, _⟩ := groupPhase_inv w stubs
  refine ⟨?_, length_filterMap_fetch w stubs hfetch, ?_, ?_, ?_, ?_, ?_⟩
  · exact (((sortByCountDesc_perm (groupPhase w stubs)).map
      (fun kg => kg.2.messages)).flatten).trans (groupPhase_join w stubs)
  · exact ((sortByCountDesc_perm (groupPhase w stubs)).map
      Prod.fst).nodup_iff.mpr hnd
  · intro kg hkg
    have hkg2 : kg ∈ groupPhase w stubs :=
      (sortByCountDesc_perm (groupPhase w stubs)).mem_iff.mp hkg
    exact ⟨hem kg hkg2, hmsg kg hkg2⟩
  · exact senderKeyOf_case_ws
  · exact sortByCountDesc_pairwise (groupPhase w stubs)
  · intro c
    exact sortByCountDesc_filter_count (groupPhase w stubs) c

/-- Two stubs whose messages come from the same sender up to case and
whitespace in the From address. -/
def c2Stubs : List Stub := [⟨"m1"⟩, ⟨"m2"⟩]

/-- A world where both stubs fetch successfully and the two From
addresses differ only in case and surrounding whitespace. -/
def c2World : World :=
  ⟨fun _ _ => Except.ok c2Stubs,
   fun id =>
     if id = "m1" then
       some ⟨"m1", [⟨"From", "Alice <A@x.com>"⟩],
         Part.mk "text/plain" none PartList.nil⟩
     else if id = "m2" then
       some ⟨"m2", [⟨"From", "alice <a@x.com >"⟩],
         Part.mk "text/plain" none PartList.nil⟩
     else none,
   fun _ _ => AttemptOutcome.exc, fun _ => true, fun _ => true, "t"⟩

theorem c2_group_emails_by_sender_witness :
    (∀ s ∈ c2Stubs, (c2World.fetch s.id).isSome = true) ∧
    ((group_emails_by_sender c2World c2Stubs).map Prod.fst).Nodup ∧
    (group_emails_by_sender c2World c2Stubs).map Prod.fst = ["a@x.com"] := by
  refine ⟨by decide,
    (c2_group_emails_by_sender c2World c2Stubs (by decide)).2.2.1, by decide⟩

/-! ## History-map lemmas shared by the processor claims -/

theorem histMem_upsert_mono (h : History) (k k' : String) (v : HistRecord)
    (hm : histMem h k = true) : histMem (histUpsert h k' v) k = true := by
  unfold histUpsert
  by_cases hmem : histMem h k' = true
  · rw [if_pos hmem]
    rcases List.any_eq_true.mp hm with ⟨p, hp, hpk⟩
    apply List.any_eq_true.mpr
    refine ⟨_, List.mem_map_of_mem
      (fun p => if p.1 = k' then (k', v) else p) hp, ?_⟩
    by_cases hpk2 : p.1 = k'
    · rw [if_pos hpk2]
      show decide ((k', v).1 = k) = true
      rw [show (k', v).1 = k' from rfl, ← hpk2]
      exact hpk
    · rw [if_neg hpk2]
      exact hpk
  · rw [if_neg hmem]
    unfold histMem
    rw [List.any_append]
    unfold histMem at hm
    rw [hm]
    rfl

theorem any_key_map_upd (h : History) (k k' : String) (v : HistRecord)
    (hne : k ≠ k') :
    (h.map (fun p => if p.1 = k' then (k', v) else p)).any
      (fun p => p.1 = k) = h.any (fun p => p.1 = k) := by
  induction h with
  | nil => rfl
  | cons p rest ih =>
    rw [List.map_cons, List.any_cons, List.any_cons, ih]
    by_cases hpk2 : p.1 = k'
    · rw [if_pos hpk2]
      have h1 : decide (((k', v) : String × HistRecord).1 = k) = false :=
        decide_eq_false (fun he => hne he.symm)
      have h2 : decide (p.1 = k) = false :=
        decide_eq_false (fun he => hne (by rw [← he]; exact hpk2))
      rw [h1, h2]
    · rw [if_neg hpk2]

theorem find_key_cons (a : String × HistRecord)
    (l : List (String × HistRecord)) (k : String) :
    (a :: l).find? (fun p => p.1 = k) =
      if a.1 = k then some a else l.find? (fun p => p.1 = k) := by
  by_cases hd : a.1 = k
  · rw [if_pos hd]
    exact List.find?_cons_of_pos _ (by simpa using hd)
  · rw [if_neg hd]
    exact List.find?_cons_of_neg _ (by simpa using hd)

theorem find_key_map_upd (h : History) (k k' : String) (v : HistRecord)
    (hne : k ≠ k') :
    (h.map (fun p => if p.1 = k' then (k', v) else p)).find?
      (fun p => p.1 = k) = h.find? (fun p => p.1 = k) := by
  induction h with
  | nil => rfl
  | cons p rest ih =>
    rw [List.map_cons]
    by_cases hpk2 : p.1 = k'
    · have h1 : ¬ (((k', v) : String × HistRecord).1 = k) :=
        fun he => hne he.symm
      have h2 : ¬ (p.1 = k) := fun he => hne (by rw [← he]; exact hpk2)
      rw [if_pos hpk2, find_key_cons, if_neg h1, find_key_cons, if_neg h2, ih]
    · rw [if_neg hpk2, find_key_cons, find_key_cons, ih]

theorem find_key_append_single (h : History) (k k' : String) (v : HistRecord)
    (hne : k ≠ k') :
    (h ++ [(k', v)]).find? (fun p => p.1 = k) =
      h.find? (fun p => p.1 = k) := by
  induction h with
  | nil =>
    rw [List.nil_append, find_key_cons,
      if_neg (show ¬ (((k', v) : String × HistRecord).1 = k) from
        fun he => hne he.symm)]
  | cons p rest ih =>
    rw [List.cons_append, find_key_cons, find_key_cons, ih]

theorem histMem_upsert_ne (h : History) (k k' : String) (v : HistRecord)
    (hne : k ≠ k') : histMem (histUpsert h k' v) k = histMem h k := by
  unfold histUpsert
  by_cases hmem : histMem h k' = true
  · rw [if_pos hmem]
    unfold histMem
    exact any_key_map_upd h k k' v hne
  · rw [if_neg hmem]
    unfold histMem
    rw [List.any_append]
    have h2 : (([((k', v) : String × HistRecord)]).any
        fun p => p.1 = k) = false := by
      have hne2 : ¬ (k' = k) := fun he => hne he.symm
      simp [hne2]
    rw [h2, Bool.or_false]

theorem histGet_upsert_ne (h : History) (k k' : String) (v : HistRecord)
    (hne : k ≠ k') : histGet (histUpsert h k' v) k = histGet h k := by
  unfold histUpsert
  by_cases hmem : histMem h k' = true
  · rw [if_pos hmem]
    unfold histGet
    rw [find_key_map_upd h k k' v hne]
  · rw [if_neg hmem]
    unfold histGet
    rw [find_key_append_single h k k' v hne]

/-! ## Branch equations for the per-sender loop body -/

theorem stepSender_already_clean (w : World) (cfg : Config)
    (st : SenderLoopSt) (kg : String × SenderGroup)
    (hya : is_already_unsubscribed st.history kg.2.email = true)
    (hc : (cfg.delete_after_unsubscribe && !cfg.dry_run) = true) :
    stepSender w cfg st kg = (false,
      { history := st.history,
        events := st.events ++
          (cleanupCall w cfg (kg.2.messages.map Message.id)).2,
        success_count := st.success_count,
        total_deleted := st.total_deleted +
          (cleanupCall w cfg (kg.2.messages.map Message.id)).1,
        processed_count := st.processed_count + 1,
        total_affected := st.total_affected + kg.2.messages.length }) := by
  simp only [stepSender]
  rw [if_pos hya, if_pos hc]

theorem stepSender_already_noclean (w : World) (cfg : Config)
    (st : SenderLoopSt) (kg : String × SenderGroup)
    (hya : is_already_unsubscribed st.history kg.2.email = true)
    (hc : (cfg.delete_after_unsubscribe && !cfg.dry_run) = false) :
    stepSender w cfg st kg = (false,
      { history := st.history,
        events := st.events,
        success_count := st.success_count,
        total_deleted := st.total_deleted,
        processed_count := st.processed_count + 1,
        total_affected := st.total_affected + kg.2.messages.length }) := by
  simp only [stepSender]
  rw [if_pos hya, if_neg (by simp [hc])]

theorem stepSender_empty (w : World) (cfg : Config)
    (st : SenderLoopSt) (kg : String × SenderGroup)
    (hya : is_already_unsubscribed st.history kg.2.email = false)
    (hm : kg.2.messages = []) :
    stepSender w cfg st kg = (true,
      { history := st.history,
        events := st.events,
        success_count := st.success_count,
        total_deleted := st.total_deleted,
        processed_count := st.processed_count + 1,
        total_affected := st.total_affected + kg.2.messages.length }) := by
  simp only [stepSender]
  rw [if_neg (by simp [hya]), hm]

theorem stepSender_error (w : World) (cfg : Config)
    (st : SenderLoopSt) (kg : String × SenderGroup) (latest : Message)
    (mrest : List Message)
    (hya : is_already_unsubscribed st.history kg.2.email = false)
    (hm : kg.2.messages = latest :: mrest)
    (hx : extract_unsubscribe_links latest = Except.error ()) :
    stepSender w cfg st kg = (true,
      { history := st.history,
        events := st.events ++ [Event.extractEv latest.id],
        success_count := st.success_count,
        total_deleted := st.total_deleted,
        processed_count := st.processed_count + 1,
        total_affected := st.total_affected + kg.2.messages.length }) := by
  simp only [stepSender]
  rw [if_neg (by simp [hya]), hm]
  simp only [hx]

theorem stepSender_nolinks_clean (w : World) (cfg : Config)
    (st : SenderLoopSt) (kg : String × SenderGroup) (latest : Message)
    (mrest : List Message)
    (hya : is_already_unsubscribed st.history kg.2.email = false)
    (hm : kg.2.messages = latest :: mrest)
    (hx : extract_unsubscribe_links latest = Except.ok [])
    (hc : (cfg.delete_without_unsubscribe && cfg.delete_after_unsubscribe
      && !cfg.dry_run) = true) :
    stepSender w cfg st kg = (false,
      { history := st.history,
        events := (st.events ++ [Event.extractEv latest.id]) ++
          (cleanupCall w cfg (kg.2.messages.map Message.id)).2,
        success_count := st.success_count,
        total_deleted := st.total_deleted +
          (cleanupCall w cfg (kg.2.messages.map Message.id)).1,
        processed_count := st.processed_count + 1,
        total_affected := st.total_affected + kg.2.messages.length }) := by
  simp only [stepSender]
  rw [if_neg (by simp [hya]), hm]
  simp only [hx]
  rw [if_pos hc]

theorem stepSender_nolinks_noclean (w : World) (cfg : Config)
    (st : SenderLoopSt) (kg : String × SenderGroup) (latest : Message)
    (mrest : List Message)
    (hya : is_already_unsubscribed st.history kg.2.email = false)
    (hm : kg.2.messages = latest :: mrest)
    (hx : extract_unsubscribe_links latest = Except.ok [])
    (hc : (cfg.delete_without_unsubscribe && cfg.delete_after_unsubscribe
      && !cfg.dry_run) = false) :
    stepSender w cfg st kg = (false,
      { history := st.history,
        events := st.events ++ [Event.extractEv latest.id],
        success_count := st.success_count,
        total_deleted := st.total_deleted,
        processed_count := st.processed_count + 1,
        total_affected := st.total_affected + kg.2.messages.length }) := by
  simp only [stepSender]
  rw [if_neg (by simp [hya]), hm]
  simp only [hx]
  rw [if_neg (by simp [hc])]

theorem stepSender_url_dry (w : World) (cfg : Config)
    (st : SenderLoopSt) (kg : String × SenderGroup) (latest : Message)
    (mrest : List Message) (url : String) (urest : List String)
    (hya : is_already_unsubscribed st.history kg.2.email = false)
    (hm : kg.2.messages = latest :: mrest)
    (hx : extract_unsubscribe_links latest = Except.ok (url :: urest))
    (hdry : cfg.dry_run = true) :
    stepSender w cfg st kg = (false,
      { history := st.history,
        events := st.events ++ [Event.extractEv latest.id],
        success_count := st.success_count,
        total_deleted := st.total_deleted,
        processed_count := st.processed_count + 1,
        total_affected := st.total_affected + kg.2.messages.length }) := by
  simp only [stepSender]
  rw [if_neg (by simp [hya]), hm]
  simp only [hx]
  rw [if_pos hdry]

theorem stepSender_url_live_clean (w : World) (cfg : Config)
    (st : SenderLoopSt) (kg : String × SenderGroup) (latest : Message)
    (mrest : List Message) (url : String) (urest : List String)
    (hya : is_already_unsubscribed st.history kg.2.email = false)
    (hm : kg.2.messages = latest :: mrest)
    (hx : extract_unsubscribe_links latest = Except.ok (url :: urest))
    (hdry : cfg.dry_run = false)
    (hdel : cfg.delete_after_unsubscribe = true) :
    stepSender w cfg st kg = (false,
      { history := add_to_unsubscribe_history st.history kg.2.email
          kg.2.name (attempt_unsubscribe (w.http url) 2).1 (some url) w.now,
        events := ((st.events ++ [Event.extractEv latest.id]) ++
          [Event.invoke kg.2.email url,
           Event.histWrite (senderKeyOf kg.2.email)]) ++
          (cleanupCall w cfg (kg.2.messages.map Message.id)).2,
        success_count := st.success_count +
          (if (attempt_unsubscribe (w.http url) 2).1 then 1 else 0),
        total_deleted := st.total_deleted +
          (cleanupCall w cfg (kg.2.messages.map Message.id)).1,
        processed_count := st.processed_count + 1,
        total_affected := st.total_affected + kg.2.messages.length }) := by
  simp only [stepSender]
  rw [if_neg (by simp [hya]), hm]
  simp only [hx]
  rw [if_neg (by simp [hdry]), if_pos hdel]
  cases hs : (attempt_unsubscribe (w.http url) 2).1 <;> simp [hs]

theorem stepSender_url_live_noclean (w : World) (cfg : Config)
    (st : SenderLoopSt) (kg : String × SenderGroup) (latest : Message)
    (mrest : List Message) (url : String) (urest : List String)
    (hya : is_already_unsubscribed st.history kg.2.email = false)
    (hm : kg.2.messages = latest :: mrest)
    (hx : extract_unsubscribe_links latest = Except.ok (url :: urest))
    (hdry : cfg.dry_run = false)
    (hdel : cfg.delete_after_unsubscribe = false) :
    stepSender w cfg st kg = (false,
      { history := add_to_unsubscribe_history st.history kg.2.email
          kg.2.name (attempt_unsubscribe (w.http url) 2).1 (some url) w.now,
        events := ((st.events ++ [Event.extractEv latest.id]) ++
          [Event.invoke kg.2.email url,
           Event.histWrite (senderKeyOf kg.2.email)]) ++
          (if (attempt_unsubscribe (w.http url) 2).1 then
            kg.2.messages.flatMap (fun mm => label_message mm.id) else []),
        success_count := st.success_count +
          (if (attempt_unsubscribe (w.http url) 2).1 then 1 else 0),
        total_deleted := st.total_deleted,
        processed_count := st.processed_count + 1,
        total_affected := st.total_affected + kg.2.messages.length }) := by
  simp only [stepSender]
  rw [if_neg (by simp [hya]), hm]
  simp only [hx]
  rw [if_neg (by simp [hdry]), if_neg (by simp [hdel])]
  cases hs : (attempt_unsubscribe (w.http url) 2).1 <;> simp [hs]

/-- Event classifier: is this an invocation of the unsubscribe
endpoint? -/
def isInvokeEv : Event → Bool
  | .invoke _ _ => true
  | _ => false

/-- Event classifier: is this a history-file write? -/
def isHistWriteEv : Event → Bool
  | .histWrite _ => true
  | _ => false

/-- Event classifier: is this an invocation for the sender whose
canonical key is `k`? -/
def invokeKeyIs (k : String) : Event → Bool
  | .invoke e _ => senderKeyOf e = k
  | _ => false

theorem invokeKeyIs_false_of_not_invoke (k : String) (ev : Event)
    (h : isInvokeEv ev = false) : invokeKeyIs k ev = false := by
  cases ev with
  | invoke e u => cases h
  | histWrite kk => rfl
  | labelMsg i => rfl
  | trash i => rfl
  | delete i => rfl
  | extractEv i => rfl

theorem ne_histWrite_of_not_histEv (k : String) (ev : Event)
    (h : isHistWriteEv ev = false) : ev ≠ Event.histWrite k := by
  cases ev with
  | invoke e u => exact fun he => Event.noConfusion he
  | histWrite kk => cases h
  | labelMsg i => exact fun he => Event.noConfusion he
  | trash i => exact fun he => Event.noConfusion he
  | delete i => exact fun he => Event.noConfusion he
  | extractEv i => exact fun he => Event.noConfusion he

theorem foldSenders_nil (w : World) (cfg : Config) (st : SenderLoopSt) :
    foldSenders w cfg [] st = (false, st) := rfl

theorem foldSenders_cons (w : World) (cfg : Config) (st : SenderLoopSt)
    (kg : String × SenderGroup) (rest : List (String × SenderGroup)) :
    foldSenders w cfg (kg :: rest) st =
      (if (stepSender w cfg st kg).1 then (true, (stepSender w cfg st kg).2)
       else foldSenders w cfg rest (stepSender w cfg st kg).2) := by
  simp only [foldSenders]

/-- Cleanup calls issue only trash/delete events. -/
theorem cleanupCall_events (w : World) (cfg : Config) (ids : List String) :
    ∀ ev ∈ (cleanupCall w cfg ids).2,
      isInvokeEv ev = false ∧ isHistWriteEv ev = false := by
  intro ev hev
  by_cases hp : cfg.permanent_delete = true
  · rw [show cleanupCall w cfg ids = delete_messages w ids from by
      unfold cleanupCall; rw [if_pos hp]] at hev
    obtain ⟨i, _, hi⟩ := List.mem_map.mp hev
    rw [← hi]
    exact ⟨rfl, rfl⟩
  · rw [show cleanupCall w cfg ids = move_to_trash w ids from by
      unfold cleanupCall; rw [if_neg hp]] at hev
    obtain ⟨i, _, hi⟩ := List.mem_map.mp hev
    rw [← hi]
    exact ⟨rfl, rfl⟩

/-- Case analysis on one per-sender iteration: either the step leaves
the history unchanged and emits no invocation and no history write
(already-known sender, empty group, extraction error, zero links, or
dry run), or the sender was not in the history, the run is live, and
the step invokes one URL, upserts the history at the sender's canonical
key, and emits exactly that invoke and that history write besides
passive events. -/
theorem stepSender_main_cases (w : World) (cfg : Config) (st : SenderLoopSt)
    (kg : String × SenderGroup) :
    ((stepSender w cfg st kg).2.history = st.history ∧
     ∃ tail, (stepSender w cfg st kg).2.events = st.events ++ tail ∧
       ∀ ev ∈ tail, isInvokeEv ev = false ∧ isHistWriteEv ev = false) ∨
    (is_already_unsubscribed st.history kg.2.email = false ∧
     cfg.dry_run = false ∧
     ∃ url tail,
       (stepSender w cfg st kg).2.history =
         add_to_unsubscribe_history st.history kg.2.email kg.2.name
           (attempt_unsubscribe (w.http url) 2).1 (some url) w.now ∧
       (stepSender w cfg st kg).2.events = st.events ++ tail ∧
       ∀ ev ∈ tail, ev = Event.invoke kg.2.email url ∨
         ev = Event.histWrite (senderKeyOf kg.2.email) ∨
         (isInvokeEv ev = false ∧ isHistWriteEv ev = false)) := by
  cases hya : is_already_unsubscribed st.history kg.2.email with
  | true =>
    left
    cases hc : (cfg.delete_after_unsubscribe && !cfg.dry_run) with
    | true =>
      rw [stepSender_already_clean w cfg st kg hya hc]
      exact ⟨rfl, _, rfl, fun ev hev => cleanupCall_events w cfg _ ev hev⟩
    | false =>
      rw [stepSender_already_noclean w cfg st kg hya hc]
      exact ⟨rfl, [], by simp, fun ev hev => absurd hev (List.not_mem_nil ev)⟩
  | false =>
    cases hm : kg.2.messages with
    | nil =>
      left
      rw [stepSender_empty w cfg st kg hya hm]
      exact ⟨rfl, [], by simp, fun ev hev => absurd hev (List.not_mem_nil ev)⟩
    | cons latest mrest =>
      cases hx : extract_unsubscribe_links latest with
      | error e =>
        cases e
        left
        rw [stepSender_error w cfg st kg latest mrest hya hm hx]
        refine ⟨rfl, [Event.extractEv latest.id], rfl, ?_⟩
        intro ev hev
        rcases List.mem_cons.mp hev with rfl | hfalse
        · exact ⟨rfl, rfl⟩
        · cases hfalse
      | ok links =>
        cases links with
        | nil =>
          left
          cases hc : (cfg.delete_without_unsubscribe &&
              cfg.delete_after_unsubscribe && !cfg.dry_run) with
          | true =>
            rw [stepSender_nolinks_clean w cfg st kg latest mrest hya hm hx hc]
            refine ⟨rfl, [Event.extractEv latest.id] ++
              (cleanupCall w cfg (kg.2.messages.map Message.id)).2,
              by rw [List.append_assoc], ?_⟩
            intro ev hev
            rcases List.mem_append.mp hev with h1 | h2
            · rcases List.mem_cons.mp h1 with rfl | hfalse
              · exact ⟨rfl, rfl⟩
              · cases hfalse
            · exact cleanupCall_events w cfg _ ev h2
          | false =>
            rw [stepSender_nolinks_noclean w cfg st kg latest mrest hya hm
              hx hc]
            refine ⟨rfl, [Event.extractEv latest.id], rfl, ?_⟩
            intro ev hev
            rcases List.mem_cons.mp hev with rfl | hfalse
            · exact ⟨rfl, rfl⟩
            · cases hfalse
        | cons url urest =>
          cases hdry : cfg.dry_run with
          | true =>
            left
            rw [stepSender_url_dry w cfg st kg latest mrest url urest hya hm
              hx hdry]
            refine ⟨rfl, [Event.extractEv latest.id], rfl, ?_⟩
            intro ev hev
            rcases List.mem_cons.mp hev with rfl | hfalse
            · exact ⟨rfl, rfl⟩
            · cases hfalse
          | false =>
            right
            refine ⟨rfl, rfl, url, ?_⟩
            cases hdel : cfg.delete_after_unsubscribe with
            | true =>
              rw [stepSender_url_live_clean w cfg st kg latest mrest url
                urest hya hm hx hdry hdel]
              refine ⟨[Event.extractEv latest.id] ++
                ([Event.invoke kg.2.email url,
                  Event.histWrite (senderKeyOf kg.2.email)] ++
                 (cleanupCall w cfg (kg.2.messages.map Message.id)).2),
                rfl, by rw [List.append_assoc, List.append_assoc], ?_⟩
              intro ev hev
              rcases List.mem_append.mp hev with h1 | h2
              · rcases List.mem_cons.mp h1 with rfl | hfalse
                · exact Or.inr (Or.inr ⟨rfl, rfl⟩)
                · cases hfalse
              rcases List.mem_append.mp h2 with h3 | h4
              · rcases List.mem_cons.mp h3 with rfl | h5
                · exact Or.inl rfl
                rcases List.mem_cons.mp h5 with rfl | hfalse
                · exact Or.inr (Or.inl rfl)
                · cases hfalse
              · exact Or.inr (Or.inr (cleanupCall_events w cfg _ ev h4))
            | false =>
              rw [stepSender_url_live_noclean w cfg st kg latest mrest url
                urest hya hm hx hdry hdel]
              refine ⟨[Event.extractEv latest.id] ++
                ([Event.invoke kg.2.email url,
                  Event.histWrite (senderKeyOf kg.2.email)] ++
                 (if (attempt_unsubscribe (w.http url) 2).1 then
                   kg.2.messages.flatMap (fun mm => label_message mm.id)
                  else [])),
                rfl, by rw [List.append_assoc, List.append_assoc], ?_⟩
              intro ev hev
              rcases List.mem_append.mp hev with h1 | h2
              · rcases List.mem_cons.mp h1 with rfl | hfalse
                · exact Or.inr (Or.inr ⟨rfl, rfl⟩)
                · cases hfalse
              rcases List.mem_append.mp h2 with h3 | h4
              · rcases List.mem_cons.mp h3 with rfl | h5
                · exact Or.inl rfl
                rcases List.mem_cons.mp h5 with rfl | hfalse
                · exact Or.inr (Or.inl rfl)
                · cases hfalse
              · by_cases hs : (attempt_unsubscribe (w.http url) 2).1 = true
                · rw [if_pos hs] at h4
                  obtain ⟨m, _, hm2⟩ := List.mem_flatMap.mp h4
                  rcases List.mem_cons.mp hm2 with rfl | hfalse
                  · exact Or.inr (Or.inr ⟨rfl, rfl⟩)
                  · cases hfalse
                · rw [if_neg hs] at h4
                  cases h4

theorem stepSender_key_inv (w : World) (cfg : Config) (st : SenderLoopSt)
    (kg : String × SenderGroup) (k : String)
    (hk : histMem st.history k = true) :
    histMem (stepSender w cfg st kg).2.history k = true ∧
    (∀ ev ∈ (stepSender w cfg st kg).2.events,
      ev ∈ st.events ∨
        (invokeKeyIs k ev = false ∧ ev ≠ Event.histWrite k)) := by
  rcases stepSender_main_cases w cfg st kg with
    ⟨hh, tail, hev, hsafe⟩ | ⟨hya, _, url, tail, hh, hev, hsafe⟩
  · refine ⟨by rw [hh]; exact hk, ?_⟩
    intro ev hev2
    rw [hev] at hev2
    rcases List.mem_append.mp hev2 with h1 | h2
    · exact Or.inl h1
    · obtain ⟨hi, hw⟩ := hsafe ev h2
      exact Or.inr ⟨invokeKeyIs_false_of_not_invoke k ev hi,
        ne_histWrite_of_not_histEv k ev hw⟩
  · have hne : senderKeyOf kg.2.email ≠ k := by
      intro he
      unfold is_already_unsubscribed at hya
      rw [he, hk] at hya
      cases hya
    refine ⟨?_, ?_⟩
    · rw [hh]
      exact histMem_upsert_mono st.history k (senderKeyOf kg.2.email) _ hk
    · intro ev hev2
      rw [hev] at hev2
      rcases List.mem_append.mp hev2 with h1 | h2
      · exact Or.inl h1
      · rcases hsafe ev h2 with rfl | rfl | ⟨hi, hw⟩
        · refine Or.inr ⟨?_, fun he => Event.noConfusion he⟩
          show decide (senderKeyOf kg.2.email = k) = false
          exact decide_eq_false hne
        · refine Or.inr ⟨rfl, ?_⟩
          intro he
          injection he with h3
          exact hne h3
        · exact Or.inr ⟨invokeKeyIs_false_of_not_invoke k ev hi,
            ne_histWrite_of_not_histEv k ev hw⟩

theorem foldSenders_key_inv (w : World) (cfg : Config) (k : String) :
    ∀ gs st, histMem st.history k = true →
      histMem (foldSenders w cfg gs st).2.history k = true ∧
      (∀ ev ∈ (foldSenders w cfg gs st).2.events,
        ev ∈ st.events ∨
          (invokeKeyIs k ev = false ∧ ev ≠ Event.histWrite k)) := by
  intro gs
  induction gs with
  | nil =>
    intro st hk
    rw [foldSenders_nil]
    exact ⟨hk, fun ev hev => Or.inl hev⟩
  | cons kg rest ih =>
    intro st hk
    rw [foldSenders_cons]
    obtain ⟨h1, h2⟩ := stepSender_key_inv w cfg st kg k hk
    by_cases hr : (stepSender w cfg st kg).1 = true
    · rw [if_pos hr]
      exact ⟨h1, h2⟩
    · rw [if_neg hr]
      obtain ⟨h3, h4⟩ := ih (stepSender w cfg st kg).2 h1
      refine ⟨h3, ?_⟩
      intro ev hev
      rcases h4 ev hev with h5 | h5
      · exact h2 ev h5
      · exact Or.inr h5

/-- C3: in a live per-sender run, a sender whose canonical key already
has any record in the loaded history (success or failure) is never
invoked again: the run emits no invoke event for that key and no
history write for that key, the key stays present in the final history,
and the iteration that meets such a sender only performs the optional
cleanup (trash/delete of that sender's messages when
delete_after_unsubscribe is set), leaving the history untouched and
raising nothing. -/
theorem c3_history_skip (w : World) (q : String) (max_emails : Nat)
    (cfg : Config) (inbox_only : Bool) (history0 : History) (k : String)
    (hlive : cfg.dry_run = false)
    (hk : histMem history0 k = true) :
    (∀ ev ∈ (process_unsubscribes_by_sender w q max_emails cfg inbox_only
        history0).events,
      invokeKeyIs k ev = false ∧ ev ≠ Event.histWrite k) ∧
    histMem (process_unsubscribes_by_sender w q max_emails cfg inbox_only
      history0).history k = true ∧
    (∀ st kg, is_already_unsubscribed st.history kg.2.email = true →
      (stepSender w cfg st kg).1 = false ∧
      (stepSender w cfg st kg).2.history = st.history ∧
      (stepSender w cfg st kg).2.events = st.events ++
        (if cfg.delete_after_unsubscribe then
          (cleanupCall w cfg (kg.2.messages.map Message.id)).2 else [])) := by
  have hmain : (∀ ev ∈ (process_unsubscribes_by_sender w q max_emails cfg
      inbox_only history0).events,
      invokeKeyIs k ev = false ∧ ev ≠ Event.histWrite k) ∧
      histMem (process_unsubscribes_by_sender w q max_emails cfg inbox_only
        history0).history k = true := by
    simp only [process_unsubscribes_by_sender]
    by_cases hempty : (search_emails w q max_emails inbox_only).isEmpty = true
    · rw [if_pos hempty]
      exact ⟨fun ev hev => absurd hev (List.not_mem_nil ev), hk⟩
    · rw [if_neg hempty]
      obtain ⟨h1, h2⟩ := foldSenders_key_inv w cfg k
        (group_emails_by_sender w (search_emails w q max_emails inbox_only))
        ⟨history0, [], 0, 0, 0, 0⟩ hk
      refine ⟨?_, h1⟩
      intro ev hev
      rcases h2 ev hev with h3 | h3
      · exact absurd h3 (List.not_mem_nil ev)
      · exact h3
  refine ⟨hmain.1, hmain.2, ?_⟩
  intro st kg hya
  cases hdel : cfg.delete_after_unsubscribe with
  | true =>
    have hc : (cfg.delete_after_unsubscribe && !cfg.dry_run) = true := by
      rw [hdel, hlive]
      rfl
    rw [stepSender_already_clean w cfg st kg hya hc]
    exact ⟨rfl, rfl, rfl⟩
  | false =>
    have hc : (cfg.delete_after_unsubscribe && !cfg.dry_run) = false := by
      rw [hdel]
      rfl
    rw [stepSender_already_noclean w cfg st kg hya hc]
    exact ⟨rfl, rfl, (List.append_nil st.events).symm⟩

/-- A one-record history marking sender key `x@y.com` as already
attempted (with `success = false`, i.e. a failed previous attempt). -/
def c3History : History :=
  [("x@y.com", ⟨"X", "x@y.com", true, false, "t0", none⟩)]

/-- Live config with cleanup enabled (trash rather than delete). -/
def c3Cfg : Config := ⟨false, true, false, false⟩

/-- A world with one message from the already-attempted sender. -/
def c3World : World :=
  ⟨fun _ _ => Except.ok [⟨"m1"⟩],
   fun id =>
     if id = "m1" then
       some ⟨"m1", [⟨"From", "X <x@y.com>"⟩,
         ⟨"List-Unsubscribe", "<https://u.example/x>"⟩],
         Part.mk "text/plain" none PartList.nil⟩
     else none,
   fun _ _ => AttemptOutcome.status 200, fun _ => true, fun _ => true, "t"⟩

theorem c3_history_skip_witness :
    histMem c3History "x@y.com" = true ∧
    (∀ ev ∈ (process_unsubscribes_by_sender c3World "q" 10 c3Cfg true
        c3History).events,
      invokeKeyIs "x@y.com" ev = false ∧ ev ≠ Event.histWrite "x@y.com") ∧
    (process_unsubscribes_by_sender c3World "q" 10 c3Cfg true
      c3History).events = [Event.trash "m1"] := by
  refine ⟨by decide,
    (c3_history_skip c3World "q" 10 c3Cfg true c3History "x@y.com" rfl
      (by decide)).1, by decide⟩

/-- Every id passed to a cleanup call gets a trash or a delete event. -/
theorem cleanupCall_covers (w : World) (cfg : Config) (ids : List String) :
    ∀ i ∈ ids, Event.trash i ∈ (cleanupCall w cfg ids).2 ∨
      Event.delete i ∈ (cleanupCall w cfg ids).2 := by
  intro i hi
  by_cases hp : cfg.permanent_delete = true
  · rw [show cleanupCall w cfg ids = delete_messages w ids from by
      unfold cleanupCall; rw [if_pos hp]]
    exact Or.inr (List.mem_map_of_mem Event.delete hi)
  · rw [show cleanupCall w cfg ids = move_to_trash w ids from by
      unfold cleanupCall; rw [if_neg hp]]
    exact Or.inl (List.mem_map_of_mem Event.trash hi)

/-- Fold invariant for C5: with cleanup and delete-without-link enabled
in a live run, every group whose key is `k0` being link-free implies the
run never invokes nor writes history for `k0`, leaves the `k0` record
untouched, and (when the loop completes) trashes or deletes every
message of every such group. -/
theorem foldSenders_c5 (w : World) (cfg : Config) (k0 : String)
    (hdry : cfg.dry_run = false)
    (hdel : cfg.delete_after_unsubscribe = true)
    (hdw : cfg.delete_without_unsubscribe = true) :
    ∀ gs st,
      (∀ kg ∈ gs, senderKeyOf kg.2.email = kg.1) →
      (∀ kg ∈ gs, kg.1 = k0 →
        ∃ latest mrest, kg.2.messages = latest :: mrest ∧
          extract_unsubscribe_links latest = Except.ok []) →
      (∃ tail, (foldSenders w cfg gs st).2.events = st.events ++ tail ∧
        (∀ ev ∈ tail,
          invokeKeyIs k0 ev = false ∧ ev ≠ Event.histWrite k0)) ∧
      histGet (foldSenders w cfg gs st).2.history k0 =
        histGet st.history k0 ∧
      (∀ kg ∈ gs, kg.1 = k0 → (foldSenders w cfg gs st).1 = false →
        ∀ m ∈ kg.2.messages,
          Event.trash m.id ∈ (foldSenders w cfg gs st).2.events ∨
          Event.delete m.id ∈ (foldSenders w cfg gs st).2.events) := by
  intro gs
  induction gs with
  | nil =>
    intro st _ _
    rw [foldSenders_nil]
    exact ⟨⟨[], by simp, fun ev hev => absurd hev (List.not_mem_nil ev)⟩,
      rfl, fun kg hkg => absurd hkg (List.not_mem_nil kg)⟩
  | cons kg rest ih =>
    intro st hkeyinv hzero
    have hkeyrest : ∀ p ∈ rest, senderKeyOf p.2.email = p.1 :=
      fun p hp => hkeyinv p (List.mem_cons_of_mem kg hp)
    have hzerorest : ∀ p ∈ rest, p.1 = k0 →
        ∃ latest mrest, p.2.messages = latest :: mrest ∧
          extract_unsubscribe_links latest = Except.ok [] :=
      fun p hp => hzero p (List.mem_cons_of_mem kg hp)
    rw [foldSenders_cons]
    by_cases hk0 : kg.1 = k0
    · obtain ⟨latest, mrest, hm, hx⟩ :=
        hzero kg (List.mem_cons_self kg rest) hk0
      have hstep : (stepSender w cfg st kg).1 = false ∧
          (stepSender w cfg st kg).2.history = st.history ∧
          ∃ stail, (stepSender w cfg st kg).2.events = st.events ++ stail ∧
            (∀ ev ∈ stail,
              invokeKeyIs k0 ev = false ∧ ev ≠ Event.histWrite k0) ∧
            (∀ m ∈ kg.2.messages,
              Event.trash m.id ∈ stail ∨ Event.delete m.id ∈ stail) := by
        cases hya : is_already_unsubscribed st.history kg.2.email with
        | true =>
          have hc : (cfg.delete_after_unsubscribe && !cfg.dry_run) = true := by
            rw [hdel, hdry]
            rfl
          rw [stepSender_already_clean w cfg st kg hya hc]
          refine ⟨rfl, rfl,
            (cleanupCall w cfg (kg.2.messages.map Message.id)).2, rfl,
            fun ev hev => ?_, fun m hmm => ?_⟩
          · obtain ⟨hi, hw⟩ := cleanupCall_events w cfg _ ev hev
            exact ⟨invokeKeyIs_false_of_not_invoke k0 ev hi,
              ne_histWrite_of_not_histEv k0 ev hw⟩
          · exact cleanupCall_covers w cfg _ m.id
              (List.mem_map_of_mem Message.id hmm)
        | false =>
          have hc : (cfg.delete_without_unsubscribe &&
              cfg.delete_after_unsubscribe && !cfg.dry_run) = true := by
            rw [hdw, hdel, hdry]
            rfl
          rw [stepSender_nolinks_clean w cfg st kg latest mrest hya hm hx hc]
          refine ⟨rfl, rfl,
            [Event.extractEv latest.id] ++
              (cleanupCall w cfg (kg.2.messages.map Message.id)).2,
            by rw [List.append_assoc], fun ev hev => ?_, fun m hmm => ?_⟩
          · rcases List.mem_append.mp hev with h1 | h2
            · rcases List.mem_cons.mp h1 with rfl | hfalse
              · exact ⟨rfl, fun he => Event.noConfusion he⟩
              · cases hfalse
            · obtain ⟨hi, hw⟩ := cleanupCall_events w cfg _ ev h2
              exact ⟨invokeKeyIs_false_of_not_invoke k0 ev hi,
                ne_histWrite_of_not_histEv k0 ev hw⟩
          · refine Or.imp ?_ ?_ (cleanupCall_covers w cfg _ m.id
              (List.mem_map_of_mem Message.id hmm)) <;>
              exact fun h => List.mem_append_right _ h
      obtain ⟨hr, hh, stail, hev, hsafe, hcover⟩ := hstep
      rw [if_neg (by rw [hr]; exact fun h => Bool.noConfusion h)]
      obtain ⟨⟨tail2, hev2, hsafe2⟩, hget2, htr2⟩ :=
        ih (stepSender w cfg st kg).2 hkeyrest hzerorest
      refine ⟨⟨stail ++ tail2, ?_, ?_⟩, ?_, ?_⟩
      · rw [hev2, hev, List.append_assoc]
      · intro ev hev3
        rcases List.mem_append.mp hev3 with h1 | h2
        · exact hsafe ev h1
        · exact hsafe2 ev h2
      · rw [hget2, hh]
      · intro kg2 hkg2 hkg2k hraised
        rcases List.mem_cons.mp hkg2 with rfl | hkg2r
        · intro m hmm
          have hin : Event.trash m.id ∈ (stepSender w cfg st kg2).2.events ∨
              Event.delete m.id ∈ (stepSender w cfg st kg2).2.events := by
            refine Or.imp ?_ ?_ (hcover m hmm) <;>
              exact fun h => by rw [hev]; exact List.mem_append_right _ h
          refine Or.imp ?_ ?_ hin <;>
            exact fun h => by rw [hev2]; exact List.mem_append_left _ h
        · intro m hmm
          exact htr2 kg2 hkg2r hkg2k hraised m hmm
    · have hkey : senderKeyOf kg.2.email = kg.1 :=
        hkeyinv kg (List.mem_cons_self kg rest)
      have hne0 : k0 ≠ senderKeyOf kg.2.email := by
        rw [hkey]
        exact fun he => hk0 he.symm
      have hstep : (stepSender w cfg st kg).2.history = st.history ∨
          ∃ v, (stepSender w cfg st kg).2.history =
            histUpsert st.history (senderKeyOf kg.2.email) v := by
        rcases stepSender_main_cases w cfg st kg with
          ⟨hh, _⟩ | ⟨_, _, url, tail, hh, _⟩
        · exact Or.inl hh
        · exact Or.inr ⟨_, hh⟩
      have hsafeev : ∃ stail,
          (stepSender w cfg st kg).2.events = st.events ++ stail ∧
          ∀ ev ∈ stail,
            invokeKeyIs k0 ev = false ∧ ev ≠ Event.histWrite k0 := by
        rcases stepSender_main_cases w cfg st kg with
          ⟨_, tail, hev, hsafe⟩ | ⟨_, _, url, tail, hh, hev, hsafe⟩
        · refine ⟨tail, hev, fun ev hev2 => ?_⟩
          obtain ⟨hi, hw⟩ := hsafe ev hev2
          exact ⟨invokeKeyIs_false_of_not_invoke k0 ev hi,
            ne_histWrite_of_not_histEv k0 ev hw⟩
        · refine ⟨tail, hev, fun ev hev2 => ?_⟩
          rcases hsafe ev hev2 with rfl | rfl | ⟨hi, hw⟩
          · refine ⟨?_, fun he => Event.noConfusion he⟩
            show decide (senderKeyOf kg.2.email = k0) = false
            exact decide_eq_false (fun he => hne0 he.symm)
          · refine ⟨rfl, ?_⟩
            intro he
            injection he with h3
            exact hne0 h3.symm
          · exact ⟨invokeKeyIs_false_of_not_invoke k0 ev hi,
              ne_histWrite_of_not_histEv k0 ev hw⟩
      have hget : histGet (stepSender w cfg st kg).2.history k0 =
          histGet st.history k0 := by
        rcases hstep with hh | ⟨v, hh⟩
        · rw [hh]
        · rw [hh]
          exact histGet_upsert_ne st.history k0 (senderKeyOf kg.2.email)
            v hne0
      obtain ⟨stail, hev, hsafe⟩ := hsafeev
      by_cases hr : (stepSender w cfg st kg).1 = true
      · rw [if_pos hr]
        refine ⟨⟨stail, hev, hsafe⟩, hget, ?_⟩
        intro kg2 hkg2 hkg2k hraised
        exact absurd hraised (by simp)
      · rw [if_neg hr]
        obtain ⟨⟨tail2, hev2, hsafe2⟩, hget2, htr2⟩ :=
          ih (stepSender w cfg st kg).2 hkeyrest hzerorest
        refine ⟨⟨stail ++ tail2, ?_, ?_⟩, ?_, ?_⟩
        · rw [hev2, hev, List.append_assoc]
        · intro ev hev3
          rcases List.mem_append.mp hev3 with h1 | h2
          · exact hsafe ev h1
          · exact hsafe2 ev h2
        · rw [hget2, hget]
        · intro kg2 hkg2 hkg2k hraised
          rcases List.mem_cons.mp hkg2 with rfl | hkg2r
          · exact absurd hkg2k hk0
          · exact htr2 kg2 hkg2r hkg2k hraised

/-- C5: in a live per-sender run with cleanup
(delete_after_unsubscribe) and delete_without_unsubscribe enabled, a
sender group whose representative message yields zero unsubscribe links
is never invoked (no invoke event for its canonical key), gets no
history record written (no history write event for its key, and its
history entry is exactly the loaded one), and — when the loop completes
without an uncaught exception — every message of that group receives a
trash or a delete call. -/
theorem c5_zero_links_cleanup (w : World) (q : String) (max_emails : Nat)
    (cfg : Config) (inbox_only : Bool) (history0 : History)
    (kg0 : String × SenderGroup) (latest : Message) (mrest : List Message)
    (hdry : cfg.dry_run = false)
    (hdel : cfg.delete_after_unsubscribe = true)
    (hdw : cfg.delete_without_unsubscribe = true)
    (hkg0 : kg0 ∈ group_emails_by_sender w
      (search_emails w q max_emails inbox_only))
    (hm : kg0.2.messages = latest :: mrest)
    (hx : extract_unsubscribe_links latest = Except.ok []) :
    (∀ ev ∈ (process_unsubscribes_by_sender w q max_emails cfg inbox_only
        history0).events,
      invokeKeyIs kg0.1 ev = false ∧ ev ≠ Event.histWrite kg0.1) ∧
    histGet (process_unsubscribes_by_sender w q max_emails cfg inbox_only
      history0).history kg0.1 = histGet history0 kg0.1 ∧
    ((process_unsubscribes_by_sender w q max_emails cfg inbox_only
        history0).raised = false →
      ∀ m ∈ kg0.2.messages,
        Event.trash m.id ∈ (process_unsubscribes_by_sender w q max_emails
          cfg inbox_only history0).events ∨
        Event.delete m.id ∈ (process_unsubscribes_by_sender w q max_emails
          cfg inbox_only history0).events) := by
  simp only [process_unsubscribes_by_sender]
  by_cases hempty : (search_emails w q max_emails inbox_only).isEmpty = true
  · exfalso
    have hnil : search_emails w q max_emails inbox_only = [] := by
      cases hs : search_emails w q max_emails inbox_only with
      | nil => rfl
      | cons a l =>
        rw [hs] at hempty
        cases hempty
    rw [hnil] at hkg0
    exact absurd hkg0 (List.not_mem_nil kg0)
  · rw [if_neg hempty]
    have hperm := sortByCountDesc_perm
      (groupPhase w (search_emails w q max_emails inbox_only))
    obtain ⟨hnd, hem, _, _⟩ :=
      groupPhase_inv w (search_emails w q max_emails inbox_only)
    have hkeyinv : ∀ kg ∈ group_emails_by_sender w
        (search_emails w q max_emails inbox_only),
        senderKeyOf kg.2.email = kg.1 :=
      fun kg hkg => hem kg (hperm.mem_iff.mp hkg)
    have hndG : ((group_emails_by_sender w
        (search_emails w q max_emails inbox_only)).map Prod.fst).Nodup :=
      (hperm.map Prod.fst).nodup_iff.mpr hnd
    have hzero : ∀ kg ∈ group_emails_by_sender w
        (search_emails w q max_emails inbox_only), kg.1 = kg0.1 →
        ∃ latest2 mrest2, kg.2.messages = latest2 :: mrest2 ∧
          extract_unsubscribe_links latest2 = Except.ok [] := by
      intro kg hkg hkk
      have heq : kg = kg0 :=
        List.inj_on_of_nodup_map hndG hkg hkg0 hkk
      rw [heq]
      exact ⟨latest, mrest, hm, hx⟩
    obtain ⟨⟨tail, hev, hsafe⟩, hget, htr⟩ :=
      foldSenders_c5 w cfg kg0.1 hdry hdel hdw
        (group_emails_by_sender w (search_emails w q max_emails inbox_only))
        ⟨history0, [], 0, 0, 0, 0⟩ hkeyinv hzero
    refine ⟨?_, hget, ?_⟩
    · intro ev hev2
      have hev3 : ev ∈ (foldSenders w cfg
          (group_emails_by_sender w (search_emails w q max_emails inbox_only))
          ⟨history0, [], 0, 0, 0, 0⟩).2.events := hev2
      rw [hev] at hev3
      rcases List.mem_append.mp hev3 with h1 | h2
      · exact absurd h1 (List.not_mem_nil ev)
      · exact hsafe ev h2
    · intro hraised m hmm
      exact htr kg0 hkg0 rfl hraised m hmm

/-- A message without any unsubscribe link. -/
def c5Msg : Message :=
  ⟨"m1", [⟨"From", "Z <z@y.com>"⟩], Part.mk "text/plain" none PartList.nil⟩

/-- The sender group produced for `c5Msg`. -/
def c5KG : String × SenderGroup := ("z@y.com", ⟨"Z", "z@y.com", [c5Msg]⟩)

/-- Live config with cleanup and delete-without-link enabled. -/
def c5Cfg : Config := ⟨false, true, false, true⟩

/-- A world with one link-free message. -/
def c5World : World :=
  ⟨fun _ _ => Except.ok [⟨"m1"⟩],
   fun id => if id = "m1" then some c5Msg else none,
   fun _ _ => AttemptOutcome.exc, fun _ => true, fun _ => true, "t"⟩

theorem c5_zero_links_cleanup_witness :
    (∀ ev ∈ (process_unsubscribes_by_sender c5World "q" 10 c5Cfg true
        []).events,
      invokeKeyIs c5KG.1 ev = false ∧ ev ≠ Event.histWrite c5KG.1) ∧
    (process_unsubscribes_by_sender c5World "q" 10 c5Cfg true []).events =
      [Event.extractEv "m1", Event.trash "m1"] := by
  refine ⟨(c5_zero_links_cleanup c5World "q" 10 c5Cfg true [] c5KG c5Msg []
    rfl rfl rfl ?_ rfl rfl).1, by decide⟩
  rw [show group_emails_by_sender c5World
    (search_emails c5World "q" 10 true) = [c5KG] from rfl]
  exact List.mem_singleton.mpr rfl

/-! ## C6: dry-run behaviour -/

/-- Modelled from the spec: the decision each per-sender iteration
takes ("the same branching logic"). -/
inductive SenderBranch where
  | already
  | emptyGroup
  | extractError
  | noLinks
  | hasLinks
deriving DecidableEq

/-- Modelled from the spec: which branch the loop body takes for a
group, given the current history. -/
def branchOf (h : History) (kg : String × SenderGroup) : SenderBranch :=
  if is_already_unsubscribed h kg.2.email then SenderBranch.already
  else match kg.2.messages with
    | [] => SenderBranch.emptyGroup
    | latest :: _ =>
      match extract_unsubscribe_links latest with
      | Except.error _ => SenderBranch.extractError
      | Except.ok [] => SenderBranch.noLinks
      | Except.ok (_ :: _) => SenderBranch.hasLinks

/-- Which branches abort the loop with an uncaught exception. -/
def raisedOfBranch : SenderBranch → Bool
  | SenderBranch.emptyGroup => true
  | SenderBranch.extractError => true
  | _ => false

/-- The branch decisions of the loop, in order (the decision of a
raising iteration included last). -/
def branchesFold (w : World) (cfg : Config) :
    List (String × SenderGroup) → SenderLoopSt → List SenderBranch
  | [], _ => []
  | kg :: rest, st =>
    if (stepSender w cfg st kg).1 then [branchOf st.history kg]
    else branchOf st.history kg ::
      branchesFold w cfg rest (stepSender w cfg st kg).2

/-- The branch decisions of a whole run of the per-sender strategy. -/
def runBranches (w : World) (q : String) (max_emails : Nat) (cfg : Config)
    (inbox_only : Bool) (history0 : History) : List SenderBranch :=
  if (search_emails w q max_emails inbox_only).isEmpty then []
  else branchesFold w cfg
    (group_emails_by_sender w (search_emails w q max_emails inbox_only))
    ⟨history0, [], 0, 0, 0, 0⟩

theorem branchOf_congr (h1 h2 : History) (kg : String × SenderGroup)
    (hagree : histMem h1 (senderKeyOf kg.2.email) =
      histMem h2 (senderKeyOf kg.2.email)) :
    branchOf h1 kg = branchOf h2 kg := by
  unfold branchOf is_already_unsubscribed
  rw [hagree]

theorem branchOf_already (h : History) (kg : String × SenderGroup)
    (hya : is_already_unsubscribed h kg.2.email = true) :
    branchOf h kg = SenderBranch.already := by
  unfold branchOf
  rw [if_pos hya]

theorem branchOf_empty (h : History) (kg : String × SenderGroup)
    (hya : is_already_unsubscribed h kg.2.email = false)
    (hm : kg.2.messages = []) :
    branchOf h kg = SenderBranch.emptyGroup := by
  unfold branchOf
  rw [if_neg (by simp [hya]), hm]

theorem branchOf_error (h : History) (kg : String × SenderGroup)
    (latest : Message) (mrest : List Message)
    (hya : is_already_unsubscribed h kg.2.email = false)
    (hm : kg.2.messages = latest :: mrest)
    (hx : extract_unsubscribe_links latest = Except.error ()) :
    branchOf h kg = SenderBranch.extractError := by
  unfold branchOf
  rw [if_neg (by simp [hya]), hm]
  simp only [hx]

theorem branchOf_nolinks (h : History) (kg : String × SenderGroup)
    (latest : Message) (mrest : List Message)
    (hya : is_already_unsubscribed h kg.2.email = false)
    (hm : kg.2.messages = latest :: mrest)
    (hx : extract_unsubscribe_links latest = Except.ok []) :
    branchOf h kg = SenderBranch.noLinks := by
  unfold branchOf
  rw [if_neg (by simp [hya]), hm]
  simp only [hx]

theorem branchOf_links (h : History) (kg : String × SenderGroup)
    (latest : Message) (mrest : List Message) (url : String)
    (urest : List String)
    (hya : is_already_unsubscribed h kg.2.email = false)
    (hm : kg.2.messages = latest :: mrest)
    (hx : extract_unsubscribe_links latest = Except.ok (url :: urest)) :
    branchOf h kg = SenderBranch.hasLinks := by
  unfold branchOf
  rw [if_neg (by simp [hya]), hm]
  simp only [hx]

/-- Whether an iteration raises is determined by its branch alone. -/
theorem stepSender_raised_eq (w : World) (cfg : Config) (st : SenderLoopSt)
    (kg : String × SenderGroup) :
    (stepSender w cfg st kg).1 = raisedOfBranch (branchOf st.history kg) := by
  cases hya : is_already_unsubscribed st.history kg.2.email with
  | true =>
    rw [branchOf_already st.history kg hya]
    cases hc : (cfg.delete_after_unsubscribe && !cfg.dry_run) with
    | true =>
      rw [stepSender_already_clean w cfg st kg hya hc]
      rfl
    | false =>
      rw [stepSender_already_noclean w cfg st kg hya hc]
      rfl
  | false =>
    cases hm : kg.2.messages with
    | nil =>
      rw [branchOf_empty st.history kg hya hm,
        stepSender_empty w cfg st kg hya hm]
      rfl
    | cons latest mrest =>
      cases hx : extract_unsubscribe_links latest with
      | error e =>
        cases e
        rw [branchOf_error st.history kg latest mrest hya hm hx,
          stepSender_error w cfg st kg latest mrest hya hm hx]
        rfl
      | ok links =>
        cases links with
        | nil =>
          rw [branchOf_nolinks st.history kg latest mrest hya hm hx]
          cases hc : (cfg.delete_without_unsubscribe &&
              cfg.delete_after_unsubscribe && !cfg.dry_run) with
          | true =>
            rw [stepSender_nolinks_clean w cfg st kg latest mrest hya hm
              hx hc]
            rfl
          | false =>
            rw [stepSender_nolinks_noclean w cfg st kg latest mrest hya hm
              hx hc]
            rfl
        | cons url urest =>
          rw [branchOf_links st.history kg latest mrest url urest hya hm hx]
          cases hdry : cfg.dry_run with
          | true =>
            rw [stepSender_url_dry w cfg st kg latest mrest url urest hya
              hm hx hdry]
            rfl
          | false =>
            cases hdel : cfg.delete_after_unsubscribe with
            | true =>
              rw [stepSender_url_live_clean w cfg st kg latest mrest url
                urest hya hm hx hdry hdel]
              rfl
            | false =>
              rw [stepSender_url_live_noclean w cfg st kg latest mrest url
                urest hya hm hx hdry hdel]
              rfl

/-- A dry-run iteration never touches the history and only emits the
read-only extraction marker. -/
theorem stepSender_dry (w : World) (cfg : Config) (st : SenderLoopSt)
    (kg : String × SenderGroup) (hdry : cfg.dry_run = true) :
    (stepSender w cfg st kg).2.history = st.history ∧
    ∃ tail, (stepSender w cfg st kg).2.events = st.events ++ tail ∧
      ∀ ev ∈ tail, Event.isMutating ev = false := by
  cases hya : is_already_unsubscribed st.history kg.2.email with
  | true =>
    have hc : (cfg.delete_after_unsubscribe && !cfg.dry_run) = false := by
      rw [hdry]
      simp
    rw [stepSender_already_noclean w cfg st kg hya hc]
    exact ⟨rfl, [], by simp, fun ev hev => absurd hev (List.not_mem_nil ev)⟩
  | false =>
    cases hm : kg.2.messages with
    | nil =>
      rw [stepSender_empty w cfg st kg hya hm]
      exact ⟨rfl, [], by simp, fun ev hev => absurd hev (List.not_mem_nil ev)⟩
    | cons latest mrest =>
      cases hx : extract_unsubscribe_links latest with
      | error e =>
        cases e
        rw [stepSender_error w cfg st kg latest mrest hya hm hx]
        refine ⟨rfl, [Event.extractEv latest.id], rfl, ?_⟩
        intro ev hev
        rcases List.mem_cons.mp hev with rfl | hfalse
        · rfl
        · cases hfalse
      | ok links =>
        cases links with
        | nil =>
          have hc : (cfg.delete_without_unsubscribe &&
              cfg.delete_after_unsubscribe && !cfg.dry_run) = false := by
            rw [hdry]
            simp
          rw [stepSender_nolinks_noclean w cfg st kg latest mrest hya hm
            hx hc]
          refine ⟨rfl, [Event.extractEv latest.id], rfl, ?_⟩
          intro ev hev
          rcases List.mem_cons.mp hev with rfl | hfalse
          · rfl
          · cases hfalse
        | cons url urest =>
          rw [stepSender_url_dry w cfg st kg latest mrest url urest hya hm
            hx hdry]
          refine ⟨rfl, [Event.extractEv latest.id], rfl, ?_⟩
          intro ev hev
          rcases List.mem_cons.mp hev with rfl | hfalse
          · rfl
          · cases hfalse

theorem foldSenders_dry (w : World) (cfg : Config) (hdry : cfg.dry_run = true) :
    ∀ gs st, (foldSenders w cfg gs st).2.history = st.history ∧
      ∀ ev ∈ (foldSenders w cfg gs st).2.events,
        ev ∈ st.events ∨ Event.isMutating ev = false := by
  intro gs
  induction gs with
  | nil =>
    intro st
    rw [foldSenders_nil]
    exact ⟨rfl, fun ev hev => Or.inl hev⟩
  | cons kg rest ih =>
    intro st
    rw [foldSenders_cons]
    obtain ⟨hh, tail, hev, hsafe⟩ := stepSender_dry w cfg st kg hdry
    by_cases hr : (stepSender w cfg st kg).1 = true
    · rw [if_pos hr]
      refine ⟨hh, ?_⟩
      intro ev hev2
      rw [hev] at hev2
      rcases List.mem_append.mp hev2 with h1 | h2
      · exact Or.inl h1
      · exact Or.inr (hsafe ev h2)
    · rw [if_neg hr]
      obtain ⟨hh2, hev2⟩ := ih (stepSender w cfg st kg).2
      refine ⟨by rw [hh2, hh], ?_⟩
      intro ev hev3
      rcases hev2 ev hev3 with h1 | h1
      · rw [hev] at h1
        rcases List.mem_append.mp h1 with h2 | h3
        · exact Or.inl h2
        · exact Or.inr (hsafe ev h3)
      · exact Or.inr h1

/-- Dry and live runs agree on the branch decisions and on whether the
loop aborts, provided the groups have pairwise distinct canonical keys
(which the grouping phase guarantees). -/
theorem branchesFold_dry_live (w : World) (cfg : Config)
    (hdry : cfg.dry_run = true) :
    ∀ gs, (∀ kg ∈ gs, senderKeyOf kg.2.email = kg.1) →
      (gs.map Prod.fst).Nodup →
      ∀ st_d st_l : SenderLoopSt,
      (∀ kg ∈ gs, histMem st_l.history (senderKeyOf kg.2.email) =
        histMem st_d.history (senderKeyOf kg.2.email)) →
      branchesFold w cfg gs st_d =
        branchesFold w {cfg with dry_run := false} gs st_l ∧
      (foldSenders w cfg gs st_d).1 =
        (foldSenders w {cfg with dry_run := false} gs st_l).1 := by
  intro gs
  induction gs with
  | nil =>
    intro _ _ st_d st_l _
    exact ⟨rfl, rfl⟩
  | cons kg rest ih =>
    intro hkeyinv hnd st_d st_l hagree
    have hb : branchOf st_d.history kg = branchOf st_l.history kg :=
      (branchOf_congr st_l.history st_d.history kg
        (hagree kg (List.mem_cons_self kg rest))).symm
    have hr : (stepSender w cfg st_d kg).1 =
        (stepSender w {cfg with dry_run := false} st_l kg).1 := by
      rw [stepSender_raised_eq, stepSender_raised_eq, hb]
    have hkeyrest : ∀ p ∈ rest, senderKeyOf p.2.email = p.1 :=
      fun p hp => hkeyinv p (List.mem_cons_of_mem kg hp)
    have hndrest : (rest.map Prod.fst).Nodup := by
      rw [List.map_cons] at hnd
      exact (List.nodup_cons.mp hnd).2
    have hheadnotin : kg.1 ∉ rest.map Prod.fst := by
      rw [List.map_cons] at hnd
      exact (List.nodup_cons.mp hnd).1
    have hagreerest : ∀ p ∈ rest,
        histMem (stepSender w {cfg with dry_run := false} st_l kg).2.history
          (senderKeyOf p.2.email) =
        histMem (stepSender w cfg st_d kg).2.history
          (senderKeyOf p.2.email) := by
      intro p hp
      have hpne : senderKeyOf p.2.email ≠ senderKeyOf kg.2.email := by
        rw [hkeyrest p hp, hkeyinv kg (List.mem_cons_self kg rest)]
        intro he
        exact hheadnotin (he ▸ List.mem_map_of_mem Prod.fst hp)
      have hd : (stepSender w cfg st_d kg).2.history = st_d.history :=
        (stepSender_dry w cfg st_d kg hdry).1
      have hl : histMem
          (stepSender w {cfg with dry_run := false} st_l kg).2.history
          (senderKeyOf p.2.email) =
          histMem st_l.history (senderKeyOf p.2.email) := by
        rcases stepSender_main_cases w {cfg with dry_run := false} st_l kg
          with ⟨hh, _⟩ | ⟨_, _, url, tail, hh, _⟩
        · rw [hh]
        · rw [hh]
          exact histMem_upsert_ne st_l.history (senderKeyOf p.2.email)
            (senderKeyOf kg.2.email) _ hpne
      rw [hl, hd]
      exact hagree p (List.mem_cons_of_mem kg hp)
    obtain ⟨ihb, ihr⟩ := ih hkeyrest hndrest
      (stepSender w cfg st_d kg).2
      (stepSender w {cfg with dry_run := false} st_l kg).2 hagreerest
    rw [show branchesFold w cfg (kg :: rest) st_d =
        (if (stepSender w cfg st_d kg).1 then [branchOf st_d.history kg]
         else branchOf st_d.history kg ::
           branchesFold w cfg rest (stepSender w cfg st_d kg).2) from by
      simp only [branchesFold],
      show branchesFold w {cfg with dry_run := false} (kg :: rest) st_l =
        (if (stepSender w {cfg with dry_run := false} st_l kg).1 then
          [branchOf st_l.history kg]
         else branchOf st_l.history kg ::
           branchesFold w {cfg with dry_run := false} rest
             (stepSender w {cfg with dry_run := false} st_l kg).2) from by
      simp only [branchesFold],
      foldSenders_cons, foldSenders_cons]
    by_cases hrd : (stepSender w cfg st_d kg).1 = true
    · have hrl : (stepSender w {cfg with dry_run := false} st_l kg).1 =
          true := by
        rw [← hr]
        exact hrd
      rw [if_pos hrd, if_pos hrd, if_pos hrl, if_pos hrl]
      exact ⟨by rw [hb], rfl⟩
    · have hrl : ¬ (stepSender w {cfg with dry_run := false} st_l kg).1 =
          true := fun h => hrd (hr.trans h)
      rw [if_neg hrd, if_neg hrd, if_neg hrl, if_neg hrl]
      refine ⟨?_, ihr⟩
      rw [hb, ihb]

/-- C6: preview (dry-run) mode is side-effect free and idempotent and
keeps the live branching: with dry_run set, the per-sender run leaves
the history exactly as loaded and emits no mutating event (only
read-only extraction markers); running the strategy again on the state
it left behind returns the identical result; and the branch decisions
and abort behaviour equal those of the same run with dry_run cleared. -/
theorem c6_dry_run (w : World) (q : String) (max_emails : Nat)
    (cfg : Config) (inbox_only : Bool) (history0 : History)
    (hdry : cfg.dry_run = true) :
    (process_unsubscribes_by_sender w q max_emails cfg inbox_only
      history0).history = history0 ∧
    (process_unsubscribes_by_sender w q max_emails cfg inbox_only
      history0).events.filter Event.isMutating = [] ∧
    process_unsubscribes_by_sender w q max_emails cfg inbox_only
      (process_unsubscribes_by_sender w q max_emails cfg inbox_only
        history0).history =
      process_unsubscribes_by_sender w q max_emails cfg inbox_only
        history0 ∧
    runBranches w q max_emails cfg inbox_only history0 =
      runBranches w q max_emails {cfg with dry_run := false} inbox_only
        history0 ∧
    (process_unsubscribes_by_sender w q max_emails cfg inbox_only
      history0).raised =
    (process_unsubscribes_by_sender w q max_emails
      {cfg with dry_run := false} inbox_only history0).raised := by
  have hperm := sortByCountDesc_perm
    (groupPhase w (search_emails w q max_emails inbox_only))
  obtain ⟨hnd, hem, _, _⟩ :=
    groupPhase_inv w (search_emails w q max_emails inbox_only)
  have hkeyinv : ∀ kg ∈ group_emails_by_sender w
      (search_emails w q max_emails inbox_only),
      senderKeyOf kg.2.email = kg.1 :=
    fun kg hkg => hem kg (hperm.mem_iff.mp hkg)
  have hndG : ((group_emails_by_sender w
      (search_emails w q max_emails inbox_only)).map Prod.fst).Nodup :=
    (hperm.map Prod.fst).nodup_iff.mpr hnd
  have hagree := branchesFold_dry_live w cfg hdry
    (group_emails_by_sender w (search_emails w q max_emails inbox_only))
    hkeyinv hndG ⟨history0, [], 0, 0, 0, 0⟩ ⟨history0, [], 0, 0, 0, 0⟩
    (fun kg _ => rfl)
  have hh : (process_unsubscribes_by_sender w q max_emails cfg inbox_only
      history0).history = history0 := by
    simp only [process_unsubscribes_by_sender]
    by_cases hempty : (search_emails w q max_emails inbox_only).isEmpty = true
    · rw [if_pos hempty]
    · rw [if_neg hempty]
      exact (foldSenders_dry w cfg hdry _ ⟨history0, [], 0, 0, 0, 0⟩).1
  have hfilter : (process_unsubscribes_by_sender w q max_emails cfg
      inbox_only history0).events.filter Event.isMutating = [] := by
    simp only [process_unsubscribes_by_sender]
    by_cases hempty : (search_emails w q max_emails inbox_only).isEmpty = true
    · rw [if_pos hempty]
      rfl
    · rw [if_neg hempty]
      show (foldSenders w cfg
        (group_emails_by_sender w (search_emails w q max_emails inbox_only))
        ⟨history0, [], 0, 0, 0, 0⟩).2.events.filter Event.isMutating = []
      rw [List.filter_eq_nil_iff]
      intro ev hev
      rcases (foldSenders_dry w cfg hdry _
        ⟨history0, [], 0, 0, 0, 0⟩).2 ev hev with h1 | h1
      · exact absurd h1 (List.not_mem_nil ev)
      · simp [h1]
  have hbr : runBranches w q max_emails cfg inbox_only history0 =
      runBranches w q max_emails {cfg with dry_run := false} inbox_only
        history0 := by
    unfold runBranches
    by_cases hempty : (search_emails w q max_emails inbox_only).isEmpty = true
    · rw [if_pos hempty, if_pos hempty]
    · rw [if_neg hempty, if_neg hempty]
      exact hagree.1
  have hraised : (process_unsubscribes_by_sender w q max_emails cfg
      inbox_only history0).raised =
      (process_unsubscribes_by_sender w q max_emails
        {cfg with dry_run := false} inbox_only history0).raised := by
    simp only [process_unsubscribes_by_sender]
    by_cases hempty : (search_emails w q max_emails inbox_only).isEmpty = true
    · rw [if_pos hempty, if_pos hempty]
    · rw [if_neg hempty, if_neg hempty]
      show (foldSenders w cfg
        (group_emails_by_sender w (search_emails w q max_emails inbox_only))
        ⟨history0, [], 0, 0, 0, 0⟩).1 =
        (foldSenders w {cfg with dry_run := false}
          (group_emails_by_sender w
            (search_emails w q max_emails inbox_only))
          ⟨history0, [], 0, 0, 0, 0⟩).1
      exact hagree.2
  exact ⟨hh, hfilter, by rw [hh], hbr, hraised⟩

/-- Dry-run config with cleanup and delete-without-link enabled (so a
live run would trash and invoke). -/
def c6Cfg : Config := ⟨true, true, false, true⟩

/-- A world with one message carrying an unsubscribe link. -/
def c6World : World :=
  ⟨fun _ _ => Except.ok [⟨"m1"⟩],
   fun id =>
     if id = "m1" then
       some ⟨"m1", [⟨"From", "W <w@y.com>"⟩,
         ⟨"List-Unsubscribe", "<https://u.example/w>"⟩],
         Part.mk "text/plain" none PartList.nil⟩
     else none,
   fun _ _ => AttemptOutcome.status 200, fun _ => true, fun _ => true, "t"⟩

theorem c6_dry_run_witness :
    (process_unsubscribes_by_sender c6World "q" 10 c6Cfg true []).history
      = [] ∧
    (process_unsubscribes_by_sender c6World "q" 10 c6Cfg true
      []).events.filter Event.isMutating = [] ∧
    runBranches c6World "q" 10 c6Cfg true [] =
      [SenderBranch.hasLinks] := by
  refine ⟨(c6_dry_run c6World "q" 10 c6Cfg true [] rfl).1,
    (c6_dry_run c6World "q" 10 c6Cfg true [] rfl).2.1, by decide⟩

/-! ## C8: the per-message strategy and the history store -/

theorem foldMsgs_nil (w : World) (cfg : Config) (st : MsgLoopSt) :
    foldMsgs w cfg [] st = (false, st) := rfl

theorem foldMsgs_cons (w : World) (cfg : Config) (st : MsgLoopSt)
    (stub : Stub) (rest : List Stub) :
    foldMsgs w cfg (stub :: rest) st =
      (if (stepMsg w cfg st stub).1 then (true, (stepMsg w cfg st stub).2)
       else foldMsgs w cfg rest (stepMsg w cfg st stub).2) := by
  simp only [foldMsgs]

theorem stepMsg_nofetch (w : World) (cfg : Config) (st : MsgLoopSt)
    (stub : Stub) (hf : w.fetch stub.id = none) :
    stepMsg w cfg st stub = (false, st) := by
  simp only [stepMsg, hf]

theorem stepMsg_skip_clean (w : World) (cfg : Config) (st : MsgLoopSt)
    (stub : Stub) (message : Message)
    (hf : w.fetch stub.id = some message)
    (hk : st.processed_senders.contains
      (senderKeyOf (get_sender_info message).2) = true)
    (hc : (cfg.delete_after_unsubscribe && !cfg.dry_run) = true) :
    stepMsg w cfg st stub = (false,
      { events := st.events ++ (cleanupCall w cfg [stub.id]).2,
        processed_senders := st.processed_senders,
        processed_count := st.processed_count,
        success_count := st.success_count,
        skipped_count := st.skipped_count + 1 }) := by
  simp only [stepMsg, hf]
  rw [if_pos hk, if_pos hc]

theorem stepMsg_skip_noclean (w : World) (cfg : Config) (st : MsgLoopSt)
    (stub : Stub) (message : Message)
    (hf : w.fetch stub.id = some message)
    (hk : st.processed_senders.contains
      (senderKeyOf (get_sender_info message).2) = true)
    (hc : (cfg.delete_after_unsubscribe && !cfg.dry_run) = false) :
    stepMsg w cfg st stub = (false,
      { events := st.events,
        processed_senders := st.processed_senders,
        processed_count := st.processed_count,
        success_count := st.success_count,
        skipped_count := st.skipped_count + 1 }) := by
  simp only [stepMsg, hf]
  rw [if_pos hk, if_neg (by simp [hc])]

theorem stepMsg_error (w : World) (cfg : Config) (st : MsgLoopSt)
    (stub : Stub) (message : Message)
    (hf : w.fetch stub.id = some message)
    (hk : st.processed_senders.contains
      (senderKeyOf (get_sender_info message).2) = false)
    (hx : extract_unsubscribe_links message = Except.error ()) :
    stepMsg w cfg st stub = (true,
      { events := st.events ++ [Event.extractEv message.id],
        processed_senders := st.processed_senders,
        processed_count := st.processed_count,
        success_count := st.success_count,
        skipped_count := st.skipped_count }) := by
  simp only [stepMsg, hf]
  rw [if_neg (by rw [hk]; exact fun h => Bool.noConfusion h)]
  simp only [hx]

theorem stepMsg_nolinks_clean (w : World) (cfg : Config) (st : MsgLoopSt)
    (stub : Stub) (message : Message)
    (hf : w.fetch stub.id = some message)
    (hk : st.processed_senders.contains
      (senderKeyOf (get_sender_info message).2) = false)
    (hx : extract_unsubscribe_links message = Except.ok [])
    (hc : (cfg.delete_without_unsubscribe && cfg.delete_after_unsubscribe
      && !cfg.dry_run) = true) :
    stepMsg w cfg st stub = (false,
      { events := (st.events ++ [Event.extractEv message.id]) ++
          (cleanupCall w cfg [stub.id]).2,
        processed_senders := st.processed_senders,
        processed_count := st.processed_count,
        success_count := st.success_count,
        skipped_count := st.skipped_count }) := by
  simp only [stepMsg, hf]
  rw [if_neg (by rw [hk]; exact fun h => Bool.noConfusion h)]
  simp only [hx]
  rw [if_pos hc]

theorem stepMsg_nolinks_noclean (w : World) (cfg : Config) (st : MsgLoopSt)
    (stub : Stub) (message : Message)
    (hf : w.fetch stub.id = some message)
    (hk : st.processed_senders.contains
      (senderKeyOf (get_sender_info message).2) = false)
    (hx : extract_unsubscribe_links message = Except.ok [])
    (hc : (cfg.delete_without_unsubscribe && cfg.delete_after_unsubscribe
      && !cfg.dry_run) = false) :
    stepMsg w cfg st stub = (false,
      { events := st.events ++ [Event.extractEv message.id],
        processed_senders := st.processed_senders,
        processed_count := st.processed_count,
        success_count := st.success_count,
        skipped_count := st.skipped_count }) := by
  simp only [stepMsg, hf]
  rw [if_neg (by rw [hk]; exact fun h => Bool.noConfusion h)]
  simp only [hx]
  rw [if_neg (by simp [hc])]

theorem stepMsg_url_dry (w : World) (cfg : Config) (st : MsgLoopSt)
    (stub : Stub) (message : Message) (url : String) (urest : List String)
    (hf : w.fetch stub.id = some message)
    (hk : st.processed_senders.contains
      (senderKeyOf (get_sender_info message).2) = false)
    (hx : extract_unsubscribe_links message = Except.ok (url :: urest))
    (hdry : cfg.dry_run = true) :
    stepMsg w cfg st stub = (false,
      { events := st.events ++ [Event.extractEv message.id],
        processed_senders :=
          senderKeyOf (get_sender_info message).2 :: st.processed_senders,
        processed_count := st.processed_count + 1,
        success_count := st.success_count,
        skipped_count := st.skipped_count }) := by
  simp only [stepMsg, hf]
  rw [if_neg (by rw [hk]; exact fun h => Bool.noConfusion h)]
  simp only [hx]
  rw [if_pos hdry]

theorem stepMsg_url_live (w : World) (cfg : Config) (st : MsgLoopSt)
    (stub : Stub) (message : Message) (url : String) (urest : List String)
    (hf : w.fetch stub.id = some message)
    (hk : st.processed_senders.contains
      (senderKeyOf (get_sender_info message).2) = false)
    (hx : extract_unsubscribe_links message = Except.ok (url :: urest))
    (hdry : cfg.dry_run = false) :
    stepMsg w cfg st stub = (false,
      { events := ((st.events ++ [Event.extractEv message.id]) ++
          [Event.invoke (get_sender_info message).2 url]) ++
          (if cfg.delete_after_unsubscribe then (cleanupCall w cfg
            [stub.id]).2
           else if (attempt_unsubscribe (w.http url) 2).1 then
            label_message stub.id
           else []),
        processed_senders :=
          senderKeyOf (get_sender_info message).2 :: st.processed_senders,
        processed_count := st.processed_count + 1,
        success_count := st.success_count +
          (if (attempt_unsubscribe (w.http url) 2).1 then 1 else 0),
        skipped_count := st.skipped_count }) := by
  simp only [stepMsg, hf]
  rw [if_neg (by rw [hk]; exact fun h => Bool.noConfusion h)]
  simp only [hx]
  rw [if_neg (by simp [hdry])]
  cases hdel : cfg.delete_after_unsubscribe with
  | true =>
    cases hs : (attempt_unsubscribe (w.http url) 2).1 <;> simp [hs]
  | false =>
    cases hs : (attempt_unsubscribe (w.http url) 2).1 <;> simp [hs]

/-- A per-message iteration appends events and none of them is a
history write. -/
theorem stepMsg_events_nohist (w : World) (cfg : Config) (st : MsgLoopSt)
    (stub : Stub) :
    ∃ tail, (stepMsg w cfg st stub).2.events = st.events ++ tail ∧
      ∀ ev ∈ tail, isHistWriteEv ev = false := by
  cases hf : w.fetch stub.id with
  | none =>
    rw [stepMsg_nofetch w cfg st stub hf]
    exact ⟨[], by simp, fun ev hev => absurd hev (List.not_mem_nil ev)⟩
  | some message =>
    cases hk : st.processed_senders.contains
        (senderKeyOf (get_sender_info message).2) with
    | true =>
      cases hc : (cfg.delete_after_unsubscribe && !cfg.dry_run) with
      | true =>
        rw [stepMsg_skip_clean w cfg st stub message hf hk hc]
        exact ⟨(cleanupCall w cfg [stub.id]).2, rfl,
          fun ev hev => (cleanupCall_events w cfg _ ev hev).2⟩
      | false =>
        rw [stepMsg_skip_noclean w cfg st stub message hf hk hc]
        exact ⟨[], by simp, fun ev hev => absurd hev (List.not_mem_nil ev)⟩
    | false =>
      cases hx : extract_unsubscribe_links message with
      | error e =>
        cases e
        rw [stepMsg_error w cfg st stub message hf hk hx]
        refine ⟨[Event.extractEv message.id], rfl, ?_⟩
        intro ev hev
        rcases List.mem_cons.mp hev with rfl | hfalse
        · rfl
        · cases hfalse
      | ok links =>
        cases links with
        | nil =>
          cases hc : (cfg.delete_without_unsubscribe &&
              cfg.delete_after_unsubscribe && !cfg.dry_run) with
          | true =>
            rw [stepMsg_nolinks_clean w cfg st stub message hf hk hx hc]
            refine ⟨[Event.extractEv message.id] ++
              (cleanupCall w cfg [stub.id]).2,
              by rw [List.append_assoc], ?_⟩
            intro ev hev
            rcases List.mem_append.mp hev with h1 | h2
            · rcases List.mem_cons.mp h1 with rfl | hfalse
              · rfl
              · cases hfalse
            · exact (cleanupCall_events w cfg _ ev h2).2
          | false =>
            rw [stepMsg_nolinks_noclean w cfg st stub message hf hk hx hc]
            refine ⟨[Event.extractEv message.id], rfl, ?_⟩
            intro ev hev
            rcases List.mem_cons.mp hev with rfl | hfalse
            · rfl
            · cases hfalse
        | cons url urest =>
          cases hdry : cfg.dry_run with
          | true =>
            rw [stepMsg_url_dry w cfg st stub message url urest hf hk hx
              hdry]
            refine ⟨[Event.extractEv message.id], rfl, ?_⟩
            intro ev hev
            rcases List.mem_cons.mp hev with rfl | hfalse
            · rfl
            · cases hfalse
          | false =>
            rw [stepMsg_url_live w cfg st stub message url urest hf hk hx
              hdry]
            refine ⟨[Event.extractEv message.id] ++
              ([Event.invoke (get_sender_info message).2 url] ++
               (if cfg.delete_after_unsubscribe then
                 (cleanupCall w cfg [stub.id]).2
                else if (attempt_unsubscribe (w.http url) 2).1 then
                 label_message stub.id
                else [])),
              by rw [List.append_assoc, List.append_assoc], ?_⟩
            intro ev hev
            rcases List.mem_append.mp hev with h1 | h2
            · rcases List.mem_cons.mp h1 with rfl | hfalse
              · rfl
              · cases hfalse
            rcases List.mem_append.mp h2 with h3 | h4
            · rcases List.mem_cons.mp h3 with rfl | hfalse
              · rfl
              · cases hfalse
            · by_cases hdel : cfg.delete_after_unsubscribe = true
              · rw [if_pos hdel] at h4
                exact (cleanupCall_events w cfg _ ev h4).2
              · rw [if_neg hdel] at h4
                by_cases hs : (attempt_unsubscribe (w.http url) 2).1 = true
                · rw [if_pos hs] at h4
                  rcases List.mem_cons.mp h4 with rfl | hfalse
                  · rfl
                  · cases hfalse
                · rw [if_neg hs] at h4
                  cases h4

theorem foldMsgs_events_nohist (w : World) (cfg : Config) :
    ∀ stubs st, ∃ tail,
      (foldMsgs w cfg stubs st).2.events = st.events ++ tail ∧
      ∀ ev ∈ tail, isHistWriteEv ev = false := by
  intro stubs
  induction stubs with
  | nil =>
    intro st
    rw [foldMsgs_nil]
    exact ⟨[], by simp, fun ev hev => absurd hev (List.not_mem_nil ev)⟩
  | cons stub rest ih =>
    intro st
    rw [foldMsgs_cons]
    obtain ⟨t1, he1, hs1⟩ := stepMsg_events_nohist w cfg st stub
    by_cases hr : (stepMsg w cfg st stub).1 = true
    · rw [if_pos hr]
      exact ⟨t1, he1, hs1⟩
    · rw [if_neg hr]
      obtain ⟨t2, he2, hs2⟩ := ih (stepMsg w cfg st stub).2
      refine ⟨t1 ++ t2, by rw [he2, he1, List.append_assoc], ?_⟩
      intro ev hev
      rcases List.mem_append.mp hev with h1 | h2
      · exact hs1 ev h1
      · exact hs2 ev h2

/-- Fold invariant for C8: if every fetched message of sender key `k0`
yields zero links, the per-message loop never adds `k0` to
processed_senders, and (when it completes) emits an extraction marker
for every such message. -/
theorem foldMsgs_zero_link (w : World) (cfg : Config) (k0 : String) :
    ∀ stubs st,
      (∀ s ∈ stubs, ∀ m, w.fetch s.id = some m →
        senderKeyOf (get_sender_info m).2 = k0 →
        extract_unsubscribe_links m = Except.ok []) →
      k0 ∉ st.processed_senders →
      k0 ∉ (foldMsgs w cfg stubs st).2.processed_senders ∧
      ((foldMsgs w cfg stubs st).1 = false →
        ∀ s ∈ stubs, ∀ m, w.fetch s.id = some m →
          senderKeyOf (get_sender_info m).2 = k0 →
          Event.extractEv m.id ∈ (foldMsgs w cfg stubs st).2.events) := by
  intro stubs
  induction stubs with
  | nil =>
    intro st _ hk0
    rw [foldMsgs_nil]
    exact ⟨hk0, fun _ s hs => absurd hs (List.not_mem_nil s)⟩
  | cons stub rest ih =>
    intro st hall hk0
    have hallrest : ∀ s ∈ rest, ∀ m, w.fetch s.id = some m →
        senderKeyOf (get_sender_info m).2 = k0 →
        extract_unsubscribe_links m = Except.ok [] :=
      fun s hs => hall s (List.mem_cons_of_mem stub hs)
    rw [foldMsgs_cons]
    cases hf : w.fetch stub.id with
    | none =>
      rw [stepMsg_nofetch w cfg st stub hf,
        if_neg (fun h => Bool.noConfusion h)]
      obtain ⟨h1, h2⟩ := ih st hallrest hk0
      refine ⟨h1, ?_⟩
      intro hr s hs m hm hkm
      rcases List.mem_cons.mp hs with rfl | hs2
      · rw [hf] at hm
        cases hm
      · exact h2 hr s hs2 m hm hkm
    | some message =>
      cases hk : st.processed_senders.contains
          (senderKeyOf (get_sender_info message).2) with
      | true =>
        have hkne : senderKeyOf (get_sender_info message).2 ≠ k0 := by
          intro he
          rw [he] at hk
          exact hk0 (by simpa using hk)
        have hnext : ∀ st2 : MsgLoopSt,
            st2.processed_senders = st.processed_senders →
            st2.events = st.events ++
              (if (cfg.delete_after_unsubscribe && !cfg.dry_run) = true
               then (cleanupCall w cfg [stub.id]).2 else []) →
            k0 ∉ (foldMsgs w cfg rest st2).2.processed_senders ∧
            ((foldMsgs w cfg rest st2).1 = false →
              ∀ s ∈ stub :: rest, ∀ m, w.fetch s.id = some m →
                senderKeyOf (get_sender_info m).2 = k0 →
                Event.extractEv m.id ∈ (foldMsgs w cfg rest st2).2.events)
            := by
          intro st2 hps _
          have hk02 : k0 ∉ st2.processed_senders := by
            rw [hps]
            exact hk0
          obtain ⟨h1, h2⟩ := ih st2 hallrest hk02
          refine ⟨h1, ?_⟩
          intro hr s hs m hm hkm
          rcases List.mem_cons.mp hs with rfl | hs2
          · rw [hf] at hm
            injection hm with hme
            rw [← hme] at hkm
            exact absurd hkm hkne
          · exact h2 hr s hs2 m hm hkm
        cases hc : (cfg.delete_after_unsubscribe && !cfg.dry_run) with
        | true =>
          rw [stepMsg_skip_clean w cfg st stub message hf hk hc,
            if_neg (fun h => Bool.noConfusion h)]
          exact hnext _ rfl (by rw [if_pos hc])
        | false =>
          rw [stepMsg_skip_noclean w cfg st stub message hf hk hc,
            if_neg (fun h => Bool.noConfusion h)]
          exact hnext _ rfl (by rw [if_neg (by simp [hc])]; simp)
      | false =>
        cases hx : extract_unsubscribe_links message with
        | error e =>
          cases e
          rw [stepMsg_error w cfg st stub message hf hk hx,
            if_pos rfl]
          refine ⟨hk0, ?_⟩
          intro hr
          exact absurd hr (by simp)
        | ok links =>
          cases links with
          | nil =>
            have hcommon : ∀ st2 : MsgLoopSt,
                st2.processed_senders = st.processed_senders →
                Event.extractEv message.id ∈ st2.events →
                k0 ∉ (foldMsgs w cfg rest st2).2.processed_senders ∧
                ((foldMsgs w cfg rest st2).1 = false →
                  ∀ s ∈ stub :: rest, ∀ m, w.fetch s.id = some m →
                    senderKeyOf (get_sender_info m).2 = k0 →
                    Event.extractEv m.id ∈
                      (foldMsgs w cfg rest st2).2.events) := by
              intro st2 hps hexev
              have hk02 : k0 ∉ st2.processed_senders := by
                rw [hps]
                exact hk0
              obtain ⟨h1, h2⟩ := ih st2 hallrest hk02
              refine ⟨h1, ?_⟩
              intro hr s hs m hm hkm
              rcases List.mem_cons.mp hs with rfl | hs2
              · rw [hf] at hm
                injection hm with hme
                obtain ⟨tailA, heA, _⟩ := foldMsgs_events_nohist w cfg rest st2
                rw [heA, ← hme]
                exact List.mem_append_left _ hexev
              · exact h2 hr s hs2 m hm hkm
            cases hc : (cfg.delete_without_unsubscribe &&
                cfg.delete_after_unsubscribe && !cfg.dry_run) with
            | true =>
              rw [stepMsg_nolinks_clean w cfg st stub message hf hk hx hc,
                if_neg (fun h => Bool.noConfusion h)]
              refine hcommon _ rfl ?_
              exact List.mem_append_left _ (List.mem_append_right _
                (List.mem_singleton.mpr rfl))
            | false =>
              rw [stepMsg_nolinks_noclean w cfg st stub message hf hk hx hc,
                if_neg (fun h => Bool.noConfusion h)]
              refine hcommon _ rfl ?_
              exact List.mem_append_right _ (List.mem_singleton.mpr rfl)
          | cons url urest =>
            have hkne : senderKeyOf (get_sender_info message).2 ≠ k0 := by
              intro he
              have hz := hall stub (List.mem_cons_self stub rest) message
                hf he
              rw [hx] at hz
              injection hz with h2
              cases h2
            have hk02 : k0 ∉ senderKeyOf (get_sender_info message).2 ::
                st.processed_senders := by
              intro hmem
              rcases List.mem_cons.mp hmem with he | hmem2
              · exact hkne he.symm
              · exact hk0 hmem2
            have hnext : ∀ st2 : MsgLoopSt,
                st2.processed_senders =
                  senderKeyOf (get_sender_info message).2 ::
                    st.processed_senders →
                k0 ∉ (foldMsgs w cfg rest st2).2.processed_senders ∧
                ((foldMsgs w cfg rest st2).1 = false →
                  ∀ s ∈ stub :: rest, ∀ m, w.fetch s.id = some m →
                    senderKeyOf (get_sender_info m).2 = k0 →
                    Event.extractEv m.id ∈
                      (foldMsgs w cfg rest st2).2.events) := by
              intro st2 hps
              have hk03 : k0 ∉ st2.processed_senders := by
                rw [hps]
                exact hk02
              obtain ⟨h1, h2⟩ := ih st2 hallrest hk03
              refine ⟨h1, ?_⟩
              intro hr s hs m hm hkm
              rcases List.mem_cons.mp hs with rfl | hs2
              · rw [hf] at hm
                injection hm with hme
                rw [← hme] at hkm
                exact absurd hkm hkne
              · exact h2 hr s hs2 m hm hkm
            cases hdry : cfg.dry_run with
            | true =>
              rw [stepMsg_url_dry w cfg st stub message url urest hf hk hx
                hdry, if_neg (fun h => Bool.noConfusion h)]
              exact hnext _ rfl
            | false =>
              rw [stepMsg_url_live w cfg st stub message url urest hf hk hx
                hdry, if_neg (fun h => Bool.noConfusion h)]
              exact hnext _ rfl

/-- C8: the per-message strategy never reads or writes the history
store: the returned history is exactly the loaded one and no history
write event is ever emitted, for any configuration; moreover, a sender
key all of whose fetched messages yield zero links is never added to
the run-local processed_senders set, so when the loop completes the
extraction was re-run on every one of that sender's messages. -/
theorem c8_per_message_frame (w : World) (q : String) (max_emails : Nat)
    (cfg : Config) (inbox_only : Bool) (history0 : History) (k0 : String)
    (hall : ∀ s ∈ search_emails w q max_emails inbox_only, ∀ m,
      w.fetch s.id = some m → senderKeyOf (get_sender_info m).2 = k0 →
      extract_unsubscribe_links m = Except.ok []) :
    (process_unsubscribes w q max_emails cfg inbox_only history0).history =
      history0 ∧
    (∀ k, Event.histWrite k ∉
      (process_unsubscribes w q max_emails cfg inbox_only history0).events) ∧
    k0 ∉ (process_unsubscribes w q max_emails cfg inbox_only
      history0).processed_senders ∧
    ((process_unsubscribes w q max_emails cfg inbox_only history0).raised =
        false →
      ∀ s ∈ search_emails w q max_emails inbox_only, ∀ m,
        w.fetch s.id = some m → senderKeyOf (get_sender_info m).2 = k0 →
        Event.extractEv m.id ∈
          (process_unsubscribes w q max_emails cfg inbox_only
            history0).events) := by
  simp only [process_unsubscribes]
  by_cases hempty : (search_emails w q max_emails inbox_only).isEmpty = true
  · rw [if_pos hempty]
    have hnil : search_emails w q max_emails inbox_only = [] := by
      cases hs : search_emails w q max_emails inbox_only with
      | nil => rfl
      | cons a l =>
        rw [hs] at hempty
        cases hempty
    refine ⟨rfl, fun k => List.not_mem_nil _, List.not_mem_nil _, ?_⟩
    intro _ s hs
    rw [hnil] at hs
    exact absurd hs (List.not_mem_nil s)
  · rw [if_neg hempty]
    obtain ⟨hp, hd⟩ := foldMsgs_zero_link w cfg k0
      (search_emails w q max_emails inbox_only) ⟨[], [], 0, 0, 0⟩ hall
      (List.not_mem_nil k0)
    obtain ⟨tailA, heA, hsA⟩ := foldMsgs_events_nohist w cfg
      (search_emails w q max_emails inbox_only) ⟨[], [], 0, 0, 0⟩
    refine ⟨rfl, ?_, hp, ?_⟩
    · intro k hmem
      have hmem2 : Event.histWrite k ∈ (foldMsgs w cfg
          (search_emails w q max_emails inbox_only)
          ⟨[], [], 0, 0, 0⟩).2.events := hmem
      rw [heA] at hmem2
      rcases List.mem_append.mp hmem2 with h1 | h2
      · exact absurd h1 (List.not_mem_nil _)
      · exact Bool.noConfusion (hsA _ h2)
    · intro hr s hs m hm hkm
      exact hd hr s hs m hm hkm

/-- A message with no unsubscribe links from sender key `n@y.com`. -/
def c8Msg : Message :=
  ⟨"m1", [⟨"From", "N <n@y.com>"⟩], Part.mk "text/plain" none PartList.nil⟩

/-- A world with one link-free message. -/
def c8World : World :=
  ⟨fun _ _ => Except.ok [⟨"m1"⟩],
   fun id => if id = "m1" then some c8Msg else none,
   fun _ _ => AttemptOutcome.exc, fun _ => true, fun _ => true, "t"⟩

/-- Live config with no cleanup at all. -/
def c8Cfg : Config := ⟨false, false, false, false⟩

theorem c8_per_message_frame_witness :
    (process_unsubscribes c8World "q" 10 c8Cfg true
      [("z@z.com", ⟨"Z", "z@z.com", true, true, "t", none⟩)]).history =
      [("z@z.com", ⟨"Z", "z@z.com", true, true, "t", none⟩)] ∧
    "n@y.com" ∉ (process_unsubscribes c8World "q" 10 c8Cfg true
      [("z@z.com", ⟨"Z", "z@z.com", true, true, "t", none⟩)]).processed_senders ∧
    (process_unsubscribes c8World "q" 10 c8Cfg true
      [("z@z.com", ⟨"Z", "z@z.com", true, true, "t", none⟩)]).events =
      [Event.extractEv "m1"] := by
  have hall : ∀ s ∈ search_emails c8World "q" 10 true, ∀ m,
      c8World.fetch s.id = some m →
      senderKeyOf (get_sender_info m).2 = "n@y.com" →
      extract_unsubscribe_links m = Except.ok [] := by
    intro s hs m hm hkm
    rw [show search_emails c8World "q" 10 true = [(⟨"m1"⟩ : Stub)] from
      rfl] at hs
    rcases List.mem_cons.mp hs with rfl | hfalse
    · have hm2 : some c8Msg = some m := hm
      injection hm2 with hme
      rw [← hme]
      rfl
    · cases hfalse
  have h := c8_per_message_frame c8World "q" 10 c8Cfg true
    [("z@z.com", ⟨"Z", "z@z.com", true, true, "t", none⟩)] "n@y.com" hall
  exact ⟨h.1, h.2.2.1, by decide⟩

end Gmail
